import Mathlib

/-!
# HOG feature extractor (`Simd/SimdAvx2Hog.cpp`, class `HogFeatureExtractor`)

A shallow embedding of the 31-channel HOG descriptor computed by
`Simd::Avx2::HogExtractFeatures`.

Numbers.  Pixels are bytes, gradients and bin indices are integers.  A `float`
is embedded as a rational number and `+`, `*`, `min`, `max` are taken as exact;
the operations that have no rational value (the `cos`/`sin` tables filled by
`Init` and the two square roots) are the fields of a `FloatEnv`, so every
theorem holds for whatever values these operations return.

Memory.  Every array is a total function on signed element offsets from the
start of the array, so an access outside the allocated extent is representable
and can be talked about.
-/

namespace Simd
namespace Avx2

/-- Cell size in pixels (`HogFeatureExtractor::C`). -/
def C : ℕ := 8

/-- Number of contrast-insensitive orientations (`HogFeatureExtractor::Q`). -/
def Q : ℕ := 9

/-- Number of contrast-sensitive orientations (`HogFeatureExtractor::Q2`). -/
def Q2 : ℕ := 18

/-- Modelled from the spec: the constant `HA` of `SimdConst.h`, half of the
32-byte register width `A`; it is the number of pixels consumed by one call of
`GetHistogram(src, stride, col)`. -/
def HA : ℕ := 16

/-- Float memory addressed by a signed element offset. -/
abbrev Mem := ℤ → ℚ

/-- Byte memory addressed by a signed offset from the `src` pointer. -/
abbrev Bytes := ℤ → Fin 256

/-- A 4-lane float register (`__m128`). -/
abbrev V4 := Fin 4 → ℚ

/-- The float operations without a rational value: `cos i` and `sin i` are the
table entries `_cos[i]`, `_sin[i]` that `Init` fills with
`(float)cos(i*M_PI/Q)` and `(float)sin(i*M_PI/Q)`; `sqrtPs` is the lane-wise
`Avx::Sqrt<0>` used for the magnitude and `sqrt` the scalar `sqrt` used by
`Run`. -/
structure FloatEnv where
  cos : ℕ → ℚ
  sin : ℕ → ℚ
  sqrtPs : ℚ → ℚ
  sqrt : ℚ → ℚ

/-- Modelled from the spec: `AlignHi(size, align)` of `SimdMemory.h`, the least
multiple of `align` that is at least `size`. -/
def AlignHi (size align : ℕ) : ℕ := (size + align - 1) / align * align

/-- Subtraction of two `size_t` values, modulo `2^64`. -/
def subSizeT (a b : ℕ) : ℕ := (a + 2 ^ 64 - b % 2 ^ 64) % 2 ^ 64

/-- The element offset reached by adding a `size_t` to a pointer: address
arithmetic is modulo `2^64`, so a wrapped value steps backwards. -/
def ptrOff (n : ℕ) : ℤ := if n < 2 ^ 63 then (n : ℤ) else (n : ℤ) - 2 ^ 64

/-- The values taken by `c` in `for (c = start; c < stop; c += step)`. -/
def loopRange (start stop step : ℕ) : List ℕ :=
  (List.range ((stop - start + step - 1) / step)).map (fun k => start + step * k)

/-- Modelled from the spec: `Simd::Square` of `SimdMath.h`. -/
def Square (a : ℚ) : ℚ := a * a

/-- Modelled from the spec: `Simd::Min` of `SimdMath.h`, `a < b ? a : b`. -/
def Min (a b : ℚ) : ℚ := if a < b then a else b

/-! ## Lane-wise register operations -/

/-- The intrinsic `_mm_unpacklo_ps`. -/
def unpacklo (a b : V4) : V4 := ![a 0, b 0, a 1, b 1]

/-- The intrinsic `_mm_unpackhi_ps`. -/
def unpackhi (a b : V4) : V4 := ![a 2, b 2, a 3, b 3]

/-- The intrinsic `_mm_loadu_ps` at float offset `a`. -/
def loadV4 (m : Mem) (a : ℤ) : V4 := ![m a, m (a + 1), m (a + 2), m (a + 3)]

/-- The intrinsic `_mm_storeu_ps` at float offset `a`. -/
def storeV4 (m : Mem) (a : ℤ) (v : V4) : Mem := fun x =>
  if x = a then v 0 else if x = a + 1 then v 1 else if x = a + 2 then v 2
  else if x = a + 3 then v 3 else m x

/-- The scalar statement `m[a] += v`. -/
def addAt (m : Mem) (a : ℤ) (v : ℚ) : Mem := Function.update m a (m a + v)

/-! ## `Init` -/

/-- The ramp `k0 = (15 - i*2) / 16.0f` of `Init`. -/
def k0 (i : ℕ) : ℚ := (((15 : ℤ) - (i : ℤ) * 2 : ℤ) : ℚ) / 16

/-- The ramp `k1 = 1.0f - k0` of `Init`. -/
def k1 (i : ℕ) : ℚ := 1 - k0 i

/-- The kernel `_kx[i] = _mm_setr_ps(k0, k1, k0, k1)`. -/
def kx (i : ℕ) : V4 := ![k0 i, k1 i, k0 i, k1 i]

/-- The kernel `_ky[i] = _mm_setr_ps(k0, k0, k1, k1)`. -/
def ky (i : ℕ) : V4 := ![k0 i, k0 i, k1 i, k1 i]

/-! ## Orientation quantizer: `GetHistogram(dx, dy, col)` -/

section Quantizer

variable {α : Type} [LinearOrderedField α]

/-- One iteration of the search loop on `(bestDot, bestIndex)`:
`dot = fmadd(adx, _cos[i], ady * _sin[i])`, `mask = dot > bestDot`,
`bestDot = max(dot, bestDot)`, `bestIndex = mask ? i : bestIndex`. -/
def searchStep (cosT sinT : ℕ → α) (adx ady : α) (s : α × ℤ) (i : ℕ) : α × ℤ :=
  let dot := adx * cosT i + ady * sinT i
  (max dot s.1, if s.1 < dot then (i : ℤ) else s.2)

/-- The loop `for (int i = 0; i < 5; ++i)` started from `bestDot = 0`,
`bestIndex = 0`. -/
def searchLoop (cosT sinT : ℕ → α) (adx ady : α) : α × ℤ :=
  (List.range 5).foldl (searchStep cosT sinT adx ady) (0, 0)

/-- The unsigned bin: `bestIndex` after the search loop run on `(|dx|, |dy|)`. -/
def unsignedBin (cosT sinT : ℕ → α) (dx dy : α) : ℤ :=
  (searchLoop cosT sinT |dx| |dy|).2

/-- Sign promotion of `bestIndex`, lines 467-474: the `maskDx` blend, the
`maskDy` blend with `corr`, and the `andnot` that clears a lane equal to `Q2`. -/
def promote (dx dy : α) (bestIndex : ℤ) : ℤ :=
  let b1 := if dx < 0 then (Q : ℤ) - bestIndex else bestIndex
  let corr : ℤ := if |dx| = 0 then 1 else 0
  let b2 := if dy < 0 then (Q2 : ℤ) - (b1 + corr) else b1
  if b2 = (Q2 : ℤ) then 0 else b2

/-- The bin index stored in `_index` for one lane. -/
def signedBin (cosT sinT : ℕ → α) (dx dy : α) : ℤ :=
  promote dx dy (unsignedBin cosT sinT dx dy)

end Quantizer

/-- The magnitude stored in `_value` for one lane:
`Sqrt(fmadd(adx, adx, ady * ady))`. -/
def magnitude (env : FloatEnv) (dx dy : ℚ) : ℚ :=
  env.sqrtPs (|dx| * |dx| + |dy| * |dy|)

/-- The arrays `_index` and `_value`. -/
structure Lanes where
  index : ℤ → ℤ
  value : Mem

/-- The 8-lane `GetHistogram(dx, dy, col)`: lane `j` stores its bin in
`_index[col + j]` and its magnitude in `_value[col + j]`. -/
def GetHistogramLanes (env : FloatEnv) (dx dy : ℕ → ℚ) (col : ℤ) (st : Lanes) : Lanes :=
  { index := fun p => if col ≤ p ∧ p < col + 8
      then signedBin env.cos env.sin (dx (p - col).toNat) (dy (p - col).toNat)
      else st.index p
    value := fun p => if col ≤ p ∧ p < col + 8
      then magnitude env (dx (p - col).toNat) (dy (p - col).toNat)
      else st.value p }

/-- Modelled from the spec: `Ssse3::SubUnpackedU8<part>(a, b)` of `SimdMath.h`,
whose lane `j < 8` is the 16-bit difference `a[8*part + j] - b[8*part + j]` of
two unsigned bytes. -/
def SubUnpackedU8 (part : ℕ) (a b : ℕ → Fin 256) : ℕ → ℤ := fun j =>
  ((a (8 * part + j)).val : ℤ) - ((b (8 * part + j)).val : ℤ)

/-- The conversion `CovertDifference<part>(a, b)`: the lanes of `SubUnpackedU8`
widened to 32 bits and converted to `float`. -/
def CovertDifference (part : ℕ) (a b : ℕ → Fin 256) : ℕ → ℚ := fun j =>
  ((SubUnpackedU8 part a b j : ℤ) : ℚ)

/-- Modelled from the spec: the unaligned 16-byte load `Sse2::Load<false>` of
`SimdLoad.h`, at byte offset `p`. -/
def Load (src : Bytes) (p : ℤ) : ℕ → Fin 256 := fun j => src (p + (j : ℤ))

/-- The 16-lane `GetHistogram(src, stride, col)`, where `s0` is the offset of the
row pointer passed as `src` and `col` the pointer offset of the `size_t` column. -/
def GetHistogramBatch (env : FloatEnv) (src : Bytes) (stride : ℕ) (s0 : ℤ) (col : ℤ)
    (st : Lanes) : Lanes :=
  let s := s0 + col
  let t := Load src (s - (stride : ℤ))
  let l := Load src (s - 1)
  let r := Load src (s + 1)
  let b := Load src (s + (stride : ℤ))
  let st1 := GetHistogramLanes env (CovertDifference 0 r l) (CovertDifference 0 b t) (col + 0) st
  GetHistogramLanes env (CovertDifference 1 r l) (CovertDifference 1 b t) (col + 8) st1

/-- The values taken by `c` in `for (c = a; c < b; ++c)`. -/
def forRange (a b : ℕ) : List ℕ := List.range' a (b - a)

/-- The mutable members of the extractor: `_index`/`_value`, `_buffer`,
`_histogram` and `_norm`. -/
structure State where
  lanes : Lanes
  buffer : Mem
  histogram : Mem
  norm : Mem

/-- The resize of a fresh vector to `n` elements: elements `0..n-1` are
value-initialised to zero; `g` is whatever lies around the vector. -/
def resize (n : ℕ) (g : Mem) : Mem := fun a => if 0 ≤ a ∧ a < (n : ℤ) then 0 else g a

/-- The call `memset(p, 0, n * sizeof(float))` on the first `n` floats. -/
def memsetZero (n : ℕ) (m : Mem) : Mem := fun a => if 0 ≤ a ∧ a < (n : ℤ) then 0 else m a

/-- The vector sizes set by `Init(w, h)` on a fresh extractor; `g` gives the
memory around the vectors. -/
def Init (w h : ℕ) (g : State) : State :=
  let sx := w / C
  let sy := h / C
  { lanes :=
      { index := fun a => if 0 ≤ a ∧ a < (w : ℤ) then 0 else g.lanes.index a
        value := resize w g.lanes.value }
    buffer := resize ((sx + 1) * 4 * Q2) g.buffer
    histogram := resize (sx * sy * Q2) g.histogram
    norm := resize (sx * sy) g.norm }

/-! ## `AddRowToBuffer` -/

/-- The statement
`buffer[index] = _mm_add_ps(buffer[index], _mm_mul_ps(value, _mm_mul_ps(ky, kx)))`
for the pixel of column `col`, with `base` the `__m128` offset of the pointer
`buffer`. -/
def addPixel (lanes : Lanes) (kyv kxv : V4) (base : ℤ) (buffer : Mem) (col : ℕ) : Mem :=
  let index := lanes.index (col : ℤ)
  let value := lanes.value (col : ℤ)
  let e := 4 * (base + index)
  storeV4 buffer e (fun l => loadV4 buffer e l + value * (kyv l * kxv l))

/-- The loop variables of the accumulation part of `AddRowToBuffer`: the row
buffer, the `__m128` offset of the moving pointer `buffer`, and `col`. -/
structure RowCursor where
  buffer : Mem
  base : ℤ
  col : ℕ

/-- The body of `for (size_t i = 0; i < 8; ++i, ++col)`. -/
def rowInner (lanes : Lanes) (kyv : V4) (c : RowCursor) (i : ℕ) : RowCursor :=
  { c with buffer := addPixel lanes kyv (kx i) c.base c.buffer c.col, col := c.col + 1 }

/-- The body of `for (size_t cell = 1, col = 4; cell < cellEnd; ++cell)`. -/
def rowCell (lanes : Lanes) (kyv : V4) (c : RowCursor) (_cell : ℕ) : RowCursor :=
  let c1 := (forRange 0 8).foldl (rowInner lanes kyv) c
  { c1 with base := c1.base + 18 }

/-- The batches of one row: `GetHistogram(s, stride, 1)`, the aligned loop from
`HA`, and `GetHistogram(s, stride, width - 1 - HA)`. -/
def rowLanes (env : FloatEnv) (src : Bytes) (stride row width aligned : ℕ)
    (lanes : Lanes) : Lanes :=
  let s : ℤ := (stride : ℤ) * (row : ℤ)
  let l1 := GetHistogramBatch env src stride s 1 lanes
  let l2 := (loopRange HA aligned HA).foldl
    (fun l (col : ℕ) => GetHistogramBatch env src stride s (col : ℤ) l) l1
  GetHistogramBatch env src stride s (ptrOff (subSizeT (subSizeT width 1) HA)) l2

/-- The accumulation part of `AddRowToBuffer`, lines 504-532. -/
def rowAccumulate (lanes : Lanes) (row width : ℕ) (buffer : Mem) : Mem :=
  let kyv := ky ((row + 4) &&& 7)
  let cellEnd := width / 8
  let b1 := (forRange 1 4).foldl
    (fun b (col : ℕ) => addPixel lanes kyv (kx ((col + 4) &&& 7)) 0 b col) buffer
  let c2 := (forRange 1 cellEnd).foldl (rowCell lanes kyv) { buffer := b1, base := 18, col := 4 }
  (forRange (width - 4) (width - 1)).foldl
    (fun b (col : ℕ) => addPixel lanes kyv (kx ((col + 4) &&& 7)) c2.base b col) c2.buffer

/-- The method `AddRowToBuffer(src, stride, row, width, aligned)`. -/
def AddRowToBuffer (env : FloatEnv) (src : Bytes) (stride row width aligned : ℕ)
    (st : State) : State :=
  let lanes := rowLanes env src stride row width aligned st.lanes
  { st with lanes := lanes, buffer := rowAccumulate lanes row width st.buffer }

/-! ## `AddToHistogram` -/

/-- The float offset of `h[k][i]` for a pointer `h` to 18-float cells. -/
def cellAt (h k : ℤ) (i : ℕ) : ℤ := (h + k) * 18 + (i : ℤ)

/-- The loop variables of `AddToHistogram`: the grid, the cell pointers `h0`,
`h1` (in 18-float cells) and the float offset `src` into the row buffer. -/
structure MergeCursor where
  hist : Mem
  h0 : ℤ
  h1 : ℤ
  src : ℤ

/-- The statements `h0++; h1++; src += 72;` of the interior branch. -/
def MergeCursor.next (c : MergeCursor) (hist : Mem) : MergeCursor :=
  { hist := hist, h0 := c.h0 + 1, h1 := c.h1 + 1, src := c.src + 72 }

/-- The statements `h1++; src += 72;` of the branch `row == 0`. -/
def MergeCursor.nextLower (c : MergeCursor) (hist : Mem) : MergeCursor :=
  { hist := hist, h0 := c.h0, h1 := c.h1 + 1, src := c.src + 72 }

/-- The statements `h0++; src += 72;` of the branch `row == height`. -/
def MergeCursor.nextUpper (c : MergeCursor) (hist : Mem) : MergeCursor :=
  { hist := hist, h0 := c.h0 + 1, h1 := c.h1, src := c.src + 72 }

/-- The scalar loop `for i: h[k][i] += src[i * 4 + slot]` over bins `lo..hi-1`. -/
def addSlot (buf : Mem) (src h k : ℤ) (slot : ℕ) (lo hi : ℕ) (hist : Mem) : Mem :=
  (forRange lo hi).foldl
    (fun m (i : ℕ) => addAt m (cellAt h k i) (buf (src + (i : ℤ) * 4 + (slot : ℤ)))) hist

/-- The scalar loop with two statements per bin:
`h[0][i] += src[i * 4 + slotA]; h[1][i] += src[i * 4 + slotB];`. -/
def addSlots2 (buf : Mem) (src h : ℤ) (slotA slotB : ℕ) (hist : Mem) : Mem :=
  (forRange 0 18).foldl
    (fun m (i : ℕ) => addAt (addAt m (cellAt h 0 i) (buf (src + (i : ℤ) * 4 + (slotA : ℤ))))
      (cellAt h 1 i) (buf (src + (i : ℤ) * 4 + (slotB : ℤ)))) hist

/-- The scalar loop with four statements per bin, used for bins 16 and 17 of the
interior merge. -/
def addSlots4 (buf : Mem) (src h0 h1 : ℤ) (lo hi : ℕ) (hist : Mem) : Mem :=
  (forRange lo hi).foldl
    (fun m (i : ℕ) =>
      addAt (addAt (addAt (addAt m
        (cellAt h0 0 i) (buf (src + (i : ℤ) * 4 + 0)))
        (cellAt h0 1 i) (buf (src + (i : ℤ) * 4 + 1)))
        (cellAt h1 0 i) (buf (src + (i : ℤ) * 4 + 2)))
        (cellAt h1 1 i) (buf (src + (i : ℤ) * 4 + 3))) hist

/-- One iteration of `for (size_t i = 0; i < 16; i += 4)`: the 4x4 transpose of
`ps[i..i+3]` by `unpacklo`/`unpackhi` and the four load-add-store statements. -/
def transposeStep (buf : Mem) (src h0 h1 : ℤ) (hist : Mem) (i : ℕ) : Mem :=
  let ps : ℕ → V4 := fun k => loadV4 buf (src + 4 * (k : ℤ))
  let s00 := unpacklo (ps (i + 0)) (ps (i + 2))
  let s01 := unpacklo (ps (i + 1)) (ps (i + 3))
  let s10 := unpackhi (ps (i + 0)) (ps (i + 2))
  let s11 := unpackhi (ps (i + 1)) (ps (i + 3))
  let m1 := storeV4 hist (cellAt h0 0 i) (loadV4 hist (cellAt h0 0 i) + unpacklo s00 s01)
  let m2 := storeV4 m1 (cellAt h0 1 i) (loadV4 m1 (cellAt h0 1 i) + unpackhi s00 s01)
  let m3 := storeV4 m2 (cellAt h1 0 i) (loadV4 m2 (cellAt h1 0 i) + unpacklo s10 s11)
  storeV4 m3 (cellAt h1 1 i) (loadV4 m3 (cellAt h1 1 i) + unpackhi s10 s11)

/-- The branch `row == 0` of `AddToHistogram`. -/
def mergeTop (width : ℕ) (buf : Mem) (c : MergeCursor) : Mem :=
  let c1 := c.nextLower (addSlot buf c.src c.h1 1 3 0 18 c.hist)
  let c2 := (forRange 1 width).foldl
    (fun c _ => c.nextLower (addSlots2 buf c.src c.h1 2 3 c.hist)) c1
  addSlot buf c2.src c2.h1 0 2 0 18 c2.hist

/-- The branch `row == height` of `AddToHistogram`. -/
def mergeBottom (width : ℕ) (buf : Mem) (c : MergeCursor) : Mem :=
  let c1 := c.nextUpper (addSlot buf c.src c.h0 1 1 0 18 c.hist)
  let c2 := (forRange 1 width).foldl
    (fun c _ => c.nextUpper (addSlots2 buf c.src c.h0 0 1 c.hist)) c1
  addSlot buf c2.src c2.h0 0 0 0 18 c2.hist

/-- The body of the cell loop of the interior branch. -/
def mergeMiddleCell (buf : Mem) (c : MergeCursor) (_cell : ℕ) : MergeCursor :=
  let m := (loopRange 0 16 4).foldl (transposeStep buf c.src c.h0 c.h1) c.hist
  c.next (addSlots4 buf c.src c.h0 c.h1 16 18 m)

/-- The interior branch of `AddToHistogram`. -/
def mergeMiddle (width : ℕ) (buf : Mem) (c : MergeCursor) : Mem :=
  let m1 := (forRange 0 18).foldl
    (fun m (i : ℕ) => addAt (addAt m (cellAt c.h0 1 i) (buf (c.src + (i : ℤ) * 4 + 1)))
      (cellAt c.h1 1 i) (buf (c.src + (i : ℤ) * 4 + 3))) c.hist
  let c2 := (forRange 1 width).foldl (mergeMiddleCell buf) (c.next m1)
  (forRange 0 18).foldl
    (fun m (i : ℕ) => addAt (addAt m (cellAt c2.h0 0 i) (buf (c2.src + (i : ℤ) * 4 + 0)))
      (cellAt c2.h1 0 i) (buf (c2.src + (i : ℤ) * 4 + 2))) c2.hist

/-- The method `AddToHistogram(row, width, height)`; `size` is `_buffer.size()`. -/
def AddToHistogram (row width height size : ℕ) (st : State) : State :=
  let h0 : ℤ := (row : ℤ) * (width : ℤ) - (width : ℤ) - 1
  let c : MergeCursor := { hist := st.histogram, h0 := h0, h1 := h0 + (width : ℤ), src := 0 }
  let hist :=
    if row = 0 then mergeTop width st.buffer c
    else if row = height then mergeBottom width st.buffer c
    else mergeMiddle width st.buffer c
  { st with histogram := hist, buffer := memsetZero size st.buffer }

/-! ## `GetHistogram(src, stride, width, height)` -/

/-- The body of `for (size_t row = 4, cell = 1; row < height - 4; ++row)` on the
pair (state, `cell`). -/
def histogramRow (env : FloatEnv) (src : Bytes) (stride width aligned sx sy size : ℕ)
    (p : State × ℕ) (row : ℕ) : State × ℕ :=
  let st := AddRowToBuffer env src stride row width aligned p.1
  if row &&& 7 = 3 then (AddToHistogram p.2 sx sy size st, p.2 + 1) else (st, p.2)

/-- The method `GetHistogram(src, stride, width, height)`, with `sx`, `sy` the
members `_sx`, `_sy`. -/
def GetHistogram (env : FloatEnv) (src : Bytes) (stride width height sx sy : ℕ)
    (st : State) : State :=
  let size := (sx + 1) * 4 * Q2
  let st0 := { st with histogram := memsetZero (18 * sx * sy) st.histogram }
  let aligned := AlignHi (width - 1) HA - HA
  let st1 := (forRange 1 4).foldl
    (fun s (row : ℕ) => AddRowToBuffer env src stride row width aligned s) st0
  let st2 := AddToHistogram 0 sx sy size st1
  let p3 := (forRange 4 (height - 4)).foldl
    (histogramRow env src stride width aligned sx sy size) (st2, 1)
  let st4 := (forRange (height - 4) (height - 1)).foldl
    (fun s (row : ℕ) => AddRowToBuffer env src stride row width aligned s) p3.1
  AddToHistogram sy sx sy size st4

/-! ## `Run` -/

/-- The loop of lines 655-660: `_norm[i] += Square(h[o] + h[o + Q])` with
`h = _histogram.data() + i*Q2`, for `i < n = _norm.size()` and `o < Q`. -/
def computeNorm (n : ℕ) (hist norm : Mem) : Mem :=
  (forRange 0 n).foldl
    (fun nm (i : ℕ) => (forRange 0 Q).foldl
      (fun nm (o : ℕ) => addAt nm (i : ℤ)
        (Square (hist ((i : ℤ) * (Q2 : ℤ) + (o : ℤ)) + hist ((i : ℤ) * (Q2 : ℤ) + (o : ℤ) + (Q : ℤ)))))
      nm)
    norm

/-- The nine local variables `x0y0 .. x2y2` of `Run`. -/
structure Neighbours where
  x0y0 : ℚ
  x1y0 : ℚ
  x2y0 : ℚ
  x0y1 : ℚ
  x1y1 : ℚ
  x2y1 : ℚ
  x0y2 : ℚ
  x1y2 : ℚ
  x2y2 : ℚ

/-- The pointer `p = _norm.data() + yy*_sx + xx` with `xx = x - 1`, `yy = y - 1`,
as an element offset. -/
def normPtr (sx x y : ℕ) : ℤ := ((y : ℤ) - 1) * (sx : ℤ) + ((x : ℤ) - 1)

/-- The guarded loads of lines 673-682; a variable whose guard fails keeps its
initial value `0.0f`. -/
def neighbours (norm : Mem) (sx sy x y : ℕ) : Neighbours :=
  let xx : ℤ := (x : ℤ) - 1
  let yy : ℤ := (y : ℤ) - 1
  let p := normPtr sx x y
  { x0y0 := if 0 < xx ∧ 0 < yy then norm p else 0
    x1y0 := if 0 < yy then norm (p + 1) else 0
    x2y0 := if xx + 2 < (sx : ℤ) ∧ 0 < yy then norm (p + 2) else 0
    x0y1 := if 0 < xx then norm (p + (sx : ℤ)) else 0
    x1y1 := norm (p + (sx : ℤ) + 1)
    x2y1 := if xx + 2 < (sx : ℤ) then norm (p + 2 + (sx : ℤ)) else 0
    x0y2 := if 0 < xx ∧ yy + 2 < (sy : ℤ) then norm (p + 2 * (sx : ℤ)) else 0
    x1y2 := if yy + 2 < (sy : ℤ) then norm (p + 1 + 2 * (sx : ℤ)) else 0
    x2y2 := if xx + 2 < (sx : ℤ) ∧ yy + 2 < (sy : ℤ) then norm (p + 2 + 2 * (sx : ℤ)) else 0 }

/-- The element offsets of `_norm` dereferenced by lines 673-682, in program
order. -/
def neighbourReads (sx sy x y : ℕ) : List ℤ :=
  let xx : ℤ := (x : ℤ) - 1
  let yy : ℤ := (y : ℤ) - 1
  let p := normPtr sx x y
  (if 0 < xx ∧ 0 < yy then [p] else []) ++
  (if 0 < yy then [p + 1] else []) ++
  (if xx + 2 < (sx : ℤ) ∧ 0 < yy then [p + 2] else []) ++
  (if 0 < xx then [p + (sx : ℤ)] else []) ++
  [p + (sx : ℤ) + 1] ++
  (if xx + 2 < (sx : ℤ) then [p + 2 + (sx : ℤ)] else []) ++
  (if 0 < xx ∧ yy + 2 < (sy : ℤ) then [p + 2 * (sx : ℤ)] else []) ++
  (if yy + 2 < (sy : ℤ) then [p + 1 + 2 * (sx : ℤ)] else []) ++
  (if xx + 2 < (sx : ℤ) ∧ yy + 2 < (sy : ℤ) then [p + 2 + 2 * (sx : ℤ)] else [])

/-- The constant `eps = 0.0001f`. -/
def eps : ℚ := 1 / 10000

/-- The four scalars `n1 .. n4` of lines 684-687, as lanes `0 .. 3`. -/
def normalizers (env : FloatEnv) (nb : Neighbours) : V4 :=
  ![1 / env.sqrt (nb.x1y1 + nb.x2y1 + nb.x1y2 + nb.x2y2 + eps),
    1 / env.sqrt (nb.x1y0 + nb.x2y0 + nb.x1y1 + nb.x2y1 + eps),
    1 / env.sqrt (nb.x0y1 + nb.x1y1 + nb.x0y2 + nb.x1y2 + eps),
    1 / env.sqrt (nb.x0y0 + nb.x1y0 + nb.x0y1 + nb.x1y1 + eps)]

/-- The loop variables of the descriptor assembly of one cell: the pointers
`dst` and `psrc` (as float offsets), the sums `t1 .. t4`, and the stores made
through `dst` so far, oldest first. -/
structure FeatCursor where
  dst : ℤ
  psrc : ℤ
  t1 : ℚ
  t2 : ℚ
  t3 : ℚ
  t4 : ℚ
  out : List (ℤ × ℚ)

/-- The `float` literal `0.2f` of the clamps of `Run`: the `float` nearest to
`0.2`, that is `13421773 / 2^26 = 0.20000000298...`, slightly above `1/5`. -/
def clampF : ℚ := 13421773 / 67108864

/-- The body of `for (int o = 0; o < Q2; o++)`, lines 697-707; the clamps are
`Simd::Min(*psrc * n_k, 0.2f)`, with the literal `0.2f` as `clampF`. -/
def featSensitive (hist : Mem) (n : V4) (c : FeatCursor) (_o : ℕ) : FeatCursor :=
  let h1 := Min (hist c.psrc * n 0) clampF
  let h2 := Min (hist c.psrc * n 1) clampF
  let h3 := Min (hist c.psrc * n 2) clampF
  let h4 := Min (hist c.psrc * n 3) clampF
  { dst := c.dst + 1
    psrc := c.psrc + 1
    t1 := c.t1 + h1
    t2 := c.t2 + h2
    t3 := c.t3 + h3
    t4 := c.t4 + h4
    out := c.out ++ [(c.dst, 1 / 2 * (h1 + h2 + h3 + h4))] }

/-- The body of `for (int o = 0; o < Q; o++)`, lines 713-720; the clamps are
`Simd::Min(sum * n_k, 0.2f)`, with the literal `0.2f` as `clampF`. -/
def featInsensitive (hist : Mem) (n : V4) (c : FeatCursor) (_o : ℕ) : FeatCursor :=
  let sum := hist c.psrc + hist (c.psrc + (Q : ℤ))
  let h1 := Min (sum * n 0) clampF
  let h2 := Min (sum * n 1) clampF
  let h3 := Min (sum * n 2) clampF
  let h4 := Min (sum * n 3) clampF
  { c with
    dst := c.dst + 1
    psrc := c.psrc + 1
    out := c.out ++ [(c.dst, 1 / 2 * (h1 + h2 + h3 + h4))] }

/-- The four stores `*dst = 0.2357f * t_k` of lines 723-729. -/
def featEnergy (c : FeatCursor) : List (ℤ × ℚ) :=
  c.out ++ [(c.dst, 2357 / 10000 * c.t1), (c.dst + 1, 2357 / 10000 * c.t2),
    (c.dst + 1 + 1, 2357 / 10000 * c.t3), (c.dst + 1 + 1 + 1, 2357 / 10000 * c.t4)]

/-- The stores made by the body of the `x` loop of `Run` for the cell `(x, y)`,
lines 667-729, as (float offset into `features`, value) pairs in program order. -/
def cellWrites (env : FloatEnv) (hist norm : Mem) (sx sy x y : ℕ) : List (ℤ × ℚ) :=
  let dst : ℤ := (((y * sx + x) * 31 : ℕ) : ℤ)
  let n := normalizers env (neighbours norm sx sy x y)
  let psrc : ℤ := (((y * sx + x) * Q2 : ℕ) : ℤ)
  let c1 := (forRange 0 Q2).foldl (featSensitive hist n)
    { dst := dst, psrc := psrc, t1 := 0, t2 := 0, t3 := 0, t4 := 0, out := [] }
  let c2 := (forRange 0 Q).foldl (featInsensitive hist n) { c1 with psrc := psrc }
  featEnergy c2

/-- The stores made by the two nested loops of lines 663-732. -/
def featureWrites (env : FloatEnv) (hist norm : Mem) (sx sy : ℕ) : List (ℤ × ℚ) :=
  (forRange 0 sy).foldl
    (fun log (y : ℕ) => (forRange 0 sx).foldl
      (fun log (x : ℕ) => log ++ cellWrites env hist norm sx sy x y) log)
    []

/-- The extractor state when the descriptor loops of `Run` start: after `Init`,
`GetHistogram` and the norm loop. -/
def runState (env : FloatEnv) (src : Bytes) (stride width height : ℕ) (g : State) : State :=
  let sx := width / C
  let sy := height / C
  let st := GetHistogram env src stride width height sx sy (Init width height g)
  { st with norm := computeNorm (sx * sy) st.histogram st.norm }

/-- The stores into `features` made by `Run(src, stride, width, height, features)`
on a fresh extractor, in program order. -/
def Run (env : FloatEnv) (src : Bytes) (stride width height : ℕ) (g : State) :
    List (ℤ × ℚ) :=
  let st := runState env src stride width height g
  featureWrites env st.histogram st.norm (width / C) (height / C)

/-- The memory `m` after the stores of `log`. -/
def applyWrites (m : Mem) (log : List (ℤ × ℚ)) : Mem :=
  log.foldl (fun m w => Function.update m w.1 w.2) m

/-- The array `features` after `HogExtractFeatures(src, stride, width, height,
features)`. -/
def HogExtractFeatures (env : FloatEnv) (src : Bytes) (stride width height : ℕ)
    (g : State) (features : Mem) : Mem :=
  applyWrites features (Run env src stride width height g)

/-- The precondition asserted by `HogExtractFeatures`, together with
`stride >= width` and a width that fits a pointer offset. -/
def Valid (stride width height : ℕ) : Prop :=
  width % 8 = 0 ∧ height % 8 = 0 ∧ 16 ≤ width ∧ 16 ≤ height ∧ width ≤ stride ∧
    width < 2 ^ 63

instance (stride width height : ℕ) : Decidable (Valid stride width height) := by
  unfold Valid; infer_instance

/-- The table `_cos`: the `float` nearest to `cos(i*pi/9)` for `i < 5`, as an
exact rational. -/
def cosTable : ℕ → ℚ
  | 0 => 1
  | 1 => 7882713 / 8388608
  | 2 => 12852093 / 16777216
  | 3 => 1 / 2
  | 4 => 2913333 / 16777216
  | _ => 0

/-- The table `_sin`: the `float` nearest to `sin(i*pi/9)` for `i < 5`, as an
exact rational. -/
def sinTable : ℕ → ℚ
  | 0 => 0
  | 1 => 2869073 / 8388608
  | 2 => 10784187 / 16777216
  | 3 => 14529495 / 16777216
  | 4 => 4130583 / 4194304
  | _ => 0

/-- Integer square root by bisection: the largest `r < 2^fuel` with
`r * r ≤ n`, built bit by bit from the top. -/
def isqrtBits (n : ℕ) : ℕ → ℕ → ℕ
  | 0, r => r
  | fuel + 1, r =>
    let r1 := r + 2 ^ fuel
    isqrtBits n fuel (if r1 * r1 ≤ n then r1 else r)

/-- A square root on the non-negative rationals, rounded down to a multiple of
`2^-24` (and `0` on negative arguments). -/
def sqrtDown (q : ℚ) : ℚ :=
  ((isqrtBits ((q * 2 ^ 48).floor.toNat) 64 0 : ℕ) : ℚ) / 2 ^ 24

/-- A concrete float environment used to evaluate the extractor: the `float`
tables and, for both square roots, `sqrtDown`, which is exact on the squares of
integers. -/
def floatEnv : FloatEnv :=
  { cos := cosTable, sin := sinTable, sqrtPs := sqrtDown, sqrt := sqrtDown }

section QuantizerAux

variable {α : Type} [LinearOrderedField α]

/-- The projection `|dx| * _cos[i] + |dy| * _sin[i]` compared by the search loop. -/
def projection (cosT sinT : ℕ → α) (dx dy : α) (i : ℕ) : α :=
  |dx| * cosT i + |dy| * sinT i

/-- The search loop run over the first `n` directions. -/
def searchPrefix (cosT sinT : ℕ → α) (adx ady : α) (n : ℕ) : α × ℤ :=
  (List.range n).foldl (searchStep cosT sinT adx ady) (0, 0)

end QuantizerAux

/-- The 18-bin histogram of the cell `(x, y)`: bin `o` is
`_histogram[(y*sx + x)*Q2 + o]`. -/
def cellHistogram (hist : Mem) (sx x y : ℕ) : ℕ → ℚ := fun o =>
  hist ((((y * sx + x) * Q2 + o : ℕ)) : ℤ)

/-- The descriptor channel `ch` of a cell with histogram `h` and normalisation
scalars `n 0 .. n 3` (that is `n1 .. n4`), in the words of the specification:
channels `0..17` are `0.5 * Σ_k min(h[o]*n_k, 0.2)`, channels `18..26` the same
on `h[o] + h[o+9]`, channels `27..30` are `0.2357 * t_k` with
`t_k = Σ_{o<18} min(h[o]*n_k, 0.2)`; the clamp `0.2` is the `float` literal
`clampF` of the code. -/
def specChannel (h : ℕ → ℚ) (n : V4) (ch : ℕ) : ℚ :=
  if ch < 18 then 1 / 2 * ∑ k : Fin 4, min (h ch * n k) clampF
  else if ch < 27 then 1 / 2 * ∑ k : Fin 4, min ((h (ch - 18) + h (ch - 18 + 9)) * n k) clampF
  else 2357 / 10000 * ∑ o in Finset.range 18, min (h o * n (Fin.ofNat (ch - 27))) clampF

/-- The store that the specification assigns to the float offset `a` of
`features`: channel `a % 31` of the cell `a / 31`, cells counted row-major. -/
def specStore (env : FloatEnv) (hist norm : Mem) (sx sy : ℕ) (a : ℕ) : ℤ × ℚ :=
  ((a : ℤ), specChannel (cellHistogram hist sx (a / 31 % sx) (a / 31 / sx))
    (normalizers env (neighbours norm sx sy (a / 31 % sx) (a / 31 / sx))) (a % 31))

/-- A surrounding memory that holds zero everywhere. -/
def zeroState : State :=
  { lanes := { index := fun _ => 0, value := fun _ => 0 }
    buffer := fun _ => 0
    histogram := fun _ => 0
    norm := fun _ => 0 }

/-- A 16x16 image (stride 16) whose pixels all hold `v`; so do the bytes around it. -/
def flatImage (v : Fin 256) : Bytes := fun _ => v

/-- A 16x16 image (stride 16) with a vertical step edge: columns `0..7` are
black, columns `8..15` are white. -/
def stepImage : Bytes := fun p => if 8 ≤ p % 16 then 255 else 0

/-- The horizontal difference `src[p + 1] - src[p - 1]` at byte offset `p`, as a float. -/
def gradX (src : Bytes) (p : ℤ) : ℚ :=
  ((((src (p + 1)).val : ℤ) - ((src (p - 1)).val : ℤ) : ℤ) : ℚ)

/-- The vertical difference `src[p + stride] - src[p - stride]` at byte offset `p`,
as a float. -/
def gradY (src : Bytes) (stride : ℕ) (p : ℤ) : ℚ :=
  ((((src (p + (stride : ℤ))).val : ℤ) - ((src (p - (stride : ℤ))).val : ℤ) : ℤ) : ℚ)

/-- The accumulation of the pixel of column `col` into block `(col + 4) / 8` of
the row buffer with the kernel `kx[(col + 4) mod 8]`. -/
def pixelStep (lanes : Lanes) (kyv : V4) (b : Mem) (col : ℕ) : Mem :=
  addPixel lanes kyv (kx ((col + 4) % 8)) (18 * (((col + 4) / 8 : ℕ) : ℤ)) b col

/-- The addend that a four-lane load-add-store at float offset `t` with addend
lanes `v` brings to the float offset `a`. -/
def laneDelta (t : ℤ) (v : V4) (a : ℤ) : ℚ :=
  if a = t then v 0 else if a = t + 1 then v 1 else if a = t + 2 then v 2
  else if a = t + 3 then v 3 else 0

/-- The bin stored in `_index` for the interior pixel `(r, c)`. -/
def pixelBin (env : FloatEnv) (src : Bytes) (stride r c : ℕ) : ℤ :=
  signedBin env.cos env.sin (gradX src ((stride : ℤ) * (r : ℤ) + (c : ℤ)))
    (gradY src stride ((stride : ℤ) * (r : ℤ) + (c : ℤ)))

/-- The magnitude stored in `_value` for the interior pixel `(r, c)`. -/
def pixelMag (env : FloatEnv) (src : Bytes) (stride r c : ℕ) : ℚ :=
  magnitude env (gradX src ((stride : ℤ) * (r : ℤ) + (c : ℤ)))
    (gradY src stride ((stride : ℤ) * (r : ℤ) + (c : ℤ)))

/-- What the row `r` of the image adds to the float offset `a` of the row
buffer: the four-lane addends of its interior pixels. -/
def rowDelta (env : FloatEnv) (src : Bytes) (stride width r : ℕ) (a : ℤ) : ℚ :=
  ∑ c in Finset.Ico 1 (width - 1),
    laneDelta (4 * (18 * (((c + 4) / 8 : ℕ) : ℤ) + pixelBin env src stride r c))
      (fun l => pixelMag env src stride r c * (ky ((r + 4) % 8) l * kx ((c + 4) % 8) l)) a

/-- The addend that the scalar loop `for i in lo..hi-1: h[kc][i] += src[i*4 + slot]`
brings to the float offset `a` of the grid. -/
def slotDelta (buf : Mem) (src h kc slot : ℤ) (lo hi : ℕ) (a : ℤ) : ℚ :=
  if cellAt h kc lo ≤ a ∧ a < cellAt h kc hi
  then buf (src + (a - cellAt h kc 0) * 4 + slot) else 0

/-- What the cell row reached through a pointer that starts at cell `H` (and is
incremented once per block) receives from the whole row buffer: the slot `sl`
of the blocks `1 .. sx` through `h[0]` and the slot `sr` of the blocks
`0 .. sx-1` through `h[1]`. -/
def pairSum (buf : Mem) (sx : ℕ) (H sl sr : ℤ) (a : ℤ) : ℚ :=
  ∑ b in Finset.Ico 1 (sx + 1), slotDelta buf (72 * (b : ℤ)) (H + (b : ℤ)) 0 sl 0 18 a
    + ∑ b in Finset.Ico 0 sx, slotDelta buf (72 * (b : ℤ)) (H + (b : ℤ)) 1 sr 0 18 a

/-- A state whose row buffer holds the float offset itself at every offset and
whose grid holds zero, to tell the slots of the row buffer apart. -/
def rampState : State :=
  { lanes := { index := fun _ => 0, value := fun _ => 0 }
    buffer := fun a => (a : ℚ)
    histogram := fun _ => 0
    norm := fun _ => 0 }

/-- What the call `AddToHistogram(m, sx, sy)` reads from the row buffer `buf`
for bin `k` of the grid cell `(cr, cx)`: slots 0 and 1 when `cr = m - 1` and
the call is not the top one, slots 2 and 3 when `cr = m` and the call is not
the bottom one; the even slot of block `cx + 1`, the odd slot of block `cx`. -/
def mergeRead (buf : Mem) (m sy : ℕ) (cr : ℤ) (cx k : ℕ) : ℚ :=
  (if m ≠ 0 ∧ cr = (m : ℤ) - 1
    then buf (72 * ((cx : ℤ) + 1) + (k : ℤ) * 4 + 0) + buf (72 * (cx : ℤ) + (k : ℤ) * 4 + 1)
    else 0)
  + (if (m = 0 ∨ m ≠ sy) ∧ cr = (m : ℤ)
    then buf (72 * ((cx : ℤ) + 1) + (k : ℤ) * 4 + 2) + buf (72 * (cx : ℤ) + (k : ℤ) * 4 + 3)
    else 0)

/-- The weight with which the pixel coordinate `p` (a row or a column) reaches
the cell coordinate `cell`: the pixel lies in block `(p + 4) / 8` at offset
`(p + 4) % 8`, the even slots of the block carry `k0` to the cell before the
block and the odd slots carry `k1` to the cell of the block. -/
def cellWeight (p cell : ℕ) : ℚ :=
  (if (p + 4) / 8 = cell + 1 then k0 ((p + 4) % 8) else 0)
    + (if (p + 4) / 8 = cell then k1 ((p + 4) % 8) else 0)

/-- The sum over the interior pixels with stored bin `k` of the magnitude
times the weights of the pixel row for the cell row `cy` and of the pixel
column for the cell column `cx`. -/
def gridSum (env : FloatEnv) (src : Bytes) (stride width height cy cx k : ℕ) : ℚ :=
  ∑ r in Finset.Ico 1 (height - 1), ∑ c in Finset.Ico 1 (width - 1),
    if pixelBin env src stride r c = (k : ℤ)
    then pixelMag env src stride r c * cellWeight r cy * cellWeight c cx else 0

/-- The bilinear weight between the pixel coordinate `p` and the cell
coordinate `cell` in the words of the specification:
`max(0, 1 - |2p - 16 cell - 7| / 16)`. -/
def specWeight (p cell : ℕ) : ℚ :=
  max 0 (1 - |2 * (p : ℚ) - 16 * (cell : ℚ) - 7| / 16)

/-- The fully-buffered definition of the grid in the words of the
specification: the sum over the interior pixels `(r, c)`, `1 ≤ r ≤ H-2`,
`1 ≤ c ≤ W-2`, whose signed bin is `k`, of `mag(r,c) * wy(r,cy) * wx(c,cx)`. -/
def specGrid (env : FloatEnv) (src : Bytes) (stride width height cy cx k : ℕ) : ℚ :=
  ∑ r in Finset.Ico 1 (height - 1), ∑ c in Finset.Ico 1 (width - 1),
    if pixelBin env src stride r c = (k : ℤ)
    then pixelMag env src stride r c * specWeight r cy * specWeight c cx else 0

/-- The part of its magnitude that an interior pixel coordinate `p` keeps along
a dimension of `n` cells (`8 n` pixels): `(2d + 9)/16` at distance `d = 1, 2, 3`
from the border, everything from distance 4 on. -/
def keptWeight (n p : ℕ) : ℚ :=
  if p < 4 then (2 * (p : ℚ) + 9) / 16
  else if 8 * n - 4 ≤ p then (2 * ((8 * n - 1 - p : ℕ) : ℚ) + 9) / 16
  else 1

/-- A 16x16 image with the pixels of `stepImage`, stored with stride 24; the 8
bytes after each row hold 77. -/
def stepImageWide : Bytes := fun p => if p % 24 < 16 then (if 8 ≤ p % 24 then 255 else 0) else 77

/-- The calls made by `GetHistogram(src, stride, width, height)`: `row r` is
`AddRowToBuffer(src, stride, r, width, aligned)` and `flush m` is
`AddToHistogram(m, _sx, _sy)`. -/
inductive Call where
  | row (r : ℕ)
  | flush (m : ℕ)
  deriving DecidableEq

/-- The effect of one call of `GetHistogram` on the extractor. -/
def applyCall (env : FloatEnv) (src : Bytes) (stride width aligned sx sy size : ℕ)
    (st : State) : Call → State
  | Call.row r => AddRowToBuffer env src stride r width aligned st
  | Call.flush m => AddToHistogram m sx sy size st

/-- The body of `for (size_t row = 4, cell = 1; row < height - 4; ++row)` on the
pair (calls made so far, `cell`). -/
def callsRow (p : List Call × ℕ) (row : ℕ) : List Call × ℕ :=
  if row &&& 7 = 3 then (p.1 ++ [Call.row row, Call.flush p.2], p.2 + 1)
  else (p.1 ++ [Call.row row], p.2)

/-- The calls made by `GetHistogram(src, stride, width, height)`, in program
order, with `sy` the member `_sy`. -/
def histogramCalls (height sy : ℕ) : List Call :=
  let t1 := (forRange 1 4).map Call.row
  let t2 := t1 ++ [Call.flush 0]
  let p3 := (forRange 4 (height - 4)).foldl callsRow (t2, 1)
  let t4 := p3.1 ++ (forRange (height - 4) (height - 1)).map Call.row
  t4 ++ [Call.flush sy]

/-- The image rows `max(1, 8m - 4) .. min(8m + 3, H - 2)`: the interior rows
`r` with `(r + 4) / 8 = m`. -/
def mergeRows (height m : ℕ) : List ℕ :=
  forRange (max 1 (8 * m - 4)) (min (8 * m + 4) (height - 1))

/-- The rows of merge `m` followed by the flush with argument `m`. -/
def mergeBlock (height m : ℕ) : List Call :=
  (mergeRows height m).map Call.row ++ [Call.flush m]

/-- The argument of a flush, nothing for a row. -/
def Call.flushArg : Call → Option ℕ
  | Call.row _ => none
  | Call.flush m => some m

/-- The row of a call of `AddRowToBuffer`, nothing for a flush. -/
def Call.rowArg : Call → Option ℕ
  | Call.row r => some r
  | Call.flush _ => none

/-- The column arguments of the calls `GetHistogram<false>(s, stride, col)` made
by `AddRowToBuffer`, in program order and as pointer offsets: `1`, then
`HA, 2*HA, ...` below `aligned`, then `width - 1 - HA` computed in `size_t`. -/
def batchColumns (width aligned : ℕ) : List ℤ :=
  [(1 : ℤ)] ++ (loopRange HA aligned HA).map (fun (c : ℕ) => (c : ℤ))
    ++ [ptrOff (subSizeT (subSizeT width 1) HA)]

section GenericQuantizer

variable {α : Type} [LinearOrderedField α]

/-- One iteration of the loop of `HogDirectionHistograms(dx, dy, buffer, col)`:
the direction `i` with `dot = fmadd(dx, cos[i], dy * sin[i])` and index
`pos[i] = i`, then the opposite direction with `dot = 0 - dot` and index
`neg[i] = size + i`. -/
def directionStep (cosT sinT : ℕ → α) (size : ℕ) (dx dy : α) (s : α × ℤ) (i : ℕ) : α × ℤ :=
  let dot := dx * cosT i + dy * sinT i
  let s1 : α × ℤ := (max dot s.1, if s.1 < dot then (i : ℤ) else s.2)
  let dot2 := 0 - dot
  (max dot2 s1.1, if s1.1 < dot2 then (size : ℤ) + (i : ℤ) else s1.2)

/-- The bin stored by the generic quantizer `HogDirectionHistograms(dx, dy,
buffer, col)` for one lane, with `size = buffer.size`: `bestIndex` after the
loop started from `bestDot = 0`, `bestIndex = 0`. -/
def HogDirectionHistograms (cosT sinT : ℕ → α) (size : ℕ) (dx dy : α) : ℤ :=
  ((List.range size).foldl (directionStep cosT sinT size dx dy) (0, 0)).2

end GenericQuantizer

/-- A 16x16 image (stride 16) with a dim vertical step edge: columns `0..7`
hold 10, columns `8..15` hold 200. -/
def dimStepImage : Bytes := fun p => if 8 ≤ p % 16 then 200 else 10

/-- The image `dimStepImage` with every byte raised by 30. -/
def dimStepImageUp : Bytes := fun p => if 8 ≤ p % 16 then 230 else 40

/-! # Properties -/

/-! ## The orientation quantizer -/

section QuantizerLemmas

variable {α : Type} [LinearOrderedField α]

theorem searchPrefix_succ (cosT sinT : ℕ → α) (adx ady : α) (n : ℕ) :
    searchPrefix cosT sinT adx ady (n + 1)
      = searchStep cosT sinT adx ady (searchPrefix cosT sinT adx ady n) n := by
  simp [searchPrefix, List.range_succ, List.foldl_append]

/-- After `n` iterations `bestIndex` is `0` or the index of an iteration made. -/
theorem searchPrefix_index_range (cosT sinT : ℕ → α) (adx ady : α) (n : ℕ) :
    0 ≤ (searchPrefix cosT sinT adx ady n).2 ∧
      (searchPrefix cosT sinT adx ady n).2 ≤ ((n : ℤ) - 1) ⊔ 0 := by
  induction n with
  | zero => simp [searchPrefix]
  | succ n ih =>
    rw [searchPrefix_succ]
    simp only [searchStep]
    split_ifs with h
    · refine ⟨by positivity, ?_⟩
      push_cast
      exact le_max_of_le_left (by omega)
    · refine ⟨ih.1, le_trans ih.2 ?_⟩
      push_cast
      exact max_le_max (by omega) le_rfl

theorem unsignedBin_range (cosT sinT : ℕ → α) (dx dy : α) :
    0 ≤ unsignedBin cosT sinT dx dy ∧ unsignedBin cosT sinT dx dy ≤ 4 := by
  have h := searchPrefix_index_range cosT sinT |dx| |dy| 5
  simpa [unsignedBin, searchLoop, searchPrefix] using h

end QuantizerLemmas

section PromoteLemmas

variable {α : Type} [LinearOrderedField α]

/-- Sign promotion by quadrant, for a search result in `[0, 4]`. -/
theorem promote_cases (dx dy : α) (b : ℤ) (h0 : 0 ≤ b) (h4 : b ≤ 4) :
    promote dx dy b =
      if 0 ≤ dx ∧ 0 ≤ dy then b
      else if dx < 0 ∧ 0 ≤ dy then 9 - b
      else if 0 < dx ∧ dy < 0 then (18 - b) % 18
      else if dx < 0 ∧ dy < 0 then 9 + b
      else 17 - b := by
  unfold promote
  simp only [Q, Q2, abs_eq_zero]
  rcases lt_trichotomy dx 0 with hx | hx | hx <;> by_cases hy : dy < 0
  · have h1 : ¬ (0 ≤ dx) := not_le.mpr hx
    have h2 : ¬ (0 ≤ dy) := not_le.mpr hy
    have h3 : ¬ (0 < dx) := not_lt.mpr hx.le
    simp [hx, hy, h1, h2, h3, hx.ne]
    split_ifs <;> omega
  · have h1 : ¬ (0 ≤ dx) := not_le.mpr hx
    have h2 : 0 ≤ dy := not_lt.mp hy
    simp [hx, hy, h1, h2, hx.ne]
    omega
  · subst hx
    have h2 : ¬ ((0 : α) ≤ dy) := not_le.mpr hy
    simp [hy, h2]
    split_ifs <;> omega
  · subst hx
    have h2 : (0 : α) ≤ dy := not_lt.mp hy
    simp [hy, h2]
    omega
  · have h1 : ¬ (dx < 0) := not_lt.mpr hx.le
    have h2 : ¬ (0 ≤ dy) := not_le.mpr hy
    simp [hx, hy, h1, h2, hx.le, hx.ne']
    split_ifs <;> omega
  · have h1 : ¬ (dx < 0) := not_lt.mpr hx.le
    have h2 : 0 ≤ dy := not_lt.mp hy
    simp [hx, hy, h1, h2, hx.le, hx.ne']
    omega

end PromoteLemmas

/-- Claim C8.  For every integer gradient `(dx, dy)` (in particular with both
components in `[-255, 255]`) and whatever the tables hold, the bin index stored
by the quantizer, after sign promotion and the wrap of 18 to 0, lies in
`[0, 18)`. -/
theorem signedBin_range (env : FloatEnv) (dx dy : ℤ) :
    0 ≤ signedBin env.cos env.sin (dx : ℚ) (dy : ℚ) ∧
      signedBin env.cos env.sin (dx : ℚ) (dy : ℚ) < 18 := by
  obtain ⟨h0, h4⟩ := unsignedBin_range env.cos env.sin (dx : ℚ) (dy : ℚ)
  rw [signedBin, promote_cases _ _ _ h0 h4]
  split_ifs <;> omega

/-- Claim C9.  With `b` the unsigned bin found by the 5-direction search on
`(|dx|, |dy|)`, the stored bin is the result of the three steps applied in
order (`dx < 0`: `bin := 9 - bin`; `dy < 0`: `bin := 18 - (bin + corr)` with
`corr = 1` iff `dx = 0`; `bin = 18`: `bin := 0`), and equivalently it is `b`
for `dx ≥ 0, dy ≥ 0`, `9 - b` for `dx < 0, dy ≥ 0`, `(18 - b) mod 18` for
`dx > 0, dy < 0`, `9 + b` for `dx < 0, dy < 0` and `17 - b` for `dx = 0, dy < 0`. -/
theorem signedBin_promotion (env : FloatEnv) (dx dy : ℤ) :
    let b := unsignedBin env.cos env.sin (dx : ℚ) (dy : ℚ)
    let b1 := if dx < 0 then 9 - b else b
    let b2 := if dy < 0 then 18 - (b1 + (if dx = 0 then 1 else 0)) else b1
    signedBin env.cos env.sin (dx : ℚ) (dy : ℚ) = (if b2 = 18 then 0 else b2) ∧
      (0 ≤ dx → 0 ≤ dy → signedBin env.cos env.sin (dx : ℚ) (dy : ℚ) = b) ∧
      (dx < 0 → 0 ≤ dy → signedBin env.cos env.sin (dx : ℚ) (dy : ℚ) = 9 - b) ∧
      (0 < dx → dy < 0 → signedBin env.cos env.sin (dx : ℚ) (dy : ℚ) = (18 - b) % 18) ∧
      (dx < 0 → dy < 0 → signedBin env.cos env.sin (dx : ℚ) (dy : ℚ) = 9 + b) ∧
      (dx = 0 → dy < 0 → signedBin env.cos env.sin (dx : ℚ) (dy : ℚ) = 17 - b) := by
  intro b b1 b2
  obtain ⟨h0, h4⟩ := unsignedBin_range env.cos env.sin (dx : ℚ) (dy : ℚ)
  have hp := promote_cases (dx : ℚ) (dy : ℚ) _ h0 h4
  refine ⟨?_, ?_, ?_, ?_, ?_, ?_⟩
  · simp only [signedBin, promote, Q, Q2, abs_eq_zero, Int.cast_lt_zero, Int.cast_eq_zero,
      Nat.cast_ofNat, b2, b1, b]
  · intro hx hy
    have hx1 : (0 : ℚ) ≤ dx := by exact_mod_cast hx
    have hy1 : (0 : ℚ) ≤ dy := by exact_mod_cast hy
    rw [signedBin, hp, if_pos ⟨hx1, hy1⟩]
  · intro hx hy
    have hx1 : (dx : ℚ) < 0 := by exact_mod_cast hx
    have hy1 : (0 : ℚ) ≤ dy := by exact_mod_cast hy
    rw [signedBin, hp, if_neg (fun h => absurd h.1 (not_le.mpr hx1)), if_pos ⟨hx1, hy1⟩]
  · intro hx hy
    have hx1 : (0 : ℚ) < dx := by exact_mod_cast hx
    have hy1 : (dy : ℚ) < 0 := by exact_mod_cast hy
    rw [signedBin, hp, if_neg (fun h => absurd h.2 (not_le.mpr hy1)),
      if_neg (fun h => absurd h.2 (not_le.mpr hy1)), if_pos ⟨hx1, hy1⟩]
  · intro hx hy
    have hx1 : (dx : ℚ) < 0 := by exact_mod_cast hx
    have hy1 : (dy : ℚ) < 0 := by exact_mod_cast hy
    rw [signedBin, hp, if_neg (fun h => absurd h.2 (not_le.mpr hy1)),
      if_neg (fun h => absurd h.2 (not_le.mpr hy1)),
      if_neg (fun h => absurd h.1 (not_lt.mpr hx1.le)), if_pos ⟨hx1, hy1⟩]
  · intro hx hy
    subst hx
    have hy1 : (dy : ℚ) < 0 := by exact_mod_cast hy
    rw [signedBin, hp, if_neg (fun h => absurd h.2 (not_le.mpr hy1)),
      if_neg (fun h => absurd h.2 (not_le.mpr hy1)),
      if_neg (fun h => absurd h.1 (by simp)), if_neg (fun h => absurd h.1 (by simp))]

section SearchLemmas

variable {α : Type} [LinearOrderedField α]

/-- The invariant of the search loop after `n` iterations: `bestDot` is
non-negative and bounds the projections seen; either nothing exceeded `0` and
`bestIndex` is still `0`, or `bestIndex` is the first index whose projection
equals `bestDot`. -/
theorem searchPrefix_invariant (cosT sinT : ℕ → α) (adx ady : α) (n : ℕ) :
    let s := searchPrefix cosT sinT adx ady n
    0 ≤ s.1 ∧ (∀ i < n, adx * cosT i + ady * sinT i ≤ s.1) ∧
      ((s.1 = 0 ∧ s.2 = 0) ∨
        ∃ k < n, s.2 = (k : ℤ) ∧ adx * cosT k + ady * sinT k = s.1 ∧
          ∀ i < k, adx * cosT i + ady * sinT i < s.1) := by
  induction n with
  | zero => simp [searchPrefix]
  | succ n ih =>
    obtain ⟨h0, hle, hcase⟩ := ih
    rw [searchPrefix_succ]
    generalize searchPrefix cosT sinT adx ady n = s at h0 hle hcase
    simp only [searchStep]
    refine ⟨le_max_of_le_right h0, ?_, ?_⟩
    · intro i hi
      rcases Nat.lt_succ_iff_lt_or_eq.mp hi with h | h
      · exact le_max_of_le_right (hle i h)
      · subst h; exact le_max_left _ _
    · by_cases hlt : s.1 < adx * cosT n + ady * sinT n
      · right
        refine ⟨n, Nat.lt_succ_self n, by simp [hlt], by simp [max_eq_left hlt.le], ?_⟩
        intro i hi
        rw [max_eq_left hlt.le]
        exact lt_of_le_of_lt (hle i hi) hlt
      · have hmax : max (adx * cosT n + ady * sinT n) s.1 = s.1 := max_eq_right (not_lt.mp hlt)
        rw [hmax, if_neg hlt]
        rcases hcase with h | ⟨k, hk, h1, h2, h3⟩
        · exact Or.inl h
        · exact Or.inr ⟨k, Nat.lt_succ_of_lt hk, h1, h2, h3⟩

end SearchLemmas

/-- Claim C10.  With non-negative tables (as `cos(i*pi/9)` and `sin(i*pi/9)` are
for `i < 5`), the unsigned bin produced by the search loop is the least index
in `[0, 5)` that maximises the projection `|dx|*cos[i] + |dy|*sin[i]` over
`[0, 5)`, and it is `0` when all projections are `0`. -/
theorem unsignedBin_least_argmax (env : FloatEnv) (dx dy : ℤ)
    (hcos : ∀ i < 5, 0 ≤ env.cos i) (hsin : ∀ i < 5, 0 ≤ env.sin i) :
    ∃ k : ℕ, k < 5 ∧ unsignedBin env.cos env.sin (dx : ℚ) (dy : ℚ) = (k : ℤ) ∧
      (∀ i < 5, projection env.cos env.sin (dx : ℚ) (dy : ℚ) i
        ≤ projection env.cos env.sin (dx : ℚ) (dy : ℚ) k) ∧
      (∀ i < k, projection env.cos env.sin (dx : ℚ) (dy : ℚ) i
        < projection env.cos env.sin (dx : ℚ) (dy : ℚ) k) ∧
      ((∀ i < 5, projection env.cos env.sin (dx : ℚ) (dy : ℚ) i = 0) → k = 0) := by
  obtain ⟨h0, hle, hcase⟩ := searchPrefix_invariant env.cos env.sin |(dx : ℚ)| |(dy : ℚ)| 5
  have hnn : ∀ i < 5, 0 ≤ projection env.cos env.sin (dx : ℚ) (dy : ℚ) i := fun i hi =>
    add_nonneg (mul_nonneg (abs_nonneg _) (hcos i hi)) (mul_nonneg (abs_nonneg _) (hsin i hi))
  rcases hcase with ⟨hz, hi0⟩ | ⟨k, hk, h1, h2, h3⟩
  · refine ⟨0, by norm_num, hi0, ?_, fun i hi => absurd hi (Nat.not_lt_zero i), fun _ => rfl⟩
    intro i hi
    have hi_le := hle i hi
    rw [hz] at hi_le
    have hz0 := hnn 0 (by norm_num)
    exact le_trans hi_le hz0
  · refine ⟨k, hk, h1, ?_, ?_, ?_⟩
    · intro i hi
      unfold projection
      rw [h2]
      exact hle i hi
    · intro i hi
      unfold projection
      rw [h2]
      exact h3 i hi
    · intro hall
      by_contra hk0
      have hpos : 0 < k := Nat.pos_of_ne_zero hk0
      have hlt := h3 0 hpos
      have hk_zero := hall k hk
      have h0_zero := hall 0 (by norm_num)
      unfold projection at hk_zero h0_zero
      rw [← h2, hk_zero, h0_zero] at hlt
      exact lt_irrefl _ hlt

/-- The tables of `floatEnv` are non-negative, so `unsignedBin_least_argmax`
applies to them: at the gradient `(3, 4)`. -/
theorem unsignedBin_least_argmax_witness :
    ∃ k : ℕ, k < 5 ∧ unsignedBin floatEnv.cos floatEnv.sin ((3 : ℤ) : ℚ) ((4 : ℤ) : ℚ) = (k : ℤ) ∧
      (∀ i < 5, projection floatEnv.cos floatEnv.sin ((3 : ℤ) : ℚ) ((4 : ℤ) : ℚ) i
        ≤ projection floatEnv.cos floatEnv.sin ((3 : ℤ) : ℚ) ((4 : ℤ) : ℚ) k) ∧
      (∀ i < k, projection floatEnv.cos floatEnv.sin ((3 : ℤ) : ℚ) ((4 : ℤ) : ℚ) i
        < projection floatEnv.cos floatEnv.sin ((3 : ℤ) : ℚ) ((4 : ℤ) : ℚ) k) ∧
      ((∀ i < 5, projection floatEnv.cos floatEnv.sin ((3 : ℤ) : ℚ) ((4 : ℤ) : ℚ) i = 0)
        → k = 0) :=
  unsignedBin_least_argmax floatEnv 3 4
    (by intro i hi; interval_cases i <;> simp [floatEnv, cosTable] <;> norm_num)
    (by intro i hi; interval_cases i <;> simp [floatEnv, sinTable] <;> norm_num)

theorem Min_eq_min (a b : ℚ) : Min a b = min a b := by
  unfold Min
  split_ifs with h
  · exact (min_eq_left h.le).symm
  · exact (min_eq_right (not_lt.mp h)).symm

theorem forRange_zero (n : ℕ) : forRange 0 n = List.range n := by
  simp [forRange, List.range_eq_range']

/-- The contrast-sensitive loop after `k` iterations. -/
theorem featSensitive_fold (hist : Mem) (n : V4) (c : FeatCursor) (k : ℕ) :
    (List.range k).foldl (featSensitive hist n) c =
      { dst := c.dst + k
        psrc := c.psrc + k
        t1 := c.t1 + ∑ o in Finset.range k, min (hist (c.psrc + o) * n 0) clampF
        t2 := c.t2 + ∑ o in Finset.range k, min (hist (c.psrc + o) * n 1) clampF
        t3 := c.t3 + ∑ o in Finset.range k, min (hist (c.psrc + o) * n 2) clampF
        t4 := c.t4 + ∑ o in Finset.range k, min (hist (c.psrc + o) * n 3) clampF
        out := c.out ++ (List.range k).map (fun (o : ℕ) =>
          (c.dst + (o : ℤ), 1 / 2 * ∑ j : Fin 4, min (hist (c.psrc + o) * n j) clampF)) } := by
  induction k with
  | zero => simp
  | succ k ih =>
    rw [List.range_succ, List.foldl_append, ih]
    simp only [List.foldl_cons, List.foldl_nil, featSensitive, Min_eq_min, Finset.sum_range_succ,
      List.map_append, List.map_cons, List.map_nil, Fin.sum_univ_four]
    congr 1
    · push_cast; ring
    · push_cast; ring
    · ring
    · ring
    · ring
    · ring
    · simp

/-- The contrast-insensitive loop after `k` iterations. -/
theorem featInsensitive_fold (hist : Mem) (n : V4) (c : FeatCursor) (k : ℕ) :
    (List.range k).foldl (featInsensitive hist n) c =
      { c with
        dst := c.dst + k
        psrc := c.psrc + k
        out := c.out ++ (List.range k).map (fun (o : ℕ) =>
          (c.dst + (o : ℤ), 1 / 2 * ∑ j : Fin 4,
            min ((hist (c.psrc + o) + hist (c.psrc + o + 9)) * n j) clampF)) } := by
  induction k with
  | zero => simp
  | succ k ih =>
    rw [List.range_succ, List.foldl_append, ih]
    simp only [List.foldl_cons, List.foldl_nil, featInsensitive, Min_eq_min,
      List.map_append, List.map_cons, List.map_nil, Fin.sum_univ_four, Q]
    congr 1
    · push_cast; ring
    · push_cast; ring
    · simp

theorem specChannel_sensitive (h : ℕ → ℚ) (n : V4) (o : ℕ) (ho : o < 18) :
    specChannel h n o = 1 / 2 * ∑ k : Fin 4, min (h o * n k) clampF := by
  simp [specChannel, ho]

theorem specChannel_insensitive (h : ℕ → ℚ) (n : V4) (o : ℕ) (ho : o < 9) :
    specChannel h n (18 + o)
      = 1 / 2 * ∑ k : Fin 4, min ((h o + h (o + 9)) * n k) clampF := by
  have h1 : ¬ (18 + o < 18) := by omega
  have h2 : 18 + o < 27 := by omega
  simp [specChannel, h1, h2]

theorem specChannel_energy (h : ℕ → ℚ) (n : V4) (k : Fin 4) :
    specChannel h n (27 + k.val)
      = 2357 / 10000 * ∑ o in Finset.range 18, min (h o * n k) clampF := by
  have h1 : ¬ (27 + k.val < 18) := by omega
  have h2 : ¬ (27 + k.val < 27) := by omega
  have h3 : (Fin.ofNat (27 + k.val - 27) : Fin 4) = k := by
    fin_cases k <;> rfl
  simp only [specChannel, h1, h2, if_false, h3]

/-- The stores of one cell: 31 consecutive floats from `(y*sx + x)*31`, channel
`ch` holding `specChannel ch`. -/
theorem cellWrites_eq (env : FloatEnv) (hist norm : Mem) (sx sy x y : ℕ) :
    cellWrites env hist norm sx sy x y =
      (List.range 31).map (fun ch =>
        ((((y * sx + x) * 31 + ch : ℕ) : ℤ),
          specChannel (cellHistogram hist sx x y)
            (normalizers env (neighbours norm sx sy x y)) ch)) := by
  have hr : List.range 31 = List.range 18 ++ (List.range 9).map (fun o => 18 + o)
      ++ [27 + (0 : Fin 4).val, 27 + (1 : Fin 4).val, 27 + (2 : Fin 4).val,
        27 + (3 : Fin 4).val] := by decide
  rw [hr]
  simp only [cellWrites, forRange_zero, Q2, Q, featSensitive_fold, featInsensitive_fold,
    featEnergy, List.map_append, List.map_map, List.nil_append, zero_add, List.map_cons,
    List.map_nil, specChannel_energy]
  congr 1

/-- Appending blocks of `m` consecutive entries of `g`, `n` times, lists the
first `n * m` entries of `g`. -/
theorem foldl_append_blocks {β : Type} (g : ℕ → β) (m : ℕ) (F : ℕ → List β) (n : ℕ)
    (hF : ∀ i < n, F i = (List.range m).map (fun j => g (i * m + j))) (init : List β) :
    (List.range n).foldl (fun acc i => acc ++ F i) init
      = init ++ (List.range (n * m)).map g := by
  induction n with
  | zero => simp
  | succ n ih =>
    rw [List.range_succ, List.foldl_append, ih (fun i hi => hF i (Nat.lt_succ_of_lt hi))]
    simp only [List.foldl_cons, List.foldl_nil, List.append_assoc]
    rw [hF n (Nat.lt_succ_self n), Nat.succ_mul, List.range_add, List.map_append, List.map_map]
    rfl

theorem specStore_cell (env : FloatEnv) (hist norm : Mem) (sx sy x y ch : ℕ)
    (hx : x < sx) (hch : ch < 31) :
    specStore env hist norm sx sy ((y * sx + x) * 31 + ch) =
      ((((y * sx + x) * 31 + ch : ℕ) : ℤ),
        specChannel (cellHistogram hist sx x y)
          (normalizers env (neighbours norm sx sy x y)) ch) := by
  have h1 : ((y * sx + x) * 31 + ch) / 31 = y * sx + x := by omega
  have h2 : ((y * sx + x) * 31 + ch) % 31 = ch := by omega
  have h3 : (y * sx + x) % sx = x := by
    rw [Nat.add_comm, Nat.add_mul_mod_self_right, Nat.mod_eq_of_lt hx]
  have h4 : (y * sx + x) / sx = y := by
    rw [Nat.add_comm, Nat.add_mul_div_right _ _ (by omega), Nat.div_eq_of_lt hx, zero_add]
  simp only [specStore, h1, h2, h3, h4]

/-- The stores of the two nested loops: float offset `a` of `features` gets
`specStore a`, for `a = 0, 1, ..., sy*sx*31 - 1` in this order. -/
theorem featureWrites_eq (env : FloatEnv) (hist norm : Mem) (sx sy : ℕ) :
    featureWrites env hist norm sx sy
      = (List.range (sy * sx * 31)).map (specStore env hist norm sx sy) := by
  unfold featureWrites
  simp only [forRange_zero]
  have hinner : ∀ y, ∀ log : List (ℤ × ℚ),
      (List.range sx).foldl (fun log x => log ++ cellWrites env hist norm sx sy x y) log
        = log ++ (List.range (sx * 31)).map
            (fun a => specStore env hist norm sx sy (y * (sx * 31) + a)) := by
    intro y log
    apply foldl_append_blocks (fun a => specStore env hist norm sx sy (y * (sx * 31) + a)) 31
    intro x hx
    rw [cellWrites_eq]
    apply List.map_congr_left
    intro ch hch
    rw [List.mem_range] at hch
    have : y * (sx * 31) + (x * 31 + ch) = (y * sx + x) * 31 + ch := by ring
    rw [this, specStore_cell env hist norm sx sy x y ch hx hch]
  simp only [hinner]
  have houter := foldl_append_blocks (specStore env hist norm sx sy) (sx * 31)
    (fun y => (List.range (sx * 31)).map
      (fun a => specStore env hist norm sx sy (y * (sx * 31) + a))) sy (fun _ _ => rfl) []
  simp only [List.nil_append] at houter
  rw [houter, Nat.mul_assoc]

/-- Memory after storing `v a` at offset `a` for `a = 0 .. N-1`. -/
theorem applyWrites_range (feat : Mem) (v : ℕ → ℚ) (N : ℕ) :
    applyWrites feat ((List.range N).map (fun (a : ℕ) => ((a : ℤ), v a)))
      = fun i => if 0 ≤ i ∧ i < (N : ℤ) then v i.toNat else feat i := by
  induction N with
  | zero =>
    funext i
    have : ¬ (0 ≤ i ∧ i < ((0 : ℕ) : ℤ)) := by push_cast; omega
    rw [if_neg this]
    rfl
  | succ N ih =>
    unfold applyWrites at ih ⊢
    rw [List.range_succ, List.map_append, List.foldl_append, ih]
    funext i
    simp only [List.map_cons, List.map_nil, List.foldl_cons, List.foldl_nil, Function.update_apply]
    by_cases hi : i = (N : ℤ)
    · subst hi
      have : (0 : ℤ) ≤ (N : ℤ) ∧ (N : ℤ) < ((N + 1 : ℕ) : ℤ) := by push_cast; omega
      simp [this]
    · rw [if_neg hi]
      split_ifs with h1 h2 h2
      · rfl
      · exfalso; push_cast at h2; omega
      · exfalso; push_cast at h2; omega
      · rfl

/-- The array `features` after the call: offset `a < sy*sx*31` holds the value
of `specStore a`, every other offset is untouched. -/
theorem HogExtractFeatures_eq (env : FloatEnv) (src : Bytes) (stride width height : ℕ)
    (g : State) (feat : Mem) :
    HogExtractFeatures env src stride width height g feat
      = fun i => if 0 ≤ i ∧ i < ((height / C * (width / C) * 31 : ℕ) : ℤ)
          then (specStore env (runState env src stride width height g).histogram
            (runState env src stride width height g).norm (width / C) (height / C) i.toNat).2
          else feat i := by
  unfold HogExtractFeatures Run
  simp only [featureWrites_eq]
  exact applyWrites_range feat _ _

/-- Claim C1.  The stores of `Run` into `features`, in program order, go to the
float offsets `0, 1, ..., (height/8)*(width/8)*31 - 1`: every entry of that
range is stored exactly once and nothing outside it is stored (so the rest of
the memory is untouched).  The store number `(y*sx + x)*31 + ch` is the one of
channel `ch` of cell `(x, y)`: the cell owns the 31 consecutive entries from
`(y*sx + x)*31`, holding the 18 contrast-sensitive channels, then the 9
contrast-insensitive ones, then the 4 energy channels (`specChannel`). -/
theorem Run_writes_layout (env : FloatEnv) (src : Bytes) (stride width height : ℕ)
    (g : State) :
    (Run env src stride width height g).map Prod.fst
        = (List.range (height / 8 * (width / 8) * 31)).map (fun (a : ℕ) => (a : ℤ)) ∧
      (∀ x y ch : ℕ, x < width / 8 → y < height / 8 → ch < 31 →
        (Run env src stride width height g)[(y * (width / 8) + x) * 31 + ch]? =
          some ((((y * (width / 8) + x) * 31 + ch : ℕ) : ℤ),
            specChannel
              (cellHistogram (runState env src stride width height g).histogram (width / 8) x y)
              (normalizers env
                (neighbours (runState env src stride width height g).norm
                  (width / 8) (height / 8) x y)) ch)) ∧
      (∀ (feat : Mem) (i : ℤ), ¬ (0 ≤ i ∧ i < ((height / 8 * (width / 8) * 31 : ℕ) : ℤ)) →
        HogExtractFeatures env src stride width height g feat i = feat i) := by
  refine ⟨?_, ?_, ?_⟩
  · unfold Run
    simp only [featureWrites_eq, List.map_map, C]
    apply List.map_congr_left
    intro a _
    rfl
  · intro x y ch hx hy hch
    have hlt : (y * (width / 8) + x) * 31 + ch < height / 8 * (width / 8) * 31 := by
      have h1 : y * (width / 8) + x < height / 8 * (width / 8) := by
        calc y * (width / 8) + x < y * (width / 8) + width / 8 := by omega
          _ = (y + 1) * (width / 8) := by ring
          _ ≤ height / 8 * (width / 8) := Nat.mul_le_mul_right _ hy
      omega
    unfold Run
    simp only [featureWrites_eq, C]
    rw [List.getElem?_map, List.getElem?_range hlt]
    simp only [Option.map_some']
    rw [specStore_cell env _ _ _ _ x y ch hx hch]
  · intro feat i hi
    rw [HogExtractFeatures_eq]
    simp only [C] at hi ⊢
    rw [if_neg hi]

/-- Claim C2.  For the cell `(x, y)` with histogram `h` and normalisation
scalars `n 0 .. n 3` (the `n1 .. n4` of `Run`), the descriptor returned in
`features` holds, from offset `(y*sx + x)*31`: channel `o < 18` equal to
`0.5 * Σ_k min(h[o]*n_k, 0.2)`, channel `18 + o` (`o < 9`) equal to
`0.5 * Σ_k min((h[o] + h[o+9])*n_k, 0.2)`, and channel `27 + k` (`k < 4`) equal
to `0.2357 * t_k` with `t_k = Σ_{o<18} min(h[o]*n_k, 0.2)`; the clamp `0.2` is
the `float` literal `0.2f` of the code, `clampF`. -/
theorem features_channels (env : FloatEnv) (src : Bytes) (stride width height : ℕ)
    (g : State) (feat : Mem) (x y : ℕ) (hx : x < width / 8) (hy : y < height / 8) :
    let st := runState env src stride width height g
    let h := cellHistogram st.histogram (width / 8) x y
    let n := normalizers env (neighbours st.norm (width / 8) (height / 8) x y)
    let out := HogExtractFeatures env src stride width height g feat
    let base : ℤ := (((y * (width / 8) + x) * 31 : ℕ) : ℤ)
    (∀ o : ℕ, o < 18 → out (base + (o : ℤ)) = 1 / 2 * ∑ k : Fin 4, min (h o * n k) clampF) ∧
    (∀ o : ℕ, o < 9 → out (base + 18 + (o : ℤ))
        = 1 / 2 * ∑ k : Fin 4, min ((h o + h (o + 9)) * n k) clampF) ∧
    (∀ k : Fin 4, out (base + 27 + (k.val : ℤ))
        = 2357 / 10000 * ∑ o in Finset.range 18, min (h o * n k) clampF) := by
  intro st h n out base
  have hcell : y * (width / 8) + x < height / 8 * (width / 8) := by
    calc y * (width / 8) + x < y * (width / 8) + width / 8 := by omega
      _ = (y + 1) * (width / 8) := by ring
      _ ≤ height / 8 * (width / 8) := Nat.mul_le_mul_right _ hy
  have key : ∀ ch : ℕ, ch < 31 → out (base + (ch : ℤ)) = specChannel h n ch := by
    intro ch hch
    have hr : 0 ≤ base + (ch : ℤ) ∧
        base + (ch : ℤ) < ((height / 8 * (width / 8) * 31 : ℕ) : ℤ) := by
      simp only [base]
      constructor
      · positivity
      · have : (y * (width / 8) + x) * 31 + ch < height / 8 * (width / 8) * 31 := by omega
        exact_mod_cast this
    have hn : (base + (ch : ℤ)).toNat = (y * (width / 8) + x) * 31 + ch := by
      simp only [base]
      rw [← Nat.cast_add, Int.toNat_natCast]
    simp only [out]
    rw [HogExtractFeatures_eq]
    simp only [C]
    rw [if_pos hr, hn, specStore_cell env _ _ _ _ x y ch hx hch]
  refine ⟨?_, ?_, ?_⟩
  · intro o ho
    rw [key o (by omega), specChannel_sensitive _ _ _ ho]
  · intro o ho
    have := key (18 + o) (by omega)
    rw [specChannel_insensitive _ _ _ ho] at this
    rw [← this]
    push_cast
    ring_nf
  · intro k
    have := key (27 + k.val) (by omega)
    rw [specChannel_energy] at this
    rw [← this]
    push_cast
    ring_nf

/-- The statement of `features_channels` at the cell `(0, 0)` of a black
16x16 image. -/
theorem features_channels_witness :
    let st := runState floatEnv (flatImage 0) 16 16 16 zeroState
    let h := cellHistogram st.histogram (16 / 8) 0 0
    let n := normalizers floatEnv (neighbours st.norm (16 / 8) (16 / 8) 0 0)
    let out := HogExtractFeatures floatEnv (flatImage 0) 16 16 16 zeroState (fun _ => 0)
    let base : ℤ := (((0 * (16 / 8) + 0) * 31 : ℕ) : ℤ)
    (∀ o : ℕ, o < 18 → out (base + (o : ℤ)) = 1 / 2 * ∑ k : Fin 4, min (h o * n k) clampF) ∧
    (∀ o : ℕ, o < 9 → out (base + 18 + (o : ℤ))
        = 1 / 2 * ∑ k : Fin 4, min ((h o + h (o + 9)) * n k) clampF) ∧
    (∀ k : Fin 4, out (base + 27 + (k.val : ℤ))
        = 2357 / 10000 * ∑ o in Finset.range 18, min (h o * n k) clampF) :=
  features_channels floatEnv (flatImage 0) 16 16 16 zeroState (fun _ => 0) 0 0
    (by decide) (by decide)

theorem Valid.cells {stride width height : ℕ} (hv : Valid stride width height) :
    2 ≤ width / 8 ∧ 2 ≤ height / 8 := by
  obtain ⟨_, _, hw, hh, _, _⟩ := hv
  omega

/-- Claim C6.  For the corner cell `(0, 0)` of a valid image the neighbours
outside the grid contribute energy 0: `n4 = 1/sqrt(norm(0,0) + eps)`,
`n2 = 1/sqrt(norm(0,0) + norm(1,0) + eps)`,
`n3 = 1/sqrt(norm(0,0) + norm(0,1) + eps)` and
`n1 = 1/sqrt(norm(0,0) + norm(1,0) + norm(0,1) + norm(1,1) + eps)`, where
`norm(x,y) = _norm[y*sx + x]`; and every `_norm` entry read lies in
`[0, sx*sy)`. -/
theorem corner_cell_normalizers (env : FloatEnv) (src : Bytes) (stride width height : ℕ)
    (g : State) (hv : Valid stride width height) :
    let sx := width / 8
    let sy := height / 8
    let norm := (runState env src stride width height g).norm
    let n := normalizers env (neighbours norm sx sy 0 0)
    n 3 = 1 / env.sqrt (norm 0 + eps) ∧
      n 1 = 1 / env.sqrt (norm 0 + norm 1 + eps) ∧
      n 2 = 1 / env.sqrt (norm 0 + norm (sx : ℤ) + eps) ∧
      n 0 = 1 / env.sqrt (norm 0 + norm 1 + norm (sx : ℤ) + norm ((sx : ℤ) + 1) + eps) ∧
      ∀ a ∈ neighbourReads sx sy 0 0, 0 ≤ a ∧ a < ((sx * sy : ℕ) : ℤ) := by
  intro sx sy norm n
  obtain ⟨hsx, hsy⟩ := hv.cells
  have hsx' : (2 : ℤ) ≤ (sx : ℤ) := by exact_mod_cast hsx
  have hsy' : (2 : ℤ) ≤ (sy : ℤ) := by exact_mod_cast hsy
  have h1 : ¬ ((0 : ℤ) < ((0 : ℕ) : ℤ) - 1) := by norm_num
  have h2 : ((0 : ℕ) : ℤ) - 1 + 2 < (sx : ℤ) := by push_cast; omega
  have h3 : ((0 : ℕ) : ℤ) - 1 + 2 < (sy : ℤ) := by push_cast; omega
  have hp : normPtr sx 0 0 = -(sx : ℤ) - 1 := by simp only [normPtr]; push_cast; ring
  have e0 : -(sx : ℤ) - 1 + (sx : ℤ) + 1 = 0 := by ring
  have e1 : -(sx : ℤ) - 1 + 2 + (sx : ℤ) = 1 := by ring
  have e2 : -(sx : ℤ) - 1 + 1 + 2 * (sx : ℤ) = (sx : ℤ) := by ring
  have e3 : -(sx : ℤ) - 1 + 2 + 2 * (sx : ℤ) = (sx : ℤ) + 1 := by ring
  refine ⟨?_, ?_, ?_, ?_, ?_⟩
  · simp only [n, normalizers, neighbours, h1, h2, h3, hp, e0, false_and, and_false, if_false,
      Matrix.cons_val_three, Matrix.cons_val_zero, Matrix.cons_val_one, Matrix.head_cons,
      Matrix.tail_cons, zero_add]
  · simp only [n, normalizers, neighbours, h1, h2, h3, hp, e0, e1, false_and, and_false,
      if_false, if_true, Matrix.cons_val_one, Matrix.head_cons, zero_add]
  · simp only [n, normalizers, neighbours, h1, h2, h3, hp, e0, e2, false_and, and_false,
      if_false, if_true, Matrix.cons_val_two, Matrix.head_cons, Matrix.tail_cons, zero_add,
      add_zero]
  · simp only [n, normalizers, neighbours, h1, h2, h3, hp, e0, e1, e2, e3, and_self,
      if_true, Matrix.cons_val_zero]
  · intro a ha
    simp only [neighbourReads, h1, h2, h3, hp, e0, e1, e2, e3, false_and, and_false, if_false,
      if_true, and_self, List.nil_append, List.append_nil, List.cons_append, List.mem_cons,
      List.mem_singleton, List.not_mem_nil, or_false] at ha
    have hmul : (2 : ℤ) * (sx : ℤ) ≤ (sx : ℤ) * (sy : ℤ) := by nlinarith
    push_cast
    rcases ha with rfl | rfl | rfl | rfl <;> constructor <;> omega

/-- The statement of `corner_cell_normalizers` for a flat 16x16 image. -/
theorem corner_cell_normalizers_witness :
    let sx := 16 / 8
    let sy := 16 / 8
    let norm := (runState floatEnv (flatImage 7) 16 16 16 zeroState).norm
    let n := normalizers floatEnv (neighbours norm sx sy 0 0)
    n 3 = 1 / floatEnv.sqrt (norm 0 + eps) ∧
      n 1 = 1 / floatEnv.sqrt (norm 0 + norm 1 + eps) ∧
      n 2 = 1 / floatEnv.sqrt (norm 0 + norm (sx : ℤ) + eps) ∧
      n 0 = 1 / floatEnv.sqrt (norm 0 + norm 1 + norm (sx : ℤ) + norm ((sx : ℤ) + 1) + eps) ∧
      ∀ a ∈ neighbourReads sx sy 0 0, 0 ≤ a ∧ a < ((sx * sy : ℕ) : ℤ) :=
  corner_cell_normalizers floatEnv (flatImage 7) 16 16 16 zeroState (by decide)

set_option maxRecDepth 100000 in
/-- Claim C5, evaluated at the step-edge image: for the cell `(1, 0)` the left
neighbour `(0, 0)` lies inside the 2x2 grid and has a non-zero energy
`_norm[0]`, yet the guard `xx > 0` fails for `xx = x - 1 = 0` and the variable
`x0y1` used for `n3` and `n4` keeps the value 0. -/
theorem left_neighbour_dropped :
    (runState floatEnv stepImage 16 16 16 zeroState).norm 0 ≠ 0 ∧
      (neighbours (runState floatEnv stepImage 16 16 16 zeroState).norm 2 2 1 0).x0y1 = 0 := by
  refine ⟨by decide!, ?_⟩
  simp [neighbours]

/-- Lane `j` of `CovertDifference<part>` of two loads is the difference of the
bytes `8*part + j` further on. -/
theorem CovertDifference_Load (src : Bytes) (part : ℕ) (a b : ℤ) (j : ℕ) :
    CovertDifference part (Load src a) (Load src b) j
      = ((((src (a + (8 * (part : ℤ) + (j : ℤ)))).val : ℤ)
          - ((src (b + (8 * (part : ℤ) + (j : ℤ)))).val : ℤ) : ℤ) : ℚ) := by
  simp only [CovertDifference, SubUnpackedU8, Load]
  push_cast
  rfl

/-- One 16-lane batch: the positions `col .. col+15` of `_index` and `_value`
receive the bin and magnitude of the central differences at their own column. -/
theorem GetHistogramBatch_apply (env : FloatEnv) (src : Bytes) (stride : ℕ) (s0 col : ℤ)
    (st : Lanes) (p : ℤ) :
    ((GetHistogramBatch env src stride s0 col st).index p
        = if col ≤ p ∧ p < col + 16
          then signedBin env.cos env.sin (gradX src (s0 + p)) (gradY src stride (s0 + p))
          else st.index p) ∧
      ((GetHistogramBatch env src stride s0 col st).value p
        = if col ≤ p ∧ p < col + 16
          then magnitude env (gradX src (s0 + p)) (gradY src stride (s0 + p))
          else st.value p) := by
  simp only [GetHistogramBatch, GetHistogramLanes, CovertDifference_Load, add_zero]
  by_cases h1 : col + 8 ≤ p ∧ p < col + 8 + 8
  · have h2 : col ≤ p ∧ p < col + 16 := by omega
    have hj : ((p - (col + 8)).toNat : ℤ) = p - (col + 8) := Int.toNat_of_nonneg (by omega)
    have e1 : s0 + col + 1 + (8 * ((1 : ℕ) : ℤ) + ((p - (col + 8)).toNat : ℤ)) = s0 + p + 1 := by
      rw [hj]; push_cast; ring
    have e2 : s0 + col - 1 + (8 * ((1 : ℕ) : ℤ) + ((p - (col + 8)).toNat : ℤ)) = s0 + p - 1 := by
      rw [hj]; push_cast; ring
    have e3 : s0 + col + (stride : ℤ) + (8 * ((1 : ℕ) : ℤ) + ((p - (col + 8)).toNat : ℤ))
        = s0 + p + (stride : ℤ) := by
      rw [hj]; push_cast; ring
    have e4 : s0 + col - (stride : ℤ) + (8 * ((1 : ℕ) : ℤ) + ((p - (col + 8)).toNat : ℤ))
        = s0 + p - (stride : ℤ) := by
      rw [hj]; push_cast; ring
    simp only [if_pos h1, if_pos h2, e1, e2, e3, e4, gradX, gradY, and_self]
  · by_cases h2 : col ≤ p ∧ p < col + 8
    · have h3 : col ≤ p ∧ p < col + 16 := by omega
      have hj : ((p - col).toNat : ℤ) = p - col := Int.toNat_of_nonneg (by omega)
      have e1 : s0 + col + 1 + (8 * ((0 : ℕ) : ℤ) + ((p - col).toNat : ℤ)) = s0 + p + 1 := by
        rw [hj]; push_cast; ring
      have e2 : s0 + col - 1 + (8 * ((0 : ℕ) : ℤ) + ((p - col).toNat : ℤ)) = s0 + p - 1 := by
        rw [hj]; push_cast; ring
      have e3 : s0 + col + (stride : ℤ) + (8 * ((0 : ℕ) : ℤ) + ((p - col).toNat : ℤ))
          = s0 + p + (stride : ℤ) := by
        rw [hj]; push_cast; ring
      have e4 : s0 + col - (stride : ℤ) + (8 * ((0 : ℕ) : ℤ) + ((p - col).toNat : ℤ))
          = s0 + p - (stride : ℤ) := by
        rw [hj]; push_cast; ring
      simp only [if_neg h1, if_pos h2, if_pos h3, e1, e2, e3, e4, gradX, gradY, and_self]
    · have h3 : ¬ (col ≤ p ∧ p < col + 16) := by omega
      simp only [if_neg h1, if_neg h2, if_neg h3, and_self]

/-- The last batch column `width - 1 - HA`, computed in `size_t` and used as a
pointer offset, is `width - 17`: it is `-1` for `width = 16`. -/
theorem lastBatch_offset (width : ℕ) (h1 : 1 ≤ width) (h2 : width < 2 ^ 63) :
    ptrOff (subSizeT (subSizeT width 1) HA) = (width : ℤ) - 17 := by
  have e1 : subSizeT width 1 = width - 1 := by
    unfold subSizeT
    norm_num at h2 ⊢
    omega
  rw [e1]
  unfold subSizeT ptrOff HA
  norm_num at h2 ⊢
  split_ifs with h <;> omega

/-- Every batch writes at a position the bin and magnitude of that position, so
a position that holds them keeps them. -/
theorem batch_fold_good (env : FloatEnv) (src : Bytes) (stride : ℕ) (s0 p : ℤ)
    (cols : List ℤ) (l0 : Lanes)
    (h : (l0.index p = signedBin env.cos env.sin (gradX src (s0 + p)) (gradY src stride (s0 + p))
          ∧ l0.value p = magnitude env (gradX src (s0 + p)) (gradY src stride (s0 + p)))
        ∨ ∃ c ∈ cols, c ≤ p ∧ p < c + 16) :
    let l := cols.foldl (fun l c => GetHistogramBatch env src stride s0 c l) l0
    l.index p = signedBin env.cos env.sin (gradX src (s0 + p)) (gradY src stride (s0 + p)) ∧
      l.value p = magnitude env (gradX src (s0 + p)) (gradY src stride (s0 + p)) := by
  induction cols generalizing l0 with
  | nil =>
    rcases h with h | ⟨c, hc, _⟩
    · exact h
    · simp at hc
  | cons c cs ih =>
    simp only [List.foldl_cons]
    apply ih
    obtain ⟨hi, hv⟩ := GetHistogramBatch_apply env src stride s0 c l0 p
    by_cases hc : c ≤ p ∧ p < c + 16
    · left
      rw [hi, hv, if_pos hc, if_pos hc]
      exact ⟨rfl, rfl⟩
    · rcases h with h | ⟨c', hc', hcov⟩
      · left
        rw [hi, hv, if_neg hc, if_neg hc]
        exact h
      · rcases List.mem_cons.mp hc' with rfl | hmem
        · exact absurd hcov hc
        · right
          exact ⟨c', hmem, hcov⟩

/-- After the batches of a row, every interior column `1 .. width-2` of `_index`
and `_value` holds the bin and the magnitude of the central differences at that
pixel. -/
theorem rowLanes_interior (env : FloatEnv) (src : Bytes) (stride row width : ℕ)
    (lanes : Lanes) (hw8 : width % 8 = 0) (hw : 16 ≤ width) (hw63 : width < 2 ^ 63)
    (p : ℕ) (hp1 : 1 ≤ p) (hp2 : p + 2 ≤ width) :
    let l := rowLanes env src stride row width (AlignHi (width - 1) HA - HA) lanes
    let s : ℤ := (stride : ℤ) * (row : ℤ) + (p : ℤ)
    l.index (p : ℤ) = signedBin env.cos env.sin (gradX src s) (gradY src stride s) ∧
      l.value (p : ℤ) = magnitude env (gradX src s) (gradY src stride s) := by
  intro l s
  have hlast := lastBatch_offset width (by omega) hw63
  have key := batch_fold_good env src stride ((stride : ℤ) * (row : ℤ)) (p : ℤ)
    ([(1 : ℤ)] ++ (loopRange HA (AlignHi (width - 1) HA - HA) HA).map (fun (c : ℕ) => (c : ℤ))
      ++ [(width : ℤ) - 17]) lanes
    (Or.inr (by
      by_cases ha : p ≤ 16
      · exact ⟨1, by simp, by omega, by omega⟩
      · by_cases hb : width ≤ p + 17
        · exact ⟨(width : ℤ) - 17, by simp, by omega, by omega⟩
        · refine ⟨((16 * (p / 16) : ℕ) : ℤ), ?_, by push_cast; omega, by push_cast; omega⟩
          simp only [List.mem_append, List.mem_map, List.mem_singleton, loopRange, HA, AlignHi,
            List.mem_range]
          left; right
          refine ⟨16 * (p / 16), ⟨p / 16 - 1, ?_, ?_⟩, rfl⟩
          · omega
          · omega))
  simp only [List.foldl_append, List.foldl_cons, List.foldl_nil, List.foldl_map] at key
  simp only [l, rowLanes, hlast]
  exact key

theorem land_seven (n : ℕ) : n &&& 7 = n % 8 :=
  Nat.and_pow_two_sub_one_eq_mod n 3

theorem forRange_split (a b c : ℕ) (hab : a ≤ b) (hbc : b ≤ c) :
    forRange a c = forRange a b ++ forRange b c := by
  have h1 : forRange b c = List.range' (a + (b - a)) (c - b) := by
    unfold forRange
    congr 1
    omega
  rw [h1]
  unfold forRange
  rw [List.range'_append_1]
  congr 1
  omega

theorem mem_forRange (a b i : ℕ) : i ∈ forRange a b ↔ a ≤ i ∧ i < b := by
  unfold forRange
  rw [List.mem_range'_1]
  omega

/-- The cell loop of `AddRowToBuffer` after `n` cells: the pixels of columns
`4 .. 4+8n-1` have been accumulated, each into block `(col + 4) / 8` with the
kernel `kx[(col + 4) mod 8]`. -/
theorem rowCell_fold (lanes : Lanes) (kyv : V4) (b : Mem) (n : ℕ) :
    (forRange 1 (n + 1)).foldl (rowCell lanes kyv) { buffer := b, base := 18, col := 4 }
      = { buffer := (forRange 4 (4 + 8 * n)).foldl (pixelStep lanes kyv) b
          base := 18 + 18 * (n : ℤ)
          col := 4 + 8 * n } := by
  induction n with
  | zero => simp [forRange]
  | succ n ih =>
    have hs : forRange 1 (n + 1 + 1) = forRange 1 (n + 1) ++ [n + 1] := by
      unfold forRange
      have : n + 1 + 1 - 1 = (n + 1 - 1) + 1 := by omega
      rw [this, List.range'_concat]
      simp
      omega
    have ht : forRange 4 (4 + 8 * (n + 1))
        = forRange 4 (4 + 8 * n) ++ [4 + 8 * n, 4 + 8 * n + 1, 4 + 8 * n + 2, 4 + 8 * n + 3,
            4 + 8 * n + 4, 4 + 8 * n + 5, 4 + 8 * n + 6, 4 + 8 * n + 7] := by
      rw [forRange_split 4 (4 + 8 * n) (4 + 8 * (n + 1)) (by omega) (by omega)]
      congr 1
      unfold forRange
      have : 4 + 8 * (n + 1) - (4 + 8 * n) = 8 := by omega
      rw [this]
      rfl
    rw [hs, List.foldl_append, ih, ht, List.foldl_append]
    have m0 : (4 + 8 * n + 4) % 8 = 0 := by omega
    have m1 : (4 + 8 * n + 1 + 4) % 8 = 1 := by omega
    have m2 : (4 + 8 * n + 2 + 4) % 8 = 2 := by omega
    have m3 : (4 + 8 * n + 3 + 4) % 8 = 3 := by omega
    have m4 : (4 + 8 * n + 4 + 4) % 8 = 4 := by omega
    have m5 : (4 + 8 * n + 5 + 4) % 8 = 5 := by omega
    have m6 : (4 + 8 * n + 6 + 4) % 8 = 6 := by omega
    have m7 : (4 + 8 * n + 7 + 4) % 8 = 7 := by omega
    have d0 : (4 + 8 * n + 4) / 8 = n + 1 := by omega
    have d1 : (4 + 8 * n + 1 + 4) / 8 = n + 1 := by omega
    have d2 : (4 + 8 * n + 2 + 4) / 8 = n + 1 := by omega
    have d3 : (4 + 8 * n + 3 + 4) / 8 = n + 1 := by omega
    have d4 : (4 + 8 * n + 4 + 4) / 8 = n + 1 := by omega
    have d5 : (4 + 8 * n + 5 + 4) / 8 = n + 1 := by omega
    have d6 : (4 + 8 * n + 6 + 4) / 8 = n + 1 := by omega
    have d7 : (4 + 8 * n + 7 + 4) / 8 = n + 1 := by omega
    have hb : (18 : ℤ) + 18 * (n : ℤ) = 18 * (((n + 1 : ℕ)) : ℤ) := by push_cast; ring
    have hr : forRange 0 8 = [0, 1, 2, 3, 4, 5, 6, 7] := by decide
    simp only [List.foldl_cons, List.foldl_nil, rowCell, rowInner, hr, pixelStep,
      m0, m1, m2, m3, m4, m5, m6, m7, d0, d1, d2, d3, d4, d5, d6, d7, hb]
    congr 1
    · push_cast; ring

/-- The accumulation part of `AddRowToBuffer` treats the interior columns
`1 .. width-2` uniformly, in increasing order: column `col` goes to block
`(col + 4) / 8` with the kernels `kx[(col + 4) mod 8]` and `ky[(row + 4) mod 8]`. -/
theorem rowAccumulate_eq (lanes : Lanes) (row width : ℕ) (buffer : Mem)
    (hw8 : width % 8 = 0) (hw : 8 ≤ width) :
    rowAccumulate lanes row width buffer
      = (forRange 1 (width - 1)).foldl (pixelStep lanes (ky ((row + 4) % 8))) buffer := by
  have hcells : width / 8 = (width / 8 - 1) + 1 := by omega
  have hmid : 4 + 8 * (width / 8 - 1) = width - 4 := by omega
  unfold rowAccumulate
  simp only [land_seven]
  rw [hcells, rowCell_fold, hmid]
  rw [forRange_split 1 4 (width - 1) (by omega) (by omega),
    forRange_split 4 (width - 4) (width - 1) (by omega) (by omega),
    List.foldl_append, List.foldl_append]
  have h1 : (forRange 1 4).foldl
      (fun b (col : ℕ) => addPixel lanes (ky ((row + 4) % 8)) (kx ((col + 4) % 8)) 0 b col) buffer
      = (forRange 1 4).foldl (pixelStep lanes (ky ((row + 4) % 8))) buffer := by
    apply List.foldl_ext
    intro b col hcol
    rw [mem_forRange] at hcol
    have : (col + 4) / 8 = 0 := by omega
    simp only [pixelStep, this, Nat.cast_zero, mul_zero]
  rw [h1]
  apply List.foldl_ext
  intro b col hcol
  rw [mem_forRange] at hcol
  have : (col + 4) / 8 = width / 8 - 1 + 1 := by omega
  have hb : (18 : ℤ) + 18 * ((width / 8 - 1 : ℕ) : ℤ) = 18 * ((width / 8 - 1 + 1 : ℕ) : ℤ) := by
    push_cast; ring
  simp only [pixelStep, this, hb]

/-- A property that holds initially and is kept by every step holds after a loop. -/
theorem foldl_pres {σ β : Type} (I : σ → Prop) (f : σ → β → σ) (l : List β) (s : σ)
    (hs : I s) (hf : ∀ s, ∀ b ∈ l, I s → I (f s b)) : I (l.foldl f s) := by
  induction l generalizing s with
  | nil => exact hs
  | cons b bs ih =>
    simp only [List.foldl_cons]
    exact ih (f s b) (hf s b (List.mem_cons_self b bs) hs)
      (fun s' b' hb' hs' => hf s' b' (List.mem_cons_of_mem b hb') hs')

/-- The statement `m[a] += v` keeps, at every address, a property closed under
addition that `v` has. -/
theorem addAt_pres (P : ℚ → Prop) (hadd : ∀ a b, P a → P b → P (a + b))
    (m : Mem) (a x : ℤ) (v : ℚ) (hm : P (m x)) (hv : P v) : P (addAt m a v x) := by
  unfold addAt
  by_cases h : x = a
  · subst h
    rw [Function.update_same]
    exact hadd _ _ hm hv
  · rw [Function.update_noteq h]
    exact hm

/-- A load-add-store of four lanes keeps, at every address, a property closed
under addition that the addends have. -/
theorem storeV4_add_pres (P : ℚ → Prop) (hadd : ∀ a b, P a → P b → P (a + b))
    (m : Mem) (a x : ℤ) (v : V4) (hm : P (m x)) (hv : ∀ l, P (v l)) :
    P (storeV4 m a (loadV4 m a + v) x) := by
  unfold storeV4 loadV4
  simp only [Pi.add_apply, Matrix.cons_val_zero, Matrix.cons_val_one, Matrix.head_cons,
    Matrix.cons_val_two, Matrix.tail_cons, Matrix.cons_val_three]
  split_ifs with h1 h2 h3 h4
  · rw [h1] at hm; exact hadd _ _ hm (hv 0)
  · rw [h2] at hm; exact hadd _ _ hm (hv 1)
  · rw [h3] at hm; exact hadd _ _ hm (hv 2)
  · rw [h4] at hm; exact hadd _ _ hm (hv 3)
  · exact hm

theorem addPixel_pres (P : ℚ → Prop) (hadd : ∀ a b, P a → P b → P (a + b))
    (lanes : Lanes) (kyv kxv : V4) (base : ℤ) (b : Mem) (col : ℕ) (x : ℤ)
    (hb : P (b x)) (hv : ∀ l, P (lanes.value (col : ℤ) * (kyv l * kxv l))) :
    P (addPixel lanes kyv kxv base b col x) := by
  unfold addPixel
  exact storeV4_add_pres P hadd b _ x (fun l => lanes.value (col : ℤ) * (kyv l * kxv l)) hb hv

/-- The accumulation of a row keeps the property at every address of the row
buffer when each product `value * (ky * kx)` of an interior column has it. -/
theorem rowAccumulate_pres (P : ℚ → Prop) (hadd : ∀ a b, P a → P b → P (a + b))
    (lanes : Lanes) (row width : ℕ) (buffer : Mem) (hw8 : width % 8 = 0) (hw : 8 ≤ width)
    (x : ℤ) (hb : P (buffer x))
    (hv : ∀ col : ℕ, 1 ≤ col → col + 2 ≤ width → ∀ l,
      P (lanes.value (col : ℤ) * (ky ((row + 4) % 8) l * kx ((col + 4) % 8) l))) :
    P (rowAccumulate lanes row width buffer x) := by
  rw [rowAccumulate_eq lanes row width buffer hw8 hw]
  apply foldl_pres (fun b : Mem => P (b x)) _ _ _ hb
  intro b col hcol hbx
  rw [mem_forRange] at hcol
  exact addPixel_pres P hadd lanes _ _ _ b col x hbx (hv col hcol.1 (by omega))

/-- An invariant indexed by the loop counter: kept by every iteration of
`for (i = a; i < b; ++i)`, it holds at `b` after the loop. -/
theorem foldl_forRange_inv {σ : Type} (I : ℕ → σ → Prop) (f : σ → ℕ → σ) (a b : ℕ)
    (hab : a ≤ b) (s : σ) (hs : I a s)
    (hf : ∀ i s, a ≤ i → i < b → I i s → I (i + 1) (f s i)) :
    I b ((forRange a b).foldl f s) := by
  obtain ⟨n, rfl⟩ : ∃ n, b = a + n := ⟨b - a, by omega⟩
  clear hab
  induction n with
  | zero => simpa [forRange] using hs
  | succ n ih =>
    have hsplit : forRange a (a + (n + 1)) = forRange a (a + n) ++ [a + n] := by
      unfold forRange
      have h1 : a + (n + 1) - a = n + 1 := by omega
      have h2 : a + n - a = n := by omega
      rw [h1, h2, List.range'_concat]
      simp
    rw [hsplit, List.foldl_append]
    simp only [List.foldl_cons, List.foldl_nil]
    have := ih (fun i s hi1 hi2 hI => hf i s hi1 (by omega) hI)
    exact hf (a + n) _ (by omega) (by omega) this

theorem addSlot_pres (P : ℚ → Prop) (hadd : ∀ a b, P a → P b → P (a + b))
    (buf : Mem) (src h k : ℤ) (slot lo hi : ℕ) (hist : Mem) (x : ℤ)
    (hbuf : ∀ a : ℤ, src ≤ a → a < src + 72 → P (buf a)) (hslot : slot < 4) (hhi : hi ≤ 18)
    (hx : P (hist x)) : P (addSlot buf src h k slot lo hi hist x) := by
  unfold addSlot
  apply foldl_pres (fun m : Mem => P (m x)) _ _ _ hx
  intro m i hi' hm
  rw [mem_forRange] at hi'
  exact addAt_pres P hadd m _ x _ hm (hbuf _ (by omega) (by omega))

theorem addSlots2_pres (P : ℚ → Prop) (hadd : ∀ a b, P a → P b → P (a + b))
    (buf : Mem) (src h : ℤ) (slotA slotB : ℕ) (hist : Mem) (x : ℤ)
    (hbuf : ∀ a : ℤ, src ≤ a → a < src + 72 → P (buf a)) (hA : slotA < 4) (hB : slotB < 4)
    (hx : P (hist x)) : P (addSlots2 buf src h slotA slotB hist x) := by
  unfold addSlots2
  apply foldl_pres (fun m : Mem => P (m x)) _ _ _ hx
  intro m i hi' hm
  rw [mem_forRange] at hi'
  exact addAt_pres P hadd _ _ x _
    (addAt_pres P hadd m _ x _ hm (hbuf _ (by omega) (by omega)))
    (hbuf _ (by omega) (by omega))

theorem addSlots4_pres (P : ℚ → Prop) (hadd : ∀ a b, P a → P b → P (a + b))
    (buf : Mem) (src h0 h1 : ℤ) (lo hi : ℕ) (hist : Mem) (x : ℤ)
    (hbuf : ∀ a : ℤ, src ≤ a → a < src + 72 → P (buf a)) (hhi : hi ≤ 18)
    (hx : P (hist x)) : P (addSlots4 buf src h0 h1 lo hi hist x) := by
  unfold addSlots4
  apply foldl_pres (fun m : Mem => P (m x)) _ _ _ hx
  intro m i hi' hm
  rw [mem_forRange] at hi'
  exact addAt_pres P hadd _ _ x _
    (addAt_pres P hadd _ _ x _
      (addAt_pres P hadd _ _ x _
        (addAt_pres P hadd m _ x _ hm (hbuf _ (by omega) (by omega)))
        (hbuf _ (by omega) (by omega)))
      (hbuf _ (by omega) (by omega)))
    (hbuf _ (by omega) (by omega))

theorem transposeStep_pres (P : ℚ → Prop) (hadd : ∀ a b, P a → P b → P (a + b))
    (buf : Mem) (src h0 h1 : ℤ) (hist : Mem) (i : ℕ) (x : ℤ)
    (hbuf : ∀ a : ℤ, src ≤ a → a < src + 72 → P (buf a)) (hi : i ≤ 12)
    (hx : P (hist x)) : P (transposeStep buf src h0 h1 hist i x) := by
  have hlane : ∀ (k : ℕ) (l : Fin 4), k ≤ 15 → P (loadV4 buf (src + 4 * (k : ℤ)) l) := by
    intro k l hk
    fin_cases l <;> simp [loadV4] <;> apply hbuf <;> omega
  unfold transposeStep
  simp only
  refine storeV4_add_pres P hadd _ _ x _
    (storeV4_add_pres P hadd _ _ x _
      (storeV4_add_pres P hadd _ _ x _
        (storeV4_add_pres P hadd _ _ x _ hx ?_) ?_) ?_) ?_
  all_goals
    intro l
    fin_cases l <;> simp only [unpacklo, unpackhi, Matrix.cons_val_zero, Matrix.cons_val_one,
      Matrix.head_cons, Matrix.cons_val_two, Matrix.tail_cons, Matrix.cons_val_three,
      Fin.zero_eta, Fin.mk_one, Fin.reduceFinMk] <;> apply hlane <;> omega

theorem mergeTop_pres (P : ℚ → Prop) (hadd : ∀ a b, P a → P b → P (a + b))
    (width : ℕ) (buf : Mem) (c : MergeCursor) (x : ℤ) (hw : 1 ≤ width) (hsrc : c.src = 0)
    (hbuf : ∀ a : ℤ, 0 ≤ a → a < 72 * ((width : ℤ) + 1) → P (buf a))
    (hx : P (c.hist x)) : P (mergeTop width buf c x) := by
  unfold mergeTop
  have hloop := foldl_forRange_inv
    (fun (i : ℕ) (c' : MergeCursor) => c'.src = 72 * (i : ℤ) ∧ P (c'.hist x))
    (fun c' _ => c'.nextLower (addSlots2 buf c'.src c'.h1 2 3 c'.hist)) 1 width hw
    (c.nextLower (addSlot buf c.src c.h1 1 3 0 18 c.hist))
    ⟨by simp [MergeCursor.nextLower, hsrc],
      addSlot_pres P hadd buf _ _ _ _ _ _ _ x
        (fun a h1 h2 => hbuf a (by omega) (by omega)) (by norm_num) le_rfl hx⟩
    (by
      intro i c' hi1 hi2 ⟨hs, hh⟩
      refine ⟨by simp [MergeCursor.nextLower, hs]; ring, ?_⟩
      exact addSlots2_pres P hadd buf _ _ _ _ _ x
        (fun a h1 h2 => hbuf a (by omega) (by omega)) (by norm_num) (by norm_num) hh)
  obtain ⟨hs, hh⟩ := hloop
  exact addSlot_pres P hadd buf _ _ _ _ _ _ _ x
    (fun a h1 h2 => hbuf a (by omega) (by omega)) (by norm_num) le_rfl hh

theorem mergeBottom_pres (P : ℚ → Prop) (hadd : ∀ a b, P a → P b → P (a + b))
    (width : ℕ) (buf : Mem) (c : MergeCursor) (x : ℤ) (hw : 1 ≤ width) (hsrc : c.src = 0)
    (hbuf : ∀ a : ℤ, 0 ≤ a → a < 72 * ((width : ℤ) + 1) → P (buf a))
    (hx : P (c.hist x)) : P (mergeBottom width buf c x) := by
  unfold mergeBottom
  have hloop := foldl_forRange_inv
    (fun (i : ℕ) (c' : MergeCursor) => c'.src = 72 * (i : ℤ) ∧ P (c'.hist x))
    (fun c' _ => c'.nextUpper (addSlots2 buf c'.src c'.h0 0 1 c'.hist)) 1 width hw
    (c.nextUpper (addSlot buf c.src c.h0 1 1 0 18 c.hist))
    ⟨by simp [MergeCursor.nextUpper, hsrc],
      addSlot_pres P hadd buf _ _ _ _ _ _ _ x
        (fun a h1 h2 => hbuf a (by omega) (by omega)) (by norm_num) le_rfl hx⟩
    (by
      intro i c' hi1 hi2 ⟨hs, hh⟩
      refine ⟨by simp [MergeCursor.nextUpper, hs]; ring, ?_⟩
      exact addSlots2_pres P hadd buf _ _ _ _ _ x
        (fun a h1 h2 => hbuf a (by omega) (by omega)) (by norm_num) (by norm_num) hh)
  obtain ⟨hs, hh⟩ := hloop
  exact addSlot_pres P hadd buf _ _ _ _ _ _ _ x
    (fun a h1 h2 => hbuf a (by omega) (by omega)) (by norm_num) le_rfl hh

theorem mergeMiddle_pres (P : ℚ → Prop) (hadd : ∀ a b, P a → P b → P (a + b))
    (width : ℕ) (buf : Mem) (c : MergeCursor) (x : ℤ) (hw : 1 ≤ width) (hsrc : c.src = 0)
    (hbuf : ∀ a : ℤ, 0 ≤ a → a < 72 * ((width : ℤ) + 1) → P (buf a))
    (hx : P (c.hist x)) : P (mergeMiddle width buf c x) := by
  unfold mergeMiddle
  have hfirst : P ((forRange 0 18).foldl
      (fun m (i : ℕ) => addAt (addAt m (cellAt c.h0 1 i) (buf (c.src + (i : ℤ) * 4 + 1)))
        (cellAt c.h1 1 i) (buf (c.src + (i : ℤ) * 4 + 3))) c.hist x) := by
    apply foldl_pres (fun m : Mem => P (m x)) _ _ _ hx
    intro m i hi' hm
    rw [mem_forRange] at hi'
    exact addAt_pres P hadd _ _ x _
      (addAt_pres P hadd m _ x _ hm (hbuf _ (by omega) (by omega)))
      (hbuf _ (by omega) (by omega))
  have hloop := foldl_forRange_inv
    (fun (i : ℕ) (c' : MergeCursor) => c'.src = 72 * (i : ℤ) ∧ P (c'.hist x))
    (mergeMiddleCell buf) 1 width hw
    (c.next ((forRange 0 18).foldl
      (fun m (i : ℕ) => addAt (addAt m (cellAt c.h0 1 i) (buf (c.src + (i : ℤ) * 4 + 1)))
        (cellAt c.h1 1 i) (buf (c.src + (i : ℤ) * 4 + 3))) c.hist))
    ⟨by simp [MergeCursor.next, hsrc], hfirst⟩
    (by
      intro i c' hi1 hi2 ⟨hs, hh⟩
      refine ⟨by simp [mergeMiddleCell, MergeCursor.next, hs]; ring, ?_⟩
      have hb' : ∀ a : ℤ, c'.src ≤ a → a < c'.src + 72 → P (buf a) :=
        fun a h1 h2 => hbuf a (by omega) (by omega)
      simp only [mergeMiddleCell, MergeCursor.next]
      apply addSlots4_pres P hadd buf _ _ _ _ _ _ x hb' le_rfl
      apply foldl_pres (fun m : Mem => P (m x)) _ _ _ hh
      intro m j hj hm
      have hj12 : j ≤ 12 := by
        simp only [loopRange, List.mem_map, List.mem_range] at hj
        obtain ⟨k, hk, rfl⟩ := hj
        omega
      exact transposeStep_pres P hadd buf _ _ _ m j x hb' hj12 hm)
  obtain ⟨hs, hh⟩ := hloop
  apply foldl_pres (fun m : Mem => P (m x)) _ _ _ hh
  intro m i hi' hm
  rw [mem_forRange] at hi'
  exact addAt_pres P hadd _ _ x _
    (addAt_pres P hadd m _ x _ hm (hbuf _ (by omega) (by omega)))
    (hbuf _ (by omega) (by omega))

/-- The merge `AddToHistogram` keeps, at every address of the grid, a property
closed under addition that the floats of the row buffer have; afterwards the row
buffer is zero. -/
theorem AddToHistogram_pres (P : ℚ → Prop) (hadd : ∀ a b, P a → P b → P (a + b))
    (row width height : ℕ) (st : State) (x : ℤ) (hw : 1 ≤ width)
    (hbuf : ∀ a : ℤ, 0 ≤ a → a < 72 * ((width : ℤ) + 1) → P (st.buffer a))
    (hx : P (st.histogram x)) :
    P ((AddToHistogram row width height ((width + 1) * 4 * Q2) st).histogram x) ∧
      (∀ a : ℤ, 0 ≤ a → a < 72 * ((width : ℤ) + 1) →
        (AddToHistogram row width height ((width + 1) * 4 * Q2) st).buffer a = 0) ∧
      (AddToHistogram row width height ((width + 1) * 4 * Q2) st).lanes = st.lanes := by
  refine ⟨?_, ?_, rfl⟩
  · simp only [AddToHistogram]
    split_ifs
    · exact mergeTop_pres P hadd width st.buffer _ x hw rfl hbuf hx
    · exact mergeBottom_pres P hadd width st.buffer _ x hw rfl hbuf hx
    · exact mergeMiddle_pres P hadd width st.buffer _ x hw rfl hbuf hx
  · intro a h0 h1
    simp only [AddToHistogram, memsetZero, Q2]
    rw [if_pos]
    constructor
    · exact h0
    · push_cast; omega

/-- One call of `AddRowToBuffer` on a row of a valid image keeps, at every
address of the row buffer, a property closed under addition that the weighted
magnitudes of the interior pixels of that row have; the grid is not touched. -/
theorem AddRowToBuffer_pres (P : ℚ → Prop) (hadd : ∀ a b, P a → P b → P (a + b))
    (env : FloatEnv) (src : Bytes) (stride row width : ℕ) (st : State) (x : ℤ)
    (hw8 : width % 8 = 0) (hw : 16 ≤ width) (hw63 : width < 2 ^ 63)
    (hpix : ∀ col : ℕ, 1 ≤ col → col + 2 ≤ width → ∀ i j : ℕ, i < 8 → j < 8 → ∀ l : Fin 4,
      P (magnitude env (gradX src ((stride : ℤ) * (row : ℤ) + (col : ℤ)))
          (gradY src stride ((stride : ℤ) * (row : ℤ) + (col : ℤ))) * (ky i l * kx j l)))
    (hx : P (st.buffer x)) :
    P ((AddRowToBuffer env src stride row width (AlignHi (width - 1) HA - HA) st).buffer x) ∧
      (AddRowToBuffer env src stride row width (AlignHi (width - 1) HA - HA) st).histogram
        = st.histogram := by
  refine ⟨?_, rfl⟩
  simp only [AddRowToBuffer]
  apply rowAccumulate_pres P hadd _ row width st.buffer hw8 (by omega) x hx
  intro col hc1 hc2 l
  rw [(rowLanes_interior env src stride row width st.lanes hw8 hw hw63 col hc1 hc2).2]
  exact hpix col hc1 hc2 _ _ (Nat.mod_lt _ (by norm_num)) (Nat.mod_lt _ (by norm_num)) l

/-- The histogram grid built by `GetHistogram` on a valid image has, at every
entry `x` of the grid, every property that `0` has, that is closed under
addition and that the weighted magnitudes of all interior pixels have. -/
theorem GetHistogram_pres (P : ℚ → Prop) (hzero : P 0) (hadd : ∀ a b, P a → P b → P (a + b))
    (env : FloatEnv) (src : Bytes) (stride width height : ℕ) (st : State) (x : ℤ)
    (hv : Valid stride width height)
    (hpix : ∀ row col : ℕ, 1 ≤ row → row + 2 ≤ height → 1 ≤ col → col + 2 ≤ width →
      ∀ i j : ℕ, i < 8 → j < 8 → ∀ l : Fin 4,
      P (magnitude env (gradX src ((stride : ℤ) * (row : ℤ) + (col : ℤ)))
          (gradY src stride ((stride : ℤ) * (row : ℤ) + (col : ℤ))) * (ky i l * kx j l)))
    (hbuf : ∀ a : ℤ, 0 ≤ a → a < 72 * (((width / 8 : ℕ) : ℤ) + 1) → P (st.buffer a))
    (hx : 0 ≤ x ∧ x < ((18 * (width / 8) * (height / 8) : ℕ) : ℤ)) :
    P ((GetHistogram env src stride width height (width / 8) (height / 8) st).histogram x) := by
  obtain ⟨hw8, hh8, hw, hh, hs, hw63⟩ := hv
  have hsx : 1 ≤ width / 8 := by omega
  -- the invariant of the row loops
  let J : State → Prop := fun s =>
    (∀ a : ℤ, 0 ≤ a → a < 72 * (((width / 8 : ℕ) : ℤ) + 1) → P (s.buffer a)) ∧ P (s.histogram x)
  have hrow : ∀ (row : ℕ) (s : State), 1 ≤ row → row + 2 ≤ height → J s →
      J (AddRowToBuffer env src stride row width (AlignHi (width - 1) HA - HA) s) := by
    intro row s hr1 hr2 ⟨hb, hh'⟩
    constructor
    · intro a ha0 ha1
      exact (AddRowToBuffer_pres P hadd env src stride row width s a hw8 hw hw63
        (fun col hc1 hc2 => hpix row col hr1 hr2 hc1 hc2) (hb a ha0 ha1)).1
    · rw [(AddRowToBuffer_pres P hadd env src stride row width s 0 hw8 hw hw63
        (fun col hc1 hc2 => hpix row col hr1 hr2 hc1 hc2) (hb 0 le_rfl (by positivity))).2]
      exact hh'
  have hmerge : ∀ (r : ℕ) (s : State), J s →
      J (AddToHistogram r (width / 8) (height / 8) ((width / 8 + 1) * 4 * Q2) s) := by
    intro r s ⟨hb, hh'⟩
    obtain ⟨h1, h2, _⟩ := AddToHistogram_pres P hadd r (width / 8) (height / 8) s x hsx hb hh'
    exact ⟨fun a ha0 ha1 => by rw [h2 a ha0 ha1]; exact hzero, h1⟩
  have hJ0 : J { st with histogram := memsetZero (18 * (width / 8) * (height / 8)) st.histogram } := by
    refine ⟨hbuf, ?_⟩
    simp only [memsetZero]
    rw [if_pos hx]
    exact hzero
  have hmid : J ((forRange 4 (height - 4)).foldl
      (histogramRow env src stride width (AlignHi (width - 1) HA - HA) (width / 8) (height / 8)
        ((width / 8 + 1) * 4 * Q2))
      (AddToHistogram 0 (width / 8) (height / 8) ((width / 8 + 1) * 4 * Q2)
        ((forRange 1 4).foldl
          (fun s (row : ℕ) => AddRowToBuffer env src stride row width
            (AlignHi (width - 1) HA - HA) s)
          { st with histogram := memsetZero (18 * (width / 8) * (height / 8)) st.histogram }),
        1)).1 := by
    apply foldl_pres (fun p : State × ℕ => J p.1)
    · apply hmerge
      apply foldl_pres J _ _ _ hJ0
      intro s row hrow' hs'
      rw [mem_forRange] at hrow'
      exact hrow row s hrow'.1 (by omega) hs'
    · intro p row hrow' hp
      rw [mem_forRange] at hrow'
      simp only [histogramRow]
      split_ifs
      · exact hmerge _ _ (hrow row p.1 (by omega) (by omega) hp)
      · exact hrow row p.1 (by omega) (by omega) hp
  unfold GetHistogram
  refine (hmerge _ _ ?_).2
  apply foldl_pres J _ _ _ hmid
  intro s row hrow' hs'
  rw [mem_forRange] at hrow'
  exact hrow row s (by omega) (by omega) hs'

theorem runState_histogram (env : FloatEnv) (src : Bytes) (stride width height : ℕ)
    (g : State) :
    (runState env src stride width height g).histogram
      = (GetHistogram env src stride width height (width / 8) (height / 8)
          (Init width height g)).histogram := rfl

theorem rows_fold_norm (env : FloatEnv) (src : Bytes) (stride width aligned : ℕ)
    (l : List ℕ) (s : State) :
    (l.foldl (fun s (row : ℕ) => AddRowToBuffer env src stride row width aligned s) s).norm
      = s.norm :=
  foldl_pres (fun s' : State => s'.norm = s.norm) _ l s rfl (fun _ _ _ hs' => hs')

theorem histogramRow_fold_norm (env : FloatEnv) (src : Bytes)
    (stride width aligned sx sy size : ℕ) (l : List ℕ) (p : State × ℕ) :
    (l.foldl (histogramRow env src stride width aligned sx sy size) p).1.norm = p.1.norm := by
  apply foldl_pres (fun p' : State × ℕ => p'.1.norm = p.1.norm) _ l p rfl
  intro p' row _ hp'
  unfold histogramRow
  split_ifs
  · exact hp'
  · exact hp'

theorem AddToHistogram_norm (row width height size : ℕ) (st : State) :
    (AddToHistogram row width height size st).norm = st.norm := by
  unfold AddToHistogram
  exact rfl

/-- The array `_norm` is not touched by `GetHistogram`. -/
theorem GetHistogram_norm (env : FloatEnv) (src : Bytes) (stride width height sx sy : ℕ)
    (st : State) :
    (GetHistogram env src stride width height sx sy st).norm = st.norm := by
  unfold GetHistogram
  rw [AddToHistogram_norm, rows_fold_norm, histogramRow_fold_norm, AddToHistogram_norm,
    rows_fold_norm]

theorem runState_norm (env : FloatEnv) (src : Bytes) (stride width height : ℕ) (g : State) :
    (runState env src stride width height g).norm
      = computeNorm (width / 8 * (height / 8))
          (runState env src stride width height g).histogram
          (resize (width / 8 * (height / 8)) g.norm) := by
  have h := GetHistogram_norm env src stride width height (width / C) (height / C)
    (Init width height g)
  unfold runState
  simp only [h]
  rfl

theorem computeNorm_pres (P : ℚ → Prop) (hadd : ∀ a b, P a → P b → P (a + b))
    (n : ℕ) (hist norm : Mem) (x : ℤ)
    (hsq : ∀ i o : ℕ, i < n → o < 9 →
      P (Square (hist ((i : ℤ) * 18 + (o : ℤ)) + hist ((i : ℤ) * 18 + (o : ℤ) + 9))))
    (hx : P (norm x)) : P (computeNorm n hist norm x) := by
  unfold computeNorm
  apply foldl_pres (fun m : Mem => P (m x)) _ _ _ hx
  intro m i hi hm
  rw [mem_forRange] at hi
  apply foldl_pres (fun m : Mem => P (m x)) _ _ _ hm
  intro m' o ho hm'
  rw [mem_forRange] at ho
  apply addAt_pres P hadd m' _ x _ hm'
  have := hsq i o hi.2 (by simpa [Q] using ho.2)
  simpa [Q2, Q] using this

/-- The histogram grid that `Run` normalises has, at every entry of the grid,
every property that `0` has, that is closed under addition and that the
weighted magnitudes of the interior pixels have. -/
theorem runState_histogram_pres (P : ℚ → Prop) (hzero : P 0)
    (hadd : ∀ a b, P a → P b → P (a + b))
    (env : FloatEnv) (src : Bytes) (stride width height : ℕ) (g : State) (x : ℤ)
    (hv : Valid stride width height)
    (hpix : ∀ row col : ℕ, 1 ≤ row → row + 2 ≤ height → 1 ≤ col → col + 2 ≤ width →
      ∀ i j : ℕ, i < 8 → j < 8 → ∀ l : Fin 4,
      P (magnitude env (gradX src ((stride : ℤ) * (row : ℤ) + (col : ℤ)))
          (gradY src stride ((stride : ℤ) * (row : ℤ) + (col : ℤ))) * (ky i l * kx j l)))
    (hx : 0 ≤ x ∧ x < ((18 * (width / 8) * (height / 8) : ℕ) : ℤ)) :
    P ((runState env src stride width height g).histogram x) := by
  rw [runState_histogram]
  apply GetHistogram_pres P hzero hadd env src stride width height _ x hv hpix _ hx
  intro a ha0 ha1
  have hr : 0 ≤ a ∧ a < (((width / C + 1) * 4 * Q2 : ℕ) : ℤ) := by
    refine ⟨ha0, ?_⟩
    simp only [C, Q2]
    push_cast
    omega
  have : (Init width height g).buffer a = 0 := by
    simp only [Init, resize]
    rw [if_pos hr]
  rw [this]
  exact hzero

/-- The energy `_norm[x]` of a cell of the grid has every property that `0`
has, that is closed under addition and that the nine squares
`Square(h[o] + h[o + Q])` of each cell have. -/
theorem runState_norm_pres (P : ℚ → Prop) (hzero : P 0)
    (hadd : ∀ a b, P a → P b → P (a + b))
    (env : FloatEnv) (src : Bytes) (stride width height : ℕ) (g : State) (x : ℤ)
    (hsq : ∀ i o : ℕ, i < width / 8 * (height / 8) → o < 9 →
      P (Square ((runState env src stride width height g).histogram
            ((i : ℤ) * 18 + (o : ℤ)) +
          (runState env src stride width height g).histogram
            ((i : ℤ) * 18 + (o : ℤ) + 9))))
    (hx : 0 ≤ x ∧ x < ((width / 8 * (height / 8) : ℕ) : ℤ)) :
    P ((runState env src stride width height g).norm x) := by
  rw [runState_norm]
  apply computeNorm_pres P hadd _ _ _ x hsq
  simp only [resize]
  rw [if_pos hx]
  exact hzero

/-- In a cell of the grid, bin `o < 18` of the cell histogram is an entry of the grid. -/
theorem cell_entry_range (sx sy x y o : ℕ) (hx : x < sx) (hy : y < sy) (ho : o < 18) :
    0 ≤ (((y * sx + x) * 18 + o : ℕ) : ℤ) ∧
      (((y * sx + x) * 18 + o : ℕ) : ℤ) < ((18 * sx * sy : ℕ) : ℤ) := by
  refine ⟨by positivity, ?_⟩
  have h1 : y * sx + x < sy * sx := by
    calc y * sx + x < y * sx + sx := by omega
      _ = (y + 1) * sx := by ring
      _ ≤ sy * sx := Nat.mul_le_mul_right _ hy
  have h2 : (y * sx + x) * 18 + o < 18 * sx * sy := by
    have : 18 * sx * sy = sy * sx * 18 := by ring
    omega
  exact_mod_cast h2

theorem searchLoop_zero {α : Type} [LinearOrderedField α] (cosT sinT : ℕ → α) :
    searchLoop cosT sinT 0 0 = (0, 0) := by
  have h : ∀ n, searchPrefix cosT sinT 0 0 n = (0, 0) := by
    intro n
    induction n with
    | zero => rfl
    | succ n ih => rw [searchPrefix_succ, ih]; simp [searchStep]
  exact h 5

/-- The zero gradient gets bin 0 and, when `sqrt(0) = 0`, magnitude 0. -/
theorem quantize_zero (env : FloatEnv) (hsqrt : env.sqrtPs 0 = 0) :
    signedBin env.cos env.sin (0 : ℚ) 0 = 0 ∧ magnitude env 0 0 = 0 := by
  constructor
  · simp [signedBin, unsignedBin, promote, searchLoop_zero, Q2]
  · simp [magnitude, hsqrt]

/-- In an image whose pixels are all equal, the central differences vanish at
every interior pixel. -/
theorem flat_gradient (src : Bytes) (stride width height : ℕ) (v : Fin 256)
    (hflat : ∀ r c : ℕ, r < height → c < width → src ((stride * r + c : ℕ) : ℤ) = v)
    (row col : ℕ) (hr1 : 1 ≤ row) (hr2 : row + 2 ≤ height) (hc1 : 1 ≤ col)
    (hc2 : col + 2 ≤ width) :
    gradX src ((stride : ℤ) * (row : ℤ) + (col : ℤ)) = 0 ∧
      gradY src stride ((stride : ℤ) * (row : ℤ) + (col : ℤ)) = 0 := by
  have e1 : (stride : ℤ) * (row : ℤ) + (col : ℤ) + 1 = ((stride * row + (col + 1) : ℕ) : ℤ) := by
    push_cast; ring
  have e2 : (stride : ℤ) * (row : ℤ) + (col : ℤ) - 1 = ((stride * row + (col - 1) : ℕ) : ℤ) := by
    have : ((col - 1 : ℕ) : ℤ) = (col : ℤ) - 1 := by omega
    push_cast; rw [this]; ring
  have e3 : (stride : ℤ) * (row : ℤ) + (col : ℤ) + (stride : ℤ)
      = ((stride * (row + 1) + col : ℕ) : ℤ) := by
    push_cast; ring
  have e4 : (stride : ℤ) * (row : ℤ) + (col : ℤ) - (stride : ℤ)
      = ((stride * (row - 1) + col : ℕ) : ℤ) := by
    have : ((row - 1 : ℕ) : ℤ) = (row : ℤ) - 1 := by omega
    push_cast; rw [this]; ring
  constructor
  · unfold gradX
    rw [e1, e2, hflat row (col + 1) (by omega) (by omega),
      hflat row (col - 1) (by omega) (by omega)]
    simp
  · unfold gradY
    rw [e3, e4, hflat (row + 1) col (by omega) (by omega),
      hflat (row - 1) col (by omega) (by omega)]
    simp

theorem specChannel_zero (h : ℕ → ℚ) (n : V4) (ch : ℕ) (hch : ch < 31)
    (hh : ∀ o, o < 18 → h o = 0) : specChannel h n ch = 0 := by
  have hc : (0 : ℚ) ≤ clampF := by
    unfold clampF
    norm_num
  unfold specChannel
  split_ifs with h1 h2
  · simp [hh ch h1, hc]
  · simp [hh (ch - 18) (by omega), hh (ch - 18 + 9) (by omega), hc]
  · have : ∀ o ∈ Finset.range 18, min (h o * n (Fin.ofNat (ch - 27))) clampF = 0 := by
      intro o ho
      rw [Finset.mem_range] at ho
      simp [hh o ho, hc]
    rw [Finset.sum_eq_zero this]
    simp

/-- Claim C7.  For every valid width and height and every image whose pixels are
all equal, with a square root that is exact at 0: every interior gradient is
`(0, 0)`, the zero gradient has bin 0 and magnitude exactly 0, every entry of
the cell histogram grid and every cell energy is 0, and every one of the 31
output channels of every cell is exactly 0. -/
theorem flat_image_features_zero (env : FloatEnv) (hsqrt : env.sqrtPs 0 = 0) (src : Bytes)
    (stride width height : ℕ) (g : State) (feat : Mem) (hv : Valid stride width height)
    (v : Fin 256)
    (hflat : ∀ r c : ℕ, r < height → c < width → src ((stride * r + c : ℕ) : ℤ) = v) :
    (∀ row col : ℕ, 1 ≤ row → row + 2 ≤ height → 1 ≤ col → col + 2 ≤ width →
        gradX src ((stride : ℤ) * (row : ℤ) + (col : ℤ)) = 0 ∧
        gradY src stride ((stride : ℤ) * (row : ℤ) + (col : ℤ)) = 0) ∧
      (signedBin env.cos env.sin (0 : ℚ) 0 = 0 ∧ magnitude env 0 0 = 0) ∧
      (∀ x : ℤ, 0 ≤ x → x < ((18 * (width / 8) * (height / 8) : ℕ) : ℤ) →
        (runState env src stride width height g).histogram x = 0) ∧
      (∀ x : ℤ, 0 ≤ x → x < ((width / 8 * (height / 8) : ℕ) : ℤ) →
        (runState env src stride width height g).norm x = 0) ∧
      (∀ i : ℤ, 0 ≤ i → i < ((height / 8 * (width / 8) * 31 : ℕ) : ℤ) →
        HogExtractFeatures env src stride width height g feat i = 0) := by
  have hgrad := flat_gradient src stride width height v hflat
  have hq := quantize_zero env hsqrt
  have hhist : ∀ x : ℤ, 0 ≤ x → x < ((18 * (width / 8) * (height / 8) : ℕ) : ℤ) →
      (runState env src stride width height g).histogram x = 0 := by
    intro x hx0 hx1
    apply runState_histogram_pres (fun q => q = 0) rfl
      (fun a b ha hb => by rw [ha, hb, add_zero]) env src stride width height g x hv _ ⟨hx0, hx1⟩
    intro row col hr1 hr2 hc1 hc2 i j _ _ l
    obtain ⟨hgx, hgy⟩ := hgrad row col hr1 hr2 hc1 hc2
    rw [hgx, hgy, hq.2, zero_mul]
  have hnorm : ∀ x : ℤ, 0 ≤ x → x < ((width / 8 * (height / 8) : ℕ) : ℤ) →
      (runState env src stride width height g).norm x = 0 := by
    intro x hx0 hx1
    apply runState_norm_pres (fun q => q = 0) rfl
      (fun a b ha hb => by rw [ha, hb, add_zero]) env src stride width height g x _ ⟨hx0, hx1⟩
    intro i o hi ho
    have hmul : i * 18 + o + 9 < 18 * (width / 8) * (height / 8) := by
      have : 18 * (width / 8) * (height / 8) = width / 8 * (height / 8) * 18 := by ring
      omega
    have h1 := hhist ((i : ℤ) * 18 + (o : ℤ)) (by positivity)
      (by have : i * 18 + o < 18 * (width / 8) * (height / 8) := by omega
          exact_mod_cast this)
    have h2 := hhist ((i : ℤ) * 18 + (o : ℤ) + 9) (by positivity) (by exact_mod_cast hmul)
    show Square _ = 0
    rw [h1, h2]
    simp [Square]
  refine ⟨hgrad, hq, hhist, hnorm, ?_⟩
  intro i hi0 hi1
  rw [HogExtractFeatures_eq]
  simp only [C]
  rw [if_pos ⟨hi0, hi1⟩]
  obtain ⟨a, rfl⟩ : ∃ a : ℕ, i = (a : ℤ) := ⟨i.toNat, (Int.toNat_of_nonneg hi0).symm⟩
  have ha : a < height / 8 * (width / 8) * 31 := by exact_mod_cast hi1
  rw [Int.toNat_natCast]
  have hsx : 0 < width / 8 := by have := hv.cells.1; omega
  have hcell : a / 31 < height / 8 * (width / 8) := by omega
  have hx : a / 31 % (width / 8) < width / 8 := Nat.mod_lt _ hsx
  have hy : a / 31 / (width / 8) < height / 8 := by
    rw [Nat.div_lt_iff_lt_mul hsx]
    exact hcell
  simp only [specStore]
  apply specChannel_zero _ _ _ (Nat.mod_lt _ (by norm_num))
  intro o ho
  have hr := cell_entry_range (width / 8) (height / 8) _ _ o hx hy ho
  simp only [cellHistogram, Q2]
  exact hhist _ hr.1 hr.2

/-- The conclusion of `flat_image_features_zero` for a 16x16 image of grey
level 7 written over a features array that held 1 everywhere: the first and
the last float of the descriptor are 0. -/
theorem flat_image_features_zero_witness :
    HogExtractFeatures floatEnv (flatImage 7) 16 16 16 zeroState (fun _ => 1) 0 = 0 ∧
      HogExtractFeatures floatEnv (flatImage 7) 16 16 16 zeroState (fun _ => 1) 123 = 0 :=
  have h := (flat_image_features_zero floatEnv (by decide!) (flatImage 7) 16 16 16 zeroState
    (fun _ => 1) (by decide) 7 (fun _ _ _ _ => rfl)).2.2.2.2
  ⟨h 0 (by decide) (by decide), h 123 (by decide) (by decide)⟩

/-- The kernels `_kx[i]`, `_ky[i]` are non-negative in every lane for `i < 8`. -/
theorem kernel_nonneg (i : ℕ) (hi : i < 8) (l : Fin 4) : 0 ≤ kx i l ∧ 0 ≤ ky i l := by
  have h0 : 0 ≤ k0 i := by
    unfold k0
    apply div_nonneg _ (by norm_num)
    have : (0 : ℤ) ≤ 15 - (i : ℤ) * 2 := by omega
    exact_mod_cast this
  have h1 : 0 ≤ k1 i := by
    unfold k1 k0
    have h : (((15 : ℤ) - (i : ℤ) * 2 : ℤ) : ℚ) ≤ 16 := by
      have : (15 : ℤ) - (i : ℤ) * 2 ≤ 16 := by omega
      exact_mod_cast this
    have : (((15 : ℤ) - (i : ℤ) * 2 : ℤ) : ℚ) / 16 ≤ 1 := by
      rw [div_le_one (by norm_num)]
      exact h
    linarith
  fin_cases l <;> simp [kx, ky, h0, h1]

/-- The nine neighbourhood energies are non-negative when the energies of the
grid are: a guard that holds puts the load inside the grid. -/
theorem neighbours_nonneg (norm : Mem) (sx sy x y : ℕ) (hx : x < sx) (hy : y < sy)
    (hn : ∀ a : ℤ, 0 ≤ a → a < ((sx * sy : ℕ) : ℤ) → 0 ≤ norm a) :
    0 ≤ (neighbours norm sx sy x y).x0y0 ∧ 0 ≤ (neighbours norm sx sy x y).x1y0 ∧
      0 ≤ (neighbours norm sx sy x y).x2y0 ∧ 0 ≤ (neighbours norm sx sy x y).x0y1 ∧
      0 ≤ (neighbours norm sx sy x y).x1y1 ∧ 0 ≤ (neighbours norm sx sy x y).x2y1 ∧
      0 ≤ (neighbours norm sx sy x y).x0y2 ∧ 0 ≤ (neighbours norm sx sy x y).x1y2 ∧
      0 ≤ (neighbours norm sx sy x y).x2y2 := by
  have hX0 : (0 : ℤ) ≤ (x : ℤ) := by positivity
  have hY0 : (0 : ℤ) ≤ (y : ℤ) := by positivity
  have hX : (x : ℤ) + 1 ≤ (sx : ℤ) := by exact_mod_cast hx
  have hY : (y : ℤ) + 1 ≤ (sy : ℤ) := by exact_mod_cast hy
  have hS : (0 : ℤ) ≤ (sx : ℤ) := by positivity
  have pA : 0 ≤ ((sy : ℤ) - 1 - (y : ℤ)) * (sx : ℤ) := mul_nonneg (by omega) hS
  have pB : 0 ≤ (y : ℤ) * (sx : ℤ) := mul_nonneg hY0 hS
  have key : ∀ (c : Prop) [Decidable c] (a : ℤ), (c → 0 ≤ a ∧ a < ((sx * sy : ℕ) : ℤ)) →
      0 ≤ (if c then norm a else 0) := by
    intro c _ a h
    split_ifs with hc
    · exact hn a (h hc).1 (h hc).2
    · exact le_rfl
  simp only [neighbours, normPtr]
  refine ⟨key _ _ ?_, key _ _ ?_, key _ _ ?_, key _ _ ?_, ?_, key _ _ ?_, key _ _ ?_,
    key _ _ ?_, key _ _ ?_⟩
  · rintro ⟨h1, h2⟩
    have pC : 0 ≤ ((y : ℤ) - 2) * (sx : ℤ) := mul_nonneg (by omega) hS
    push_cast
    constructor <;> linarith
  · intro h2
    have pC : 0 ≤ ((y : ℤ) - 2) * (sx : ℤ) := mul_nonneg (by omega) hS
    push_cast
    constructor <;> linarith
  · rintro ⟨h1, h2⟩
    have pC : 0 ≤ ((y : ℤ) - 2) * (sx : ℤ) := mul_nonneg (by omega) hS
    push_cast
    constructor <;> linarith
  · intro h1
    push_cast
    constructor <;> linarith
  · apply hn
    · linarith
    · push_cast; linarith
  · intro h1
    push_cast
    constructor <;> linarith
  · rintro ⟨h1, h2⟩
    have pD : 0 ≤ ((sy : ℤ) - 2 - (y : ℤ)) * (sx : ℤ) := mul_nonneg (by omega) hS
    push_cast
    constructor <;> linarith
  · intro h2
    have pD : 0 ≤ ((sy : ℤ) - 2 - (y : ℤ)) * (sx : ℤ) := mul_nonneg (by omega) hS
    push_cast
    constructor <;> linarith
  · rintro ⟨h1, h2⟩
    have pD : 0 ≤ ((sy : ℤ) - 2 - (y : ℤ)) * (sx : ℤ) := mul_nonneg (by omega) hS
    push_cast
    constructor <;> linarith

theorem clampF_pos : 0 < clampF := by
  unfold clampF
  norm_num

theorem min_term_bounds (a b : ℚ) (ha : 0 ≤ a) (hb : 0 ≤ b) :
    0 ≤ min (a * b) clampF ∧ min (a * b) clampF ≤ clampF :=
  ⟨le_min (mul_nonneg ha hb) clampF_pos.le, min_le_right _ _⟩

/-- Bounds of the descriptor channels of a cell whose histogram and
normalisation scalars are non-negative: the 27 histogram-derived channels lie
in `[0, 2 * 0.2f]`, the 4 energy channels in `[0, 0.2357 * 18 * 0.2f]`. -/
theorem specChannel_bounds (h : ℕ → ℚ) (n : V4) (hh : ∀ o, o < 18 → 0 ≤ h o)
    (hn : ∀ k, 0 ≤ n k) (ch : ℕ) :
    (ch < 27 → 0 ≤ specChannel h n ch ∧ specChannel h n ch ≤ 2 * clampF) ∧
      (27 ≤ ch → 0 ≤ specChannel h n ch ∧ specChannel h n ch ≤ 2357 / 10000 * 18 * clampF) := by
  constructor
  · intro hch
    unfold specChannel
    split_ifs with h1
    · have b0 := min_term_bounds (h ch) (n 0) (hh ch h1) (hn 0)
      have b1 := min_term_bounds (h ch) (n 1) (hh ch h1) (hn 1)
      have b2 := min_term_bounds (h ch) (n 2) (hh ch h1) (hn 2)
      have b3 := min_term_bounds (h ch) (n 3) (hh ch h1) (hn 3)
      rw [Fin.sum_univ_four]
      constructor <;> linarith [b0.1, b0.2, b1.1, b1.2, b2.1, b2.2, b3.1, b3.2]
    · have hs : 0 ≤ h (ch - 18) + h (ch - 18 + 9) :=
        add_nonneg (hh _ (by omega)) (hh _ (by omega))
      have b0 := min_term_bounds _ (n 0) hs (hn 0)
      have b1 := min_term_bounds _ (n 1) hs (hn 1)
      have b2 := min_term_bounds _ (n 2) hs (hn 2)
      have b3 := min_term_bounds _ (n 3) hs (hn 3)
      rw [Fin.sum_univ_four]
      constructor <;> linarith [b0.1, b0.2, b1.1, b1.2, b2.1, b2.2, b3.1, b3.2]
  · intro hch
    unfold specChannel
    rw [if_neg (by omega), if_neg (by omega)]
    have hlo : 0 ≤ ∑ o in Finset.range 18, min (h o * n (Fin.ofNat (ch - 27))) clampF :=
      Finset.sum_nonneg (fun o ho =>
        (min_term_bounds (h o) _ (hh o (Finset.mem_range.mp ho)) (hn _)).1)
    have hhi : ∑ o in Finset.range 18, min (h o * n (Fin.ofNat (ch - 27))) clampF
        ≤ ∑ _o in Finset.range 18, clampF :=
      Finset.sum_le_sum (fun o ho =>
        (min_term_bounds (h o) _ (hh o (Finset.mem_range.mp ho)) (hn _)).2)
    rw [Finset.sum_const, Finset.card_range] at hhi
    simp only [nsmul_eq_mul, Nat.cast_ofNat] at hhi
    constructor
    · positivity
    · linarith

/-- For a valid image and square roots that are non-negative on non-negative
arguments, every cell of the grid has a non-negative histogram and
non-negative normalisation scalars. -/
theorem cell_inputs_nonneg (env : FloatEnv) (src : Bytes) (stride width height : ℕ)
    (g : State) (hv : Valid stride width height)
    (hsqrtPs : ∀ v, 0 ≤ v → 0 ≤ env.sqrtPs v) (hsqrt : ∀ v, 0 ≤ v → 0 ≤ env.sqrt v)
    (x y : ℕ) (hx : x < width / 8) (hy : y < height / 8) :
    (∀ o, o < 18 →
        0 ≤ cellHistogram (runState env src stride width height g).histogram (width / 8) x y o) ∧
      (∀ k, 0 ≤ normalizers env
        (neighbours (runState env src stride width height g).norm (width / 8) (height / 8) x y)
        k) := by
  have hhist : ∀ a : ℤ, 0 ≤ a → a < ((18 * (width / 8) * (height / 8) : ℕ) : ℤ) →
      0 ≤ (runState env src stride width height g).histogram a := by
    intro a ha0 ha1
    apply runState_histogram_pres (fun q => 0 ≤ q) le_rfl (fun a b => add_nonneg)
      env src stride width height g a hv _ ⟨ha0, ha1⟩
    intro row col _ _ _ _ i j hi hj l
    apply mul_nonneg
    · exact hsqrtPs _ (add_nonneg (mul_self_nonneg _) (mul_self_nonneg _))
    · exact mul_nonneg (kernel_nonneg i hi l).2 (kernel_nonneg j hj l).1
  have hnorm : ∀ a : ℤ, 0 ≤ a → a < ((width / 8 * (height / 8) : ℕ) : ℤ) →
      0 ≤ (runState env src stride width height g).norm a := by
    intro a ha0 ha1
    apply runState_norm_pres (fun q => 0 ≤ q) le_rfl (fun a b => add_nonneg)
      env src stride width height g a _ ⟨ha0, ha1⟩
    intro i o _ _
    exact mul_self_nonneg _
  constructor
  · intro o ho
    have hr := cell_entry_range (width / 8) (height / 8) x y o hx hy ho
    simp only [cellHistogram, Q2]
    exact hhist _ hr.1 hr.2
  · obtain ⟨n00, n10, n20, n01, n11, n21, n02, n12, n22⟩ :=
      neighbours_nonneg (runState env src stride width height g).norm (width / 8) (height / 8)
        x y hx hy hnorm
    have he : (0 : ℚ) ≤ eps := by unfold eps; norm_num
    intro k
    fin_cases k
    · exact one_div_nonneg.mpr (hsqrt _ (by linarith))
    · exact one_div_nonneg.mpr (hsqrt _ (by linarith))
    · exact one_div_nonneg.mpr (hsqrt _ (by linarith))
    · exact one_div_nonneg.mpr (hsqrt _ (by linarith))

/-- The value of `features` at channel `ch` of the cell `(x, y)` after the call. -/
theorem features_cell_channel (env : FloatEnv) (src : Bytes) (stride width height : ℕ)
    (g : State) (feat : Mem) (x y ch : ℕ) (hx : x < width / 8) (hy : y < height / 8)
    (hch : ch < 31) :
    HogExtractFeatures env src stride width height g feat
        ((((y * (width / 8) + x) * 31 + ch : ℕ)) : ℤ)
      = specChannel
          (cellHistogram (runState env src stride width height g).histogram (width / 8) x y)
          (normalizers env
            (neighbours (runState env src stride width height g).norm
              (width / 8) (height / 8) x y)) ch := by
  have hlt : (y * (width / 8) + x) * 31 + ch < height / 8 * (width / 8) * 31 := by
    have h1 : y * (width / 8) + x < height / 8 * (width / 8) := by
      calc y * (width / 8) + x < y * (width / 8) + width / 8 := by omega
        _ = (y + 1) * (width / 8) := by ring
        _ ≤ height / 8 * (width / 8) := Nat.mul_le_mul_right _ hy
    omega
  rw [HogExtractFeatures_eq]
  simp only [C]
  rw [if_pos ⟨by positivity, by exact_mod_cast hlt⟩, Int.toNat_natCast,
    specStore_cell env _ _ _ _ x y ch hx hch]

/-- Claim C3, amended.  For every valid image, with square roots that are
non-negative on non-negative arguments, each of the 27 histogram-derived
channels (channels `0..26`) of every cell lies in `[0, 2 * 0.2f]`, where `0.2f`
is the `float` literal of the clamps: the channel is `0.5` times a sum of four
values, each in `[0, 0.2f]`, and the bound `2 * 0.2f = 13421773 / 33554432 =
0.4000000059604645` is slightly above `0.4`. -/
theorem histogram_channels_bounds (env : FloatEnv) (src : Bytes) (stride width height : ℕ)
    (g : State) (feat : Mem) (hv : Valid stride width height)
    (hsqrtPs : ∀ v, 0 ≤ v → 0 ≤ env.sqrtPs v) (hsqrt : ∀ v, 0 ≤ v → 0 ≤ env.sqrt v)
    (x y ch : ℕ) (hx : x < width / 8) (hy : y < height / 8) (hch : ch < 27) :
    0 ≤ HogExtractFeatures env src stride width height g feat
          ((((y * (width / 8) + x) * 31 + ch : ℕ)) : ℤ) ∧
      HogExtractFeatures env src stride width height g feat
          ((((y * (width / 8) + x) * 31 + ch : ℕ)) : ℤ) ≤ 2 * clampF ∧
      2 * clampF = 13421773 / 33554432 := by
  obtain ⟨hh, hn⟩ := cell_inputs_nonneg env src stride width height g hv hsqrtPs hsqrt x y hx hy
  rw [features_cell_channel env src stride width height g feat x y ch hx hy (by omega)]
  refine ⟨((specChannel_bounds _ _ hh hn ch).1 hch).1, ((specChannel_bounds _ _ hh hn ch).1 hch).2,
    ?_⟩
  unfold clampF
  norm_num

theorem sqrtDown_nonneg (v : ℚ) : 0 ≤ sqrtDown v := by
  unfold sqrtDown
  positivity

/-- The bounds of `histogram_channels_bounds` for channel 0 of the cell `(0, 0)`
of the step-edge image. -/
theorem histogram_channels_bounds_witness :
    0 ≤ HogExtractFeatures floatEnv stepImage 16 16 16 zeroState (fun _ => 0)
          ((((0 * (16 / 8) + 0) * 31 + 0 : ℕ)) : ℤ) ∧
      HogExtractFeatures floatEnv stepImage 16 16 16 zeroState (fun _ => 0)
          ((((0 * (16 / 8) + 0) * 31 + 0 : ℕ)) : ℤ) ≤ 2 * clampF ∧
      2 * clampF = 13421773 / 33554432 :=
  histogram_channels_bounds floatEnv stepImage 16 16 16 zeroState (fun _ => 0) (by decide)
    (fun v _ => sqrtDown_nonneg v) (fun v _ => sqrtDown_nonneg v) 0 0 0
    (by decide) (by decide) (by decide)

set_option maxRecDepth 100000 in
/-- Claim C3 as stated fails: for the valid 16x16 step-edge image, channel 0 of
the cell `(0, 0)` is exactly `2 * 0.2f = 13421773 / 33554432 =
0.4000000059604645` (all four clamps are reached), which is not in `[0, 0.2]`,
and not in `[0, 0.4]` either. -/
theorem histogram_channel_exceeds_fifth :
    Valid 16 16 16 ∧
      HogExtractFeatures floatEnv stepImage 16 16 16 zeroState (fun _ => 0) 0
        = 13421773 / 33554432 ∧
      ¬ (HogExtractFeatures floatEnv stepImage 16 16 16 zeroState (fun _ => 0) 0 ≤ 1 / 5) ∧
      ¬ (HogExtractFeatures floatEnv stepImage 16 16 16 zeroState (fun _ => 0) 0 ≤ 2 / 5) := by
  have h : HogExtractFeatures floatEnv stepImage 16 16 16 zeroState (fun _ => 0) 0
      = 13421773 / 33554432 := by
    decide!
  refine ⟨by decide, h, ?_, ?_⟩
  · rw [h]
    norm_num
  · rw [h]
    norm_num

section AxisLemmas

variable {α : Type} [LinearOrderedField α]

theorem unsignedBin_neg (cosT sinT : ℕ → α) (dx dy : α) :
    unsignedBin cosT sinT (-dx) (-dy) = unsignedBin cosT sinT dx dy := by
  simp only [unsignedBin, abs_neg]

/-- A horizontal gradient (`dy = 0`) keeps `bestIndex = 0` when no table entry
`_cos[i]` exceeds `_cos[0]`. -/
theorem unsignedBin_horizontal (cosT sinT : ℕ → α) (dx : α)
    (hcos : ∀ i < 5, cosT i ≤ cosT 0) : unsignedBin cosT sinT dx 0 = 0 := by
  obtain ⟨_, _, hcase⟩ := searchPrefix_invariant cosT sinT |dx| (0 : α) 5
  have hidx : unsignedBin cosT sinT dx 0 = (searchPrefix cosT sinT |dx| (0 : α) 5).2 := by
    simp only [unsignedBin, searchLoop, searchPrefix, abs_zero]
  rw [hidx]
  rcases hcase with ⟨_, h0⟩ | ⟨k, hk, h1, h2, h3⟩
  · exact h0
  · rcases Nat.eq_zero_or_pos k with hk0 | hkpos
    · rw [h1, hk0]; rfl
    · exfalso
      have hlt := h3 0 hkpos
      rw [← h2] at hlt
      simp only [zero_mul, add_zero] at hlt
      have := mul_le_mul_of_nonneg_left (hcos k hk) (abs_nonneg dx)
      exact absurd hlt (not_lt.mpr this)

/-- A vertical gradient (`dx = 0`, `dy ≠ 0`) ends the search at index 4 when
`_sin[4]` is positive and exceeds the other entries of `_sin`. -/
theorem unsignedBin_vertical (cosT sinT : ℕ → α) (dy : α) (hdy : dy ≠ 0)
    (hsin : ∀ i < 4, sinT i < sinT 4) (hsin4 : 0 < sinT 4) :
    unsignedBin cosT sinT 0 dy = 4 := by
  obtain ⟨_, hle, hcase⟩ := searchPrefix_invariant cosT sinT (0 : α) |dy| 5
  have hidx : unsignedBin cosT sinT 0 dy = (searchPrefix cosT sinT (0 : α) |dy| 5).2 := by
    simp only [unsignedBin, searchLoop, searchPrefix, abs_zero]
  rw [hidx]
  have hpos : 0 < |dy| := abs_pos.mpr hdy
  have h4 := hle 4 (by norm_num)
  simp only [zero_mul, zero_add] at h4 hcase
  rcases hcase with ⟨hz, _⟩ | ⟨k, hk, h1, h2, _⟩
  · exfalso
    rw [hz] at h4
    exact absurd (mul_pos hpos hsin4) (not_lt.mpr h4)
  · rw [h1]
    rcases Nat.lt_succ_iff_lt_or_eq.mp hk with hlt | heq
    · exfalso
      rw [← h2] at h4
      have := mul_lt_mul_of_pos_left (hsin k hlt) hpos
      exact absurd this (not_lt.mpr h4)
    · rw [heq]; rfl

end AxisLemmas

/-- Claim C11.  With tables in which `_cos[0]` is the largest cosine and
`_sin[4]` the strictly largest, positive, sine (as for `cos(i*pi/9)`,
`sin(i*pi/9)`, `i < 5`), the bins stored for an integer gradient other than
`(0, 0)` and for the opposite gradient are 9 apart modulo 18:
`bin(-dx, -dy) = (bin(dx, dy) + 9) mod 18`. -/
theorem opposite_bins (env : FloatEnv) (hcos : ∀ i < 5, env.cos i ≤ env.cos 0)
    (hsin : ∀ i < 4, env.sin i < env.sin 4) (hsin4 : 0 < env.sin 4)
    (dx dy : ℤ) (hne : ¬ (dx = 0 ∧ dy = 0)) :
    signedBin env.cos env.sin (((-dx : ℤ)) : ℚ) (((-dy : ℤ)) : ℚ)
      = (signedBin env.cos env.sin (dx : ℚ) (dy : ℚ) + 9) % 18 := by
  obtain ⟨h0, h4⟩ := unsignedBin_range env.cos env.sin (dx : ℚ) (dy : ℚ)
  have hneg : unsignedBin env.cos env.sin (((-dx : ℤ)) : ℚ) (((-dy : ℤ)) : ℚ)
      = unsignedBin env.cos env.sin (dx : ℚ) (dy : ℚ) := by
    push_cast
    exact unsignedBin_neg _ _ _ _
  have hh : (dy : ℚ) = 0 → unsignedBin env.cos env.sin (dx : ℚ) (dy : ℚ) = 0 := by
    intro h
    rw [h]
    exact unsignedBin_horizontal _ _ _ hcos
  have hvv : (dx : ℚ) = 0 → (dy : ℚ) ≠ 0 →
      unsignedBin env.cos env.sin (dx : ℚ) (dy : ℚ) = 4 := by
    intro h h'
    rw [h]
    exact unsignedBin_vertical _ _ _ h' hsin hsin4
  rw [signedBin, signedBin, hneg, promote_cases _ _ _ h0 h4, promote_cases _ _ _ h0 h4]
  generalize unsignedBin env.cos env.sin (dx : ℚ) (dy : ℚ) = b at h0 h4 hh hvv
  push_cast
  rcases lt_trichotomy dx 0 with hx | hx | hx <;> rcases lt_trichotomy dy 0 with hy | hy | hy
  · have hx' : (dx : ℚ) < 0 := by exact_mod_cast hx
    have hy' : (dy : ℚ) < 0 := by exact_mod_cast hy
    simp only [neg_nonneg, neg_neg_iff_pos, neg_pos, not_le.mpr hx', not_le.mpr hy', hx', hy',
      hx'.le, hy'.le, not_lt.mpr hx'.le, not_lt.mpr hy'.le, and_self, and_true, and_false,
      false_and, true_and, if_true, if_false]
    omega
  · subst hy
    have hx' : (dx : ℚ) < 0 := by exact_mod_cast hx
    have hb := hh (by simp)
    simp only [Int.cast_zero, neg_zero, le_refl, lt_irrefl, neg_nonneg, neg_neg_iff_pos, neg_pos,
      not_le.mpr hx', hx', hx'.le, not_lt.mpr hx'.le, and_self, and_true, and_false,
      false_and, true_and, if_true, if_false, hb]
    omega
  · have hx' : (dx : ℚ) < 0 := by exact_mod_cast hx
    have hy' : (0 : ℚ) < dy := by exact_mod_cast hy
    simp only [neg_nonneg, neg_neg_iff_pos, neg_pos, not_le.mpr hx', not_le.mpr hy', hx', hy',
      hx'.le, hy'.le, not_lt.mpr hx'.le, not_lt.mpr hy'.le, and_self, and_true, and_false,
      false_and, true_and, if_true, if_false]
    omega
  · subst hx
    have hy' : (dy : ℚ) < 0 := by exact_mod_cast hy
    have hb := hvv (by simp) (ne_of_lt hy')
    simp only [Int.cast_zero, neg_zero, le_refl, lt_irrefl, neg_nonneg, neg_neg_iff_pos, neg_pos,
      not_le.mpr hy', hy', hy'.le, not_lt.mpr hy'.le, and_self, and_true, and_false,
      false_and, true_and, if_true, if_false, hb]
    omega
  · exact absurd ⟨hx, hy⟩ hne
  · subst hx
    have hy' : (0 : ℚ) < dy := by exact_mod_cast hy
    have hb := hvv (by simp) (ne_of_gt hy')
    simp only [Int.cast_zero, neg_zero, le_refl, lt_irrefl, neg_nonneg, neg_neg_iff_pos, neg_pos,
      not_le.mpr hy', hy', hy'.le, not_lt.mpr hy'.le, and_self, and_true, and_false,
      false_and, true_and, if_true, if_false, hb]
    omega
  · have hx' : (0 : ℚ) < dx := by exact_mod_cast hx
    have hy' : (dy : ℚ) < 0 := by exact_mod_cast hy
    simp only [neg_nonneg, neg_neg_iff_pos, neg_pos, not_le.mpr hx', not_le.mpr hy', hx', hy',
      hx'.le, hy'.le, not_lt.mpr hx'.le, not_lt.mpr hy'.le, and_self, and_true, and_false,
      false_and, true_and, if_true, if_false]
    omega
  · subst hy
    have hx' : (0 : ℚ) < dx := by exact_mod_cast hx
    have hb := hh (by simp)
    simp only [Int.cast_zero, neg_zero, le_refl, lt_irrefl, neg_nonneg, neg_neg_iff_pos, neg_pos,
      not_le.mpr hx', hx', hx'.le, not_lt.mpr hx'.le, and_self, and_true, and_false,
      false_and, true_and, if_true, if_false, hb]
    omega
  · have hx' : (0 : ℚ) < dx := by exact_mod_cast hx
    have hy' : (0 : ℚ) < dy := by exact_mod_cast hy
    simp only [neg_nonneg, neg_neg_iff_pos, neg_pos, not_le.mpr hx', not_le.mpr hy', hx', hy',
      hx'.le, hy'.le, not_lt.mpr hx'.le, not_lt.mpr hy'.le, and_self, and_true, and_false,
      false_and, true_and, if_true, if_false]
    omega

theorem floatEnv_cos_max : ∀ i < 5, floatEnv.cos i ≤ floatEnv.cos 0 := by
  intro i hi
  interval_cases i <;> simp [floatEnv, cosTable] <;> norm_num

theorem floatEnv_sin_max : (∀ i < 4, floatEnv.sin i < floatEnv.sin 4) ∧ 0 < floatEnv.sin 4 := by
  constructor
  · intro i hi
    interval_cases i <;> simp [floatEnv, sinTable] <;> norm_num
  · simp [floatEnv, sinTable]

/-- The statement of `opposite_bins` for the tables of `floatEnv` at the
gradient `(0, 5)`. -/
theorem opposite_bins_witness :
    signedBin floatEnv.cos floatEnv.sin (((-(0 : ℤ) : ℤ)) : ℚ) (((-(5 : ℤ) : ℤ)) : ℚ)
      = (signedBin floatEnv.cos floatEnv.sin ((0 : ℤ) : ℚ) ((5 : ℤ) : ℚ) + 9) % 18 :=
  opposite_bins floatEnv floatEnv_cos_max floatEnv_sin_max.1 floatEnv_sin_max.2 0 5 (by decide)

/-- Claim C12, amended.  With a table `_sin` whose entry 4 is positive and
strictly the largest (as for `sin(i*pi/9)`, `i < 5`), a pure vertical gradient
(`dx = 0`, `dy ≠ 0`) gets the unsigned bin 4, the direction nearest to the
vertical among the five searched; its signed bin is 4 when `dy > 0` and
`13 = 4 + 9` when `dy < 0`. -/
theorem vertical_gradient_bins (env : FloatEnv) (hsin : ∀ i < 4, env.sin i < env.sin 4)
    (hsin4 : 0 < env.sin 4) (dy : ℤ) (hdy : dy ≠ 0) :
    unsignedBin env.cos env.sin ((0 : ℤ) : ℚ) (dy : ℚ) = 4 ∧
      (0 < dy → signedBin env.cos env.sin ((0 : ℤ) : ℚ) (dy : ℚ) = 4) ∧
      (dy < 0 → signedBin env.cos env.sin ((0 : ℤ) : ℚ) (dy : ℚ) = 13) := by
  have hdy' : (dy : ℚ) ≠ 0 := by exact_mod_cast hdy
  have hb : unsignedBin env.cos env.sin ((0 : ℤ) : ℚ) (dy : ℚ) = 4 := by
    push_cast
    exact unsignedBin_vertical _ _ _ hdy' hsin hsin4
  refine ⟨hb, ?_, ?_⟩
  · intro h
    have h' : (0 : ℚ) ≤ dy := by exact_mod_cast h.le
    rw [signedBin, hb, promote_cases _ _ _ (by norm_num) (by norm_num)]
    simp [h']
  · intro h
    have h' : (dy : ℚ) < 0 := by exact_mod_cast h
    rw [signedBin, hb, promote_cases _ _ _ (by norm_num) (by norm_num)]
    simp [h', not_le.mpr h']

/-- The statement of `vertical_gradient_bins` for the tables of `floatEnv` at
`dy = -7`. -/
theorem vertical_gradient_bins_witness :
    unsignedBin floatEnv.cos floatEnv.sin ((0 : ℤ) : ℚ) (((-7 : ℤ)) : ℚ) = 4 ∧
      (0 < (-7 : ℤ) → signedBin floatEnv.cos floatEnv.sin ((0 : ℤ) : ℚ) (((-7 : ℤ)) : ℚ) = 4) ∧
      ((-7 : ℤ) < 0 → signedBin floatEnv.cos floatEnv.sin ((0 : ℤ) : ℚ) (((-7 : ℤ)) : ℚ) = 13) :=
  vertical_gradient_bins floatEnv floatEnv_sin_max.1 floatEnv_sin_max.2 (-7) (by decide)

/-- Claim C12 as stated fails: for the vertical gradient `(0, -1)` and the
`float` tables the unsigned bin is 4, not 0, and the stored signed bin is 13,
not 9. -/
theorem vertical_gradient_not_bin_zero :
    unsignedBin floatEnv.cos floatEnv.sin ((0 : ℤ) : ℚ) (((-1 : ℤ)) : ℚ) = 4 ∧
      signedBin floatEnv.cos floatEnv.sin ((0 : ℤ) : ℚ) (((-1 : ℤ)) : ℚ) = 13 ∧
      ¬ (unsignedBin floatEnv.cos floatEnv.sin ((0 : ℤ) : ℚ) (((-1 : ℤ)) : ℚ) = 0) ∧
      ¬ (signedBin floatEnv.cos floatEnv.sin ((0 : ℤ) : ℚ) (((-1 : ℤ)) : ℚ) = 9) := by
  decide!

theorem addAt_apply (m : Mem) (t a : ℤ) (v : ℚ) :
    addAt m t v a = m a + if a = t then v else 0 := by
  unfold addAt
  by_cases h : a = t
  · subst h; simp
  · simp [Function.update_noteq h, h]

/-- The addend that a four-lane load-add-store at float offset `t` brings to
the float offset `a`. -/
theorem storeV4_add_apply (m : Mem) (t a : ℤ) (v : V4) :
    storeV4 m t (loadV4 m t + v) a
      = m a + (if a = t then v 0 else if a = t + 1 then v 1 else if a = t + 2 then v 2
          else if a = t + 3 then v 3 else 0) := by
  unfold storeV4 loadV4
  simp only [Pi.add_apply, Matrix.cons_val_zero, Matrix.cons_val_one, Matrix.head_cons,
    Matrix.cons_val_two, Matrix.tail_cons, Matrix.cons_val_three]
  split_ifs with h1 h2 h3 h4
  · rw [h1]
  · rw [h2]
  · rw [h3]
  · rw [h4]
  · rw [add_zero]

/-- Claim C16.  For offsets `i, j < 8` the kernels of `Init` satisfy
`k0 = (15 - 2i)/16`, `k1 = 1 - k0 = (1 + 2i)/16`, `kx[i] = (k0, k1, k0, k1)`,
`ky[j] = (k0, k0, k1, k1)`; the four weights of the lane-wise product
`ky[j] * kx[i]` are non-negative and sum to exactly 1, so the four increments
that `AddRowToBuffer` makes for one pixel sum to its magnitude. -/
theorem kernel_weights (i j : ℕ) (hi : i < 8) (hj : j < 8) :
    k0 i = (15 - 2 * (i : ℚ)) / 16 ∧ k1 i = 1 - k0 i ∧ k1 i = (1 + 2 * (i : ℚ)) / 16 ∧
      kx i = ![k0 i, k1 i, k0 i, k1 i] ∧ ky j = ![k0 j, k0 j, k1 j, k1 j] ∧
      (∀ l : Fin 4, 0 ≤ ky j l * kx i l) ∧
      ∑ l : Fin 4, ky j l * kx i l = 1 ∧
      (∀ (lanes : Lanes) (base : ℤ) (buffer : Mem) (col : ℕ),
        ∑ l : Fin 4,
          (addPixel lanes (ky j) (kx i) base buffer col
              (4 * (base + lanes.index (col : ℤ)) + (l.val : ℤ))
            - buffer (4 * (base + lanes.index (col : ℤ)) + (l.val : ℤ)))
          = lanes.value (col : ℤ)) := by
  have hk0 : k0 i = (15 - 2 * (i : ℚ)) / 16 := by
    unfold k0; push_cast; ring
  have hsum : ∑ l : Fin 4, ky j l * kx i l = 1 := by
    simp only [Fin.sum_univ_four, kx, ky, k1, Matrix.cons_val_zero, Matrix.cons_val_one,
      Matrix.head_cons, Matrix.cons_val_two, Matrix.tail_cons, Matrix.cons_val_three]
    ring
  refine ⟨hk0, rfl, by rw [k1, hk0]; ring, rfl, rfl, ?_, hsum, ?_⟩
  · intro l
    exact mul_nonneg (kernel_nonneg j hj l).2 (kernel_nonneg i hi l).1
  · intro lanes base buffer col
    have hinc : ∀ l : Fin 4,
        addPixel lanes (ky j) (kx i) base buffer col
            (4 * (base + lanes.index (col : ℤ)) + (l.val : ℤ))
          - buffer (4 * (base + lanes.index (col : ℤ)) + (l.val : ℤ))
          = lanes.value (col : ℤ) * (ky j l * kx i l) := by
      intro l
      have h := storeV4_add_apply buffer (4 * (base + lanes.index (col : ℤ)))
        (4 * (base + lanes.index (col : ℤ)) + (l.val : ℤ))
        (fun l => lanes.value (col : ℤ) * (ky j l * kx i l))
      have hadd : addPixel lanes (ky j) (kx i) base buffer col
          = storeV4 buffer (4 * (base + lanes.index (col : ℤ)))
              (loadV4 buffer (4 * (base + lanes.index (col : ℤ)))
                + fun l => lanes.value (col : ℤ) * (ky j l * kx i l)) := rfl
      rw [hadd, h]
      fin_cases l <;> simp
    simp only [hinc]
    rw [← Finset.mul_sum, hsum, mul_one]

/-- The statement of `kernel_weights` for the offsets `i = 3`, `j = 5`. -/
theorem kernel_weights_witness :
    k0 3 = (15 - 2 * ((3 : ℕ) : ℚ)) / 16 ∧ k1 3 = 1 - k0 3 ∧
      k1 3 = (1 + 2 * ((3 : ℕ) : ℚ)) / 16 ∧
      kx 3 = ![k0 3, k1 3, k0 3, k1 3] ∧ ky 5 = ![k0 5, k0 5, k1 5, k1 5] ∧
      (∀ l : Fin 4, 0 ≤ ky 5 l * kx 3 l) ∧
      ∑ l : Fin 4, ky 5 l * kx 3 l = 1 ∧
      (∀ (lanes : Lanes) (base : ℤ) (buffer : Mem) (col : ℕ),
        ∑ l : Fin 4,
          (addPixel lanes (ky 5) (kx 3) base buffer col
              (4 * (base + lanes.index (col : ℤ)) + (l.val : ℤ))
            - buffer (4 * (base + lanes.index (col : ℤ)) + (l.val : ℤ)))
          = lanes.value (col : ℤ)) :=
  kernel_weights 3 5 (by decide) (by decide)

theorem storeV4_add_laneDelta (m : Mem) (t a : ℤ) (v : V4) :
    storeV4 m t (loadV4 m t + v) a = m a + laneDelta t v a :=
  storeV4_add_apply m t a v

theorem addPixel_apply (lanes : Lanes) (kyv kxv : V4) (base : ℤ) (b : Mem) (col : ℕ) (a : ℤ) :
    addPixel lanes kyv kxv base b col a
      = b a + laneDelta (4 * (base + lanes.index (col : ℤ)))
          (fun l => lanes.value (col : ℤ) * (kyv l * kxv l)) a :=
  storeV4_add_apply b (4 * (base + lanes.index (col : ℤ))) a
    (fun l => lanes.value (col : ℤ) * (kyv l * kxv l))

/-- A loop that adds `d i` pointwise for `i = lo .. hi-1` adds the sum of the
`d i`. -/
theorem foldl_add_sum (f : Mem → ℕ → Mem) (d : ℕ → ℤ → ℚ) (lo hi : ℕ) (hle : lo ≤ hi)
    (m0 : Mem) (hf : ∀ (m : Mem) (i : ℕ), lo ≤ i → i < hi → ∀ a, f m i a = m a + d i a) (a : ℤ) :
    (forRange lo hi).foldl f m0 a = m0 a + ∑ i in Finset.Ico lo hi, d i a := by
  have h := foldl_forRange_inv
    (fun (i : ℕ) (m : Mem) => ∀ a, m a = m0 a + ∑ j in Finset.Ico lo i, d j a) f lo hi hle m0
    (by intro a; simp)
    (by
      intro i m h1 h2 hI a
      rw [hf m i h1 h2 a, hI a, Finset.sum_Ico_succ_top h1, add_assoc])
  exact h a

/-- One call of `AddRowToBuffer` on row `r` of a valid image adds `rowDelta r`
to the row buffer and leaves the grid alone. -/
theorem AddRowToBuffer_buffer (env : FloatEnv) (src : Bytes) (stride r width : ℕ) (st : State)
    (hw8 : width % 8 = 0) (hw : 16 ≤ width) (hw63 : width < 2 ^ 63) (a : ℤ) :
    (AddRowToBuffer env src stride r width (AlignHi (width - 1) HA - HA) st).buffer a
      = st.buffer a + rowDelta env src stride width r a := by
  show rowAccumulate _ r width st.buffer a = _
  rw [rowAccumulate_eq _ r width st.buffer hw8 (by omega)]
  unfold rowDelta
  apply foldl_add_sum _ _ 1 (width - 1) (by omega)
  intro m c hc1 hc2 a'
  obtain ⟨hi, hv⟩ := rowLanes_interior env src stride r width st.lanes hw8 hw hw63 c hc1
    (by omega)
  simp only [pixelStep, addPixel_apply]
  rw [hi, hv]
  rfl

theorem slotDelta_succ (buf : Mem) (src h kc slot : ℤ) (lo i : ℕ) (hle : lo ≤ i) (a : ℤ) :
    slotDelta buf src h kc slot lo (i + 1) a
      = slotDelta buf src h kc slot lo i a
        + if a = cellAt h kc i then buf (src + (i : ℤ) * 4 + slot) else 0 := by
  unfold slotDelta cellAt
  by_cases h1 : a = (h + kc) * 18 + (i : ℤ)
  · subst h1
    have c1 : (h + kc) * 18 + (lo : ℤ) ≤ (h + kc) * 18 + (i : ℤ) ∧
        (h + kc) * 18 + (i : ℤ) < (h + kc) * 18 + ((i + 1 : ℕ) : ℤ) := by
      push_cast; omega
    have c2 : ¬ ((h + kc) * 18 + (lo : ℤ) ≤ (h + kc) * 18 + (i : ℤ) ∧
        (h + kc) * 18 + (i : ℤ) < (h + kc) * 18 + (i : ℤ)) := by omega
    rw [if_pos c1, if_neg c2, if_pos rfl, zero_add]
    congr 2
    push_cast
    ring
  · rw [if_neg h1, add_zero]
    by_cases h2 : (h + kc) * 18 + (lo : ℤ) ≤ a ∧ a < (h + kc) * 18 + (i : ℤ)
    · rw [if_pos h2, if_pos]
      push_cast; omega
    · rw [if_neg h2, if_neg]
      push_cast; omega

theorem slotDelta_empty (buf : Mem) (src h kc slot : ℤ) (lo : ℕ) (a : ℤ) :
    slotDelta buf src h kc slot lo lo a = 0 := by
  unfold slotDelta
  rw [if_neg]
  omega

theorem slotDelta_append (buf : Mem) (src h kc slot : ℤ) (lo mid hi : ℕ) (h1 : lo ≤ mid)
    (h2 : mid ≤ hi) (a : ℤ) :
    slotDelta buf src h kc slot lo mid a + slotDelta buf src h kc slot mid hi a
      = slotDelta buf src h kc slot lo hi a := by
  unfold slotDelta cellAt
  by_cases c1 : (h + kc) * 18 + (lo : ℤ) ≤ a ∧ a < (h + kc) * 18 + (mid : ℤ)
  · rw [if_pos c1, if_neg (by omega), if_pos (by omega), add_zero]
  · rw [if_neg c1, zero_add]
    by_cases c2 : (h + kc) * 18 + (mid : ℤ) ≤ a ∧ a < (h + kc) * 18 + (hi : ℤ)
    · rw [if_pos c2, if_pos (by omega)]
    · rw [if_neg c2, if_neg (by omega)]

theorem addSlot_apply (buf : Mem) (src h k : ℤ) (slot lo hi : ℕ) (hle : lo ≤ hi)
    (hist : Mem) (a : ℤ) :
    addSlot buf src h k slot lo hi hist a
      = hist a + slotDelta buf src h k (slot : ℤ) lo hi a := by
  have hinv := foldl_forRange_inv
    (fun (i : ℕ) (m : Mem) => ∀ a, m a = hist a + slotDelta buf src h k (slot : ℤ) lo i a)
    (fun m (i : ℕ) => addAt m (cellAt h k i) (buf (src + (i : ℤ) * 4 + (slot : ℤ))))
    lo hi hle hist
    (by intro a; rw [slotDelta_empty, add_zero])
    (by
      intro i m h1 _ hI a
      beta_reduce
      rw [addAt_apply, hI a, slotDelta_succ _ _ _ _ _ _ _ h1, add_assoc])
  exact hinv a

theorem addSlots2_apply (buf : Mem) (src h : ℤ) (slotA slotB : ℕ) (hist : Mem) (a : ℤ) :
    addSlots2 buf src h slotA slotB hist a
      = hist a + (slotDelta buf src h 0 (slotA : ℤ) 0 18 a
          + slotDelta buf src h 1 (slotB : ℤ) 0 18 a) := by
  have hinv := foldl_forRange_inv
    (fun (i : ℕ) (m : Mem) => ∀ a, m a = hist a + (slotDelta buf src h 0 (slotA : ℤ) 0 i a
      + slotDelta buf src h 1 (slotB : ℤ) 0 i a))
    (fun m (i : ℕ) => addAt (addAt m (cellAt h 0 i) (buf (src + (i : ℤ) * 4 + (slotA : ℤ))))
      (cellAt h 1 i) (buf (src + (i : ℤ) * 4 + (slotB : ℤ))))
    0 18 (by norm_num) hist
    (by intro a; rw [slotDelta_empty, slotDelta_empty, add_zero, add_zero])
    (by
      intro i m h1 _ hI a
      beta_reduce
      rw [addAt_apply, addAt_apply, hI a, slotDelta_succ _ _ _ _ _ _ _ h1,
        slotDelta_succ _ _ _ _ _ _ _ h1]
      ring)
  exact hinv a

theorem addSlots4_apply (buf : Mem) (src h0 h1 : ℤ) (lo hi : ℕ) (hle : lo ≤ hi)
    (hist : Mem) (a : ℤ) :
    addSlots4 buf src h0 h1 lo hi hist a
      = hist a + (slotDelta buf src h0 0 0 lo hi a + slotDelta buf src h0 1 1 lo hi a
          + slotDelta buf src h1 0 2 lo hi a + slotDelta buf src h1 1 3 lo hi a) := by
  have hinv := foldl_forRange_inv
    (fun (i : ℕ) (m : Mem) => ∀ a, m a = hist a
      + (slotDelta buf src h0 0 0 lo i a + slotDelta buf src h0 1 1 lo i a
          + slotDelta buf src h1 0 2 lo i a + slotDelta buf src h1 1 3 lo i a))
    (fun m (i : ℕ) =>
      addAt (addAt (addAt (addAt m
        (cellAt h0 0 i) (buf (src + (i : ℤ) * 4 + 0)))
        (cellAt h0 1 i) (buf (src + (i : ℤ) * 4 + 1)))
        (cellAt h1 0 i) (buf (src + (i : ℤ) * 4 + 2)))
        (cellAt h1 1 i) (buf (src + (i : ℤ) * 4 + 3)))
    lo hi hle hist
    (by intro a; simp only [slotDelta_empty, add_zero])
    (by
      intro i m h1' _ hI a
      beta_reduce
      rw [addAt_apply, addAt_apply, addAt_apply, addAt_apply, hI a,
        slotDelta_succ _ _ _ _ _ _ _ h1', slotDelta_succ _ _ _ _ _ _ _ h1',
        slotDelta_succ _ _ _ _ _ _ _ h1', slotDelta_succ _ _ _ _ _ _ _ h1']
      ring)
  exact hinv a

/-- A four-lane store of the lanes `buf[src + (i+l)*4 + slot]`, `l < 4`, at bin
`i` of a cell is the scalar loop over the bins `i .. i+3`. -/
theorem laneDelta_slot (buf : Mem) (src h kc slot : ℤ) (i : ℕ) (v : V4)
    (hv0 : v 0 = buf (src + ((i : ℤ) + 0) * 4 + slot))
    (hv1 : v 1 = buf (src + ((i : ℤ) + 1) * 4 + slot))
    (hv2 : v 2 = buf (src + ((i : ℤ) + 2) * 4 + slot))
    (hv3 : v 3 = buf (src + ((i : ℤ) + 3) * 4 + slot)) (a : ℤ) :
    laneDelta (cellAt h kc i) v a = slotDelta buf src h kc slot i (i + 4) a := by
  unfold laneDelta slotDelta cellAt
  push_cast
  by_cases h0 : a = (h + kc) * 18 + (i : ℤ)
  · rw [if_pos h0, if_pos (by omega), hv0]
    congr 2
    rw [h0]; ring
  · rw [if_neg h0]
    by_cases h1 : a = (h + kc) * 18 + (i : ℤ) + 1
    · rw [if_pos h1, if_pos (by omega), hv1]
      congr 2
      rw [h1]; ring
    · rw [if_neg h1]
      by_cases h2 : a = (h + kc) * 18 + (i : ℤ) + 2
      · rw [if_pos h2, if_pos (by omega), hv2]
        congr 2
        rw [h2]; ring
      · rw [if_neg h2]
        by_cases h3 : a = (h + kc) * 18 + (i : ℤ) + 3
        · rw [if_pos h3, if_pos (by omega), hv3]
          congr 2
          rw [h3]; ring
        · rw [if_neg h3, if_neg (by omega)]

/-- One step of the unpack-based transpose adds, for the bins `i .. i+3`, slot 0
to `h0[0]`, slot 1 to `h0[1]`, slot 2 to `h1[0]` and slot 3 to `h1[1]`. -/
theorem transposeStep_apply (buf : Mem) (src h0 h1 : ℤ) (hist : Mem) (i : ℕ) (a : ℤ) :
    transposeStep buf src h0 h1 hist i a
      = hist a + (slotDelta buf src h0 0 0 i (i + 4) a + slotDelta buf src h0 1 1 i (i + 4) a
          + slotDelta buf src h1 0 2 i (i + 4) a + slotDelta buf src h1 1 3 i (i + 4) a) := by
  have e0 := laneDelta_slot buf src h0 0 0 i
    (unpacklo (unpacklo (loadV4 buf (src + 4 * ((i + 0 : ℕ) : ℤ)))
        (loadV4 buf (src + 4 * ((i + 2 : ℕ) : ℤ))))
      (unpacklo (loadV4 buf (src + 4 * ((i + 1 : ℕ) : ℤ)))
        (loadV4 buf (src + 4 * ((i + 3 : ℕ) : ℤ)))))
    (by simp [unpacklo, loadV4]; ring_nf) (by simp [unpacklo, loadV4]; ring_nf)
    (by simp [unpacklo, loadV4]; ring_nf) (by simp [unpacklo, loadV4]; ring_nf)
  have e1 := laneDelta_slot buf src h0 1 1 i
    (unpackhi (unpacklo (loadV4 buf (src + 4 * ((i + 0 : ℕ) : ℤ)))
        (loadV4 buf (src + 4 * ((i + 2 : ℕ) : ℤ))))
      (unpacklo (loadV4 buf (src + 4 * ((i + 1 : ℕ) : ℤ)))
        (loadV4 buf (src + 4 * ((i + 3 : ℕ) : ℤ)))))
    (by simp [unpacklo, unpackhi, loadV4]; ring_nf) (by simp [unpacklo, unpackhi, loadV4]; ring_nf)
    (by simp [unpacklo, unpackhi, loadV4]; ring_nf) (by simp [unpacklo, unpackhi, loadV4]; ring_nf)
  have e2 := laneDelta_slot buf src h1 0 2 i
    (unpacklo (unpackhi (loadV4 buf (src + 4 * ((i + 0 : ℕ) : ℤ)))
        (loadV4 buf (src + 4 * ((i + 2 : ℕ) : ℤ))))
      (unpackhi (loadV4 buf (src + 4 * ((i + 1 : ℕ) : ℤ)))
        (loadV4 buf (src + 4 * ((i + 3 : ℕ) : ℤ)))))
    (by simp [unpacklo, unpackhi, loadV4]; ring_nf) (by simp [unpacklo, unpackhi, loadV4]; ring_nf)
    (by simp [unpacklo, unpackhi, loadV4]; ring_nf) (by simp [unpacklo, unpackhi, loadV4]; ring_nf)
  have e3 := laneDelta_slot buf src h1 1 3 i
    (unpackhi (unpackhi (loadV4 buf (src + 4 * ((i + 0 : ℕ) : ℤ)))
        (loadV4 buf (src + 4 * ((i + 2 : ℕ) : ℤ))))
      (unpackhi (loadV4 buf (src + 4 * ((i + 1 : ℕ) : ℤ)))
        (loadV4 buf (src + 4 * ((i + 3 : ℕ) : ℤ)))))
    (by simp [unpacklo, unpackhi, loadV4]; ring_nf) (by simp [unpacklo, unpackhi, loadV4]; ring_nf)
    (by simp [unpacklo, unpackhi, loadV4]; ring_nf) (by simp [unpacklo, unpackhi, loadV4]; ring_nf)
  unfold transposeStep
  simp only [storeV4_add_laneDelta]
  rw [e0 a, e1 a, e2 a, e3 a]
  ring

/-- The unpack-based 4x4 transpose of the bins `i .. i+3` changes the grid
exactly as the scalar four-statement loop over the same bins does. -/
theorem transposeStep_eq_scalar (buf : Mem) (src h0 h1 : ℤ) (hist : Mem) (i : ℕ) :
    transposeStep buf src h0 h1 hist i = addSlots4 buf src h0 h1 i (i + 4) hist := by
  funext a
  rw [transposeStep_apply, addSlots4_apply _ _ _ _ _ _ (by omega)]

theorem pairFold_apply (buf : Mem) (src ha ka hb kb : ℤ) (sa sb : ℤ) (hist : Mem) (a : ℤ) :
    (forRange 0 18).foldl
        (fun m (i : ℕ) => addAt (addAt m (cellAt ha ka i) (buf (src + (i : ℤ) * 4 + sa)))
          (cellAt hb kb i) (buf (src + (i : ℤ) * 4 + sb))) hist a
      = hist a + (slotDelta buf src ha ka sa 0 18 a + slotDelta buf src hb kb sb 0 18 a) := by
  have hinv := foldl_forRange_inv
    (fun (i : ℕ) (m : Mem) => ∀ a, m a = hist a + (slotDelta buf src ha ka sa 0 i a
      + slotDelta buf src hb kb sb 0 i a))
    (fun m (i : ℕ) => addAt (addAt m (cellAt ha ka i) (buf (src + (i : ℤ) * 4 + sa)))
      (cellAt hb kb i) (buf (src + (i : ℤ) * 4 + sb)))
    0 18 (by norm_num) hist
    (by intro a; rw [slotDelta_empty, slotDelta_empty, add_zero, add_zero])
    (by
      intro i m h1 _ hI a
      beta_reduce
      rw [addAt_apply, addAt_apply, hI a, slotDelta_succ _ _ _ _ _ _ _ h1,
        slotDelta_succ _ _ _ _ _ _ _ h1]
      ring)
  exact hinv a

/-- The whole body of the cell loop of the interior branch adds the four slots
of its block, all 18 bins, through `h0[0]`, `h0[1]`, `h1[0]`, `h1[1]`. -/
theorem mergeMiddleCell_apply (buf : Mem) (c : MergeCursor) (cell : ℕ) (a : ℤ) :
    (mergeMiddleCell buf c cell).hist a
      = c.hist a + (slotDelta buf c.src c.h0 0 0 0 18 a + slotDelta buf c.src c.h0 1 1 0 18 a
          + slotDelta buf c.src c.h1 0 2 0 18 a + slotDelta buf c.src c.h1 1 3 0 18 a) := by
  have hr : loopRange 0 16 4 = [0, 4, 8, 12] := by decide
  simp only [mergeMiddleCell, MergeCursor.next, hr, List.foldl_cons, List.foldl_nil]
  rw [addSlots4_apply _ _ _ _ _ _ (by norm_num), transposeStep_apply, transposeStep_apply,
    transposeStep_apply, transposeStep_apply]
  have j0 := fun kc h slot => slotDelta_append buf c.src h kc slot 0 4 8 (by norm_num)
    (by norm_num) a
  have j1 := fun kc h slot => slotDelta_append buf c.src h kc slot 0 8 12 (by norm_num)
    (by norm_num) a
  have j2 := fun kc h slot => slotDelta_append buf c.src h kc slot 0 12 16 (by norm_num)
    (by norm_num) a
  have j3 := fun kc h slot => slotDelta_append buf c.src h kc slot 0 16 18 (by norm_num)
    (by norm_num) a
  simp only [← j3, ← j2, ← j1, ← j0]
  norm_num
  ring

/-- The branch `row == 0`: the cell row behind `h1` receives slot 2 of the
blocks `1 .. width` and slot 3 of the blocks `0 .. width-1`. -/
theorem mergeTop_apply (width : ℕ) (buf : Mem) (c : MergeCursor) (hw : 1 ≤ width)
    (hsrc : c.src = 0) (a : ℤ) :
    mergeTop width buf c a = c.hist a + pairSum buf width c.h1 2 3 a := by
  have hloop := foldl_forRange_inv
    (fun (j : ℕ) (c' : MergeCursor) => c'.src = 72 * (j : ℤ) ∧ c'.h1 = c.h1 + (j : ℤ) ∧
      ∀ a, c'.hist a = c.hist a
        + (∑ b in Finset.Ico 1 j, slotDelta buf (72 * (b : ℤ)) (c.h1 + (b : ℤ)) 0 2 0 18 a
          + ∑ b in Finset.Ico 0 j, slotDelta buf (72 * (b : ℤ)) (c.h1 + (b : ℤ)) 1 3 0 18 a))
    (fun c' _ => c'.nextLower (addSlots2 buf c'.src c'.h1 2 3 c'.hist)) 1 width hw
    (c.nextLower (addSlot buf c.src c.h1 1 3 0 18 c.hist))
    ⟨by simp [MergeCursor.nextLower, hsrc], by simp [MergeCursor.nextLower], by
      intro a
      simp only [MergeCursor.nextLower]
      rw [addSlot_apply _ _ _ _ _ _ _ (by norm_num), hsrc]
      simp⟩
    (by
      intro j c' hj1 _ ⟨hs, hh, hI⟩
      refine ⟨by simp [MergeCursor.nextLower, hs]; ring, by simp [MergeCursor.nextLower, hh]; ring,
        ?_⟩
      intro a
      simp only [MergeCursor.nextLower]
      rw [addSlots2_apply, hI a, Finset.sum_Ico_succ_top hj1,
        Finset.sum_Ico_succ_top (Nat.zero_le j), hs, hh]
      push_cast
      ring)
  obtain ⟨hs, hh, hI⟩ := hloop
  unfold mergeTop pairSum
  rw [addSlot_apply _ _ _ _ _ _ _ (by norm_num), hI a, hs, hh,
    Finset.sum_Ico_succ_top hw]
  push_cast
  ring

/-- The branch `row == height`: the cell row behind `h0` receives slot 0 of the
blocks `1 .. width` and slot 1 of the blocks `0 .. width-1`. -/
theorem mergeBottom_apply (width : ℕ) (buf : Mem) (c : MergeCursor) (hw : 1 ≤ width)
    (hsrc : c.src = 0) (a : ℤ) :
    mergeBottom width buf c a = c.hist a + pairSum buf width c.h0 0 1 a := by
  have hloop := foldl_forRange_inv
    (fun (j : ℕ) (c' : MergeCursor) => c'.src = 72 * (j : ℤ) ∧ c'.h0 = c.h0 + (j : ℤ) ∧
      ∀ a, c'.hist a = c.hist a
        + (∑ b in Finset.Ico 1 j, slotDelta buf (72 * (b : ℤ)) (c.h0 + (b : ℤ)) 0 0 0 18 a
          + ∑ b in Finset.Ico 0 j, slotDelta buf (72 * (b : ℤ)) (c.h0 + (b : ℤ)) 1 1 0 18 a))
    (fun c' _ => c'.nextUpper (addSlots2 buf c'.src c'.h0 0 1 c'.hist)) 1 width hw
    (c.nextUpper (addSlot buf c.src c.h0 1 1 0 18 c.hist))
    ⟨by simp [MergeCursor.nextUpper, hsrc], by simp [MergeCursor.nextUpper], by
      intro a
      simp only [MergeCursor.nextUpper]
      rw [addSlot_apply _ _ _ _ _ _ _ (by norm_num), hsrc]
      simp⟩
    (by
      intro j c' hj1 _ ⟨hs, hh, hI⟩
      refine ⟨by simp [MergeCursor.nextUpper, hs]; ring, by simp [MergeCursor.nextUpper, hh]; ring,
        ?_⟩
      intro a
      simp only [MergeCursor.nextUpper]
      rw [addSlots2_apply, hI a, Finset.sum_Ico_succ_top hj1,
        Finset.sum_Ico_succ_top (Nat.zero_le j), hs, hh]
      push_cast
      ring)
  obtain ⟨hs, hh, hI⟩ := hloop
  unfold mergeBottom pairSum
  rw [addSlot_apply _ _ _ _ _ _ _ (by norm_num), hI a, hs, hh,
    Finset.sum_Ico_succ_top hw]
  push_cast
  ring

/-- The interior branch: the cell row behind `h0` receives the slots 0 and 1,
the cell row behind `h1` the slots 2 and 3. -/
theorem mergeMiddle_apply (width : ℕ) (buf : Mem) (c : MergeCursor) (hw : 1 ≤ width)
    (hsrc : c.src = 0) (a : ℤ) :
    mergeMiddle width buf c a
      = c.hist a + pairSum buf width c.h0 0 1 a + pairSum buf width c.h1 2 3 a := by
  have hloop := foldl_forRange_inv
    (fun (j : ℕ) (c' : MergeCursor) => c'.src = 72 * (j : ℤ) ∧ c'.h0 = c.h0 + (j : ℤ) ∧
      c'.h1 = c.h1 + (j : ℤ) ∧
      ∀ a, c'.hist a = c.hist a
        + (∑ b in Finset.Ico 1 j, slotDelta buf (72 * (b : ℤ)) (c.h0 + (b : ℤ)) 0 0 0 18 a
          + ∑ b in Finset.Ico 0 j, slotDelta buf (72 * (b : ℤ)) (c.h0 + (b : ℤ)) 1 1 0 18 a)
        + (∑ b in Finset.Ico 1 j, slotDelta buf (72 * (b : ℤ)) (c.h1 + (b : ℤ)) 0 2 0 18 a
          + ∑ b in Finset.Ico 0 j, slotDelta buf (72 * (b : ℤ)) (c.h1 + (b : ℤ)) 1 3 0 18 a))
    (mergeMiddleCell buf) 1 width hw
    (c.next ((forRange 0 18).foldl
      (fun m (i : ℕ) => addAt (addAt m (cellAt c.h0 1 i) (buf (c.src + (i : ℤ) * 4 + 1)))
        (cellAt c.h1 1 i) (buf (c.src + (i : ℤ) * 4 + 3))) c.hist))
    ⟨by simp [MergeCursor.next, hsrc], by simp [MergeCursor.next], by simp [MergeCursor.next], by
      intro a
      simp only [MergeCursor.next]
      rw [pairFold_apply, hsrc]
      simp
      ring⟩
    (by
      intro j c' hj1 _ ⟨hs, hh0, hh1, hI⟩
      refine ⟨by simp [mergeMiddleCell, MergeCursor.next, hs]; ring,
        by simp [mergeMiddleCell, MergeCursor.next, hh0]; ring,
        by simp [mergeMiddleCell, MergeCursor.next, hh1]; ring, ?_⟩
      intro a
      rw [mergeMiddleCell_apply, hI a, Finset.sum_Ico_succ_top hj1,
        Finset.sum_Ico_succ_top (Nat.zero_le j), Finset.sum_Ico_succ_top hj1,
        Finset.sum_Ico_succ_top (Nat.zero_le j), hs, hh0, hh1]
      ring)
  obtain ⟨hs, hh0, hh1, hI⟩ := hloop
  unfold mergeMiddle pairSum
  rw [pairFold_apply, hI a, hs, hh0, hh1, Finset.sum_Ico_succ_top hw,
    Finset.sum_Ico_succ_top hw]
  ring

/-- A cell index has one decomposition into a cell row and a cell column. -/
theorem cell_decomp (R cr : ℤ) (sx : ℕ) (u cx : ℤ) (hu0 : 0 ≤ u) (hu : u < (sx : ℤ))
    (hc0 : 0 ≤ cx) (hc : cx < (sx : ℤ)) (h : R * (sx : ℤ) + u = cr * (sx : ℤ) + cx) :
    R = cr ∧ u = cx := by
  have hR : R = cr := by
    by_contra hne
    rcases lt_or_gt_of_ne hne with hlt | hgt
    · have : (cr - R) * (sx : ℤ) ≥ 1 * (sx : ℤ) :=
        mul_le_mul_of_nonneg_right (by omega) (by omega)
      nlinarith
    · have : (R - cr) * (sx : ℤ) ≥ 1 * (sx : ℤ) :=
        mul_le_mul_of_nonneg_right (by omega) (by omega)
      nlinarith
  subst hR
  exact ⟨rfl, by linarith⟩

theorem slotDelta_cell (buf : Mem) (src h kc slot cell : ℤ) (k : ℕ) (hk : k < 18) :
    slotDelta buf src h kc slot 0 18 (cell * 18 + (k : ℤ))
      = if h + kc = cell then buf (src + (k : ℤ) * 4 + slot) else 0 := by
  unfold slotDelta cellAt
  by_cases hc : h + kc = cell
  · rw [if_pos hc, if_pos (by push_cast; omega)]
    congr 2
    rw [hc]; push_cast; ring
  · rw [if_neg hc, if_neg]
    push_cast
    omega

/-- The cell `(cr, cx)` receives through a pointer that started one cell before
the cell row `R` the left slot of block `cx + 1` and the right slot of block
`cx` when `cr = R`, and nothing otherwise. -/
theorem pairSum_cell (buf : Mem) (sx : ℕ) (R sl sr cr : ℤ) (cx k : ℕ) (hcx : cx < sx)
    (hk : k < 18) :
    pairSum buf sx (R * (sx : ℤ) - 1) sl sr ((cr * (sx : ℤ) + (cx : ℤ)) * 18 + (k : ℤ))
      = if cr = R
        then buf (72 * ((cx : ℤ) + 1) + (k : ℤ) * 4 + sl) + buf (72 * (cx : ℤ) + (k : ℤ) * 4 + sr)
        else 0 := by
  unfold pairSum
  simp only [slotDelta_cell _ _ _ _ _ _ _ hk]
  have hleft : ∀ b ∈ Finset.Ico 1 (sx + 1),
      (if R * (sx : ℤ) - 1 + (b : ℤ) + 0 = cr * (sx : ℤ) + (cx : ℤ)
        then buf (72 * (b : ℤ) + (k : ℤ) * 4 + sl) else 0)
      = if b = cx + 1 then (if cr = R then buf (72 * ((cx : ℤ) + 1) + (k : ℤ) * 4 + sl) else 0)
        else 0 := by
    intro b hb
    rw [Finset.mem_Ico] at hb
    by_cases hc : R * (sx : ℤ) - 1 + (b : ℤ) + 0 = cr * (sx : ℤ) + (cx : ℤ)
    · obtain ⟨h1, h2⟩ := cell_decomp R cr sx ((b : ℤ) - 1) (cx : ℤ) (by omega) (by omega)
        (by omega) (by omega) (by linarith)
      have hb' : b = cx + 1 := by omega
      rw [if_pos hc, if_pos hb', if_pos h1.symm, hb']
      push_cast
      rfl
    · rw [if_neg hc]
      by_cases hb' : b = cx + 1
      · rw [if_pos hb', if_neg]
        intro hR
        apply hc
        rw [hb', hR]; push_cast; ring
      · rw [if_neg hb']
  have hright : ∀ b ∈ Finset.Ico 0 sx,
      (if R * (sx : ℤ) - 1 + (b : ℤ) + 1 = cr * (sx : ℤ) + (cx : ℤ)
        then buf (72 * (b : ℤ) + (k : ℤ) * 4 + sr) else 0)
      = if b = cx then (if cr = R then buf (72 * (cx : ℤ) + (k : ℤ) * 4 + sr) else 0)
        else 0 := by
    intro b hb
    rw [Finset.mem_Ico] at hb
    by_cases hc : R * (sx : ℤ) - 1 + (b : ℤ) + 1 = cr * (sx : ℤ) + (cx : ℤ)
    · obtain ⟨h1, h2⟩ := cell_decomp R cr sx (b : ℤ) (cx : ℤ) (by omega) (by omega)
        (by omega) (by omega) (by linarith)
      have hb' : b = cx := by omega
      rw [if_pos hc, if_pos hb', if_pos h1.symm, hb']
    · rw [if_neg hc]
      by_cases hb' : b = cx
      · rw [if_pos hb', if_neg]
        intro hR
        apply hc
        rw [hb', hR]; ring
      · rw [if_neg hb']
  rw [Finset.sum_congr rfl hleft, Finset.sum_congr rfl hright, Finset.sum_ite_eq',
    Finset.sum_ite_eq', if_pos (Finset.mem_Ico.mpr ⟨by omega, by omega⟩),
    if_pos (Finset.mem_Ico.mpr ⟨by omega, hcx⟩)]
  split_ifs <;> simp

/-- What `AddToHistogram(row, width, height)` does to bin `k` of the cell
`(cr, cx)` of the grid: from the upper half of the row buffer (slots 0 and 1)
when `cr = row - 1` and the call is not the top one, from the lower half
(slots 2 and 3) when `cr = row` and the call is not the bottom one; the left
slot comes from block `cx + 1`, the right slot from block `cx`. -/
theorem AddToHistogram_cell (row width height size : ℕ) (st : State) (hw : 1 ≤ width)
    (cr : ℤ) (cx k : ℕ) (hcx : cx < width) (hk : k < 18) :
    (AddToHistogram row width height size st).histogram
        ((cr * (width : ℤ) + (cx : ℤ)) * 18 + (k : ℤ))
      = st.histogram ((cr * (width : ℤ) + (cx : ℤ)) * 18 + (k : ℤ))
        + (if row ≠ 0 ∧ cr = (row : ℤ) - 1
            then st.buffer (72 * ((cx : ℤ) + 1) + (k : ℤ) * 4 + 0)
              + st.buffer (72 * (cx : ℤ) + (k : ℤ) * 4 + 1)
            else 0)
        + (if (row = 0 ∨ row ≠ height) ∧ cr = (row : ℤ)
            then st.buffer (72 * ((cx : ℤ) + 1) + (k : ℤ) * 4 + 2)
              + st.buffer (72 * (cx : ℤ) + (k : ℤ) * 4 + 3)
            else 0) := by
  have e0 : (row : ℤ) * (width : ℤ) - (width : ℤ) - 1 = ((row : ℤ) - 1) * (width : ℤ) - 1 := by
    ring
  have e1 : (row : ℤ) * (width : ℤ) - (width : ℤ) - 1 + (width : ℤ)
      = (row : ℤ) * (width : ℤ) - 1 := by ring
  have e2 : ((row : ℤ) - 1) * (width : ℤ) - 1 + (width : ℤ) = (row : ℤ) * (width : ℤ) - 1 := by
    ring
  have hU := pairSum_cell st.buffer width ((row : ℤ) - 1) 0 1 cr cx k hcx hk
  have hL := pairSum_cell st.buffer width (row : ℤ) 2 3 cr cx k hcx hk
  simp only [AddToHistogram]
  by_cases h0 : row = 0
  · rw [if_pos h0, mergeTop_apply width st.buffer _ hw rfl]
    simp only [e1, hL]
    by_cases hcU : cr = (row : ℤ) - 1 <;> by_cases hcL : cr = (row : ℤ) <;>
      simp [hcU, hcL, h0]
  · rw [if_neg h0]
    by_cases hh : row = height
    · rw [if_pos hh, mergeBottom_apply width st.buffer _ hw rfl]
      subst hh
      simp only [e0, hU]
      by_cases hcU : cr = (row : ℤ) - 1 <;> by_cases hcL : cr = (row : ℤ) <;>
        simp [hcU, hcL, h0]
    · rw [if_neg hh, mergeMiddle_apply width st.buffer _ hw rfl]
      simp only [e0, e2, hU, hL]
      by_cases hcU : cr = (row : ℤ) - 1 <;> by_cases hcL : cr = (row : ℤ) <;>
        first
          | (exfalso; omega)
          | simp [hcU, hcL, h0, hh]

/-- The form of `AddToHistogram_cell` at an arbitrary float offset `a` of the
grid: its cell row is `a / 18 / width`, its cell column `a / 18 % width` and
its bin `a % 18`. -/
theorem AddToHistogram_address (row width height size : ℕ) (st : State) (hw : 1 ≤ width)
    (a : ℤ) :
    (AddToHistogram row width height size st).histogram a
      = st.histogram a
        + (if row ≠ 0 ∧ a / 18 / (width : ℤ) = (row : ℤ) - 1
            then st.buffer (72 * (a / 18 % (width : ℤ) + 1) + a % 18 * 4 + 0)
              + st.buffer (72 * (a / 18 % (width : ℤ)) + a % 18 * 4 + 1)
            else 0)
        + (if (row = 0 ∨ row ≠ height) ∧ a / 18 / (width : ℤ) = (row : ℤ)
            then st.buffer (72 * (a / 18 % (width : ℤ) + 1) + a % 18 * 4 + 2)
              + st.buffer (72 * (a / 18 % (width : ℤ)) + a % 18 * 4 + 3)
            else 0) := by
  have hwpos : (0 : ℤ) < (width : ℤ) := by exact_mod_cast hw
  have hc0 : 0 ≤ a / 18 % (width : ℤ) := Int.emod_nonneg _ (ne_of_gt hwpos)
  have hc1 : a / 18 % (width : ℤ) < (width : ℤ) := Int.emod_lt_of_pos _ hwpos
  have hk0 : 0 ≤ a % 18 := by omega
  have hk1 : a % 18 < 18 := by omega
  have key := AddToHistogram_cell row width height size st hw (a / 18 / (width : ℤ))
    (a / 18 % (width : ℤ)).toNat (a % 18).toNat (by omega) (by omega)
  rw [Int.toNat_of_nonneg hc0, Int.toNat_of_nonneg hk0] at key
  have ha : (a / 18 / (width : ℤ) * (width : ℤ) + a / 18 % (width : ℤ)) * 18 + a % 18 = a := by
    have h1 := Int.ediv_add_emod (a / 18) (width : ℤ)
    have h2 := Int.ediv_add_emod a 18
    linear_combination 18 * h1 + h2
  rw [ha] at key
  exact key

/-- Claim C19.  For an interior merge row `r` (`0 < r < sy`), `AddToHistogram`
adds to bin `k` of the grid cell `(cr, cx)`, `cx < sx`: slot 0 of block
`cx + 1` and slot 1 of block `cx` when `cr = r - 1`, slot 2 of block `cx + 1`
and slot 3 of block `cx` when `cr = r`, and nothing to any other cell row.  So
block `b` sends slot 0 to `(r-1, b-1)`, slot 1 to `(r-1, b)`, slot 2 to
`(r, b-1)` and slot 3 to `(r, b)`, and the slots whose target column is `-1` or
`sx` are not added anywhere.  The unpack-based transpose of four bins is the
scalar four-statement loop over the same bins. -/
theorem interior_merge_slots (r sx sy size : ℕ) (st : State) (hsx : 1 ≤ sx) (hr0 : 0 < r)
    (hr : r < sy) (cr : ℤ) (cx k : ℕ) (hcx : cx < sx) (hk : k < 18) :
    (AddToHistogram r sx sy size st).histogram ((cr * (sx : ℤ) + (cx : ℤ)) * 18 + (k : ℤ))
        = st.histogram ((cr * (sx : ℤ) + (cx : ℤ)) * 18 + (k : ℤ))
          + (if cr = (r : ℤ) - 1
              then st.buffer (72 * ((cx : ℤ) + 1) + (k : ℤ) * 4 + 0)
                + st.buffer (72 * (cx : ℤ) + (k : ℤ) * 4 + 1)
              else 0)
          + (if cr = (r : ℤ)
              then st.buffer (72 * ((cx : ℤ) + 1) + (k : ℤ) * 4 + 2)
                + st.buffer (72 * (cx : ℤ) + (k : ℤ) * 4 + 3)
              else 0) ∧
      ∀ (src h0 h1 : ℤ) (hist : Mem) (i : ℕ),
        transposeStep st.buffer src h0 h1 hist i
          = addSlots4 st.buffer src h0 h1 i (i + 4) hist := by
  refine ⟨?_, fun src h0 h1 hist i => transposeStep_eq_scalar _ _ _ _ _ _⟩
  rw [AddToHistogram_cell r sx sy size st hsx cr cx k hcx hk]
  have h1 : r ≠ 0 := by omega
  have h2 : r ≠ sy := by omega
  simp only [ne_eq, h1, h2, not_false_eq_true, true_and, or_true]

/-- The statement of `interior_merge_slots` for the merge row 1 of a 3x2 grid
(`sx = 3`, `sy = 2`) at bin 5 of the cell `(0, 1)`, with the row buffer of
`rampState`. -/
theorem interior_merge_slots_witness :
    (AddToHistogram 1 3 2 288 rampState).histogram
        ((0 * ((3 : ℕ) : ℤ) + ((1 : ℕ) : ℤ)) * 18 + ((5 : ℕ) : ℤ))
        = rampState.histogram ((0 * ((3 : ℕ) : ℤ) + ((1 : ℕ) : ℤ)) * 18 + ((5 : ℕ) : ℤ))
          + (if (0 : ℤ) = ((1 : ℕ) : ℤ) - 1
              then rampState.buffer (72 * (((1 : ℕ) : ℤ) + 1) + ((5 : ℕ) : ℤ) * 4 + 0)
                + rampState.buffer (72 * ((1 : ℕ) : ℤ) + ((5 : ℕ) : ℤ) * 4 + 1)
              else 0)
          + (if (0 : ℤ) = ((1 : ℕ) : ℤ)
              then rampState.buffer (72 * (((1 : ℕ) : ℤ) + 1) + ((5 : ℕ) : ℤ) * 4 + 2)
                + rampState.buffer (72 * ((1 : ℕ) : ℤ) + ((5 : ℕ) : ℤ) * 4 + 3)
              else 0) ∧
      ∀ (src h0 h1 : ℤ) (hist : Mem) (i : ℕ),
        transposeStep rampState.buffer src h0 h1 hist i
          = addSlots4 rampState.buffer src h0 h1 i (i + 4) hist :=
  interior_merge_slots 1 3 2 288 rampState (by decide) (by decide) (by decide) 0 1 5
    (by decide) (by decide)

/-- Claim C20.  `AddToHistogram` changes only the cell rows next to the merge
row.  At the float offset `a` of the grid (cell row `a / 18 / sx`, cell column
`cx = a / 18 % sx`, bin `k = a % 18`): with merge row 0 only cell row 0
changes, by slot 2 of block `cx + 1` plus slot 3 of block `cx` (slots 0 and 1
are added nowhere); with merge row `sy` only cell row `sy - 1` changes, by slot
0 of block `cx + 1` plus slot 1 of block `cx` (slots 2 and 3 are added
nowhere); with `0 < r < sy` every offset outside the cell rows `r - 1` and `r`
keeps its value. -/
theorem merge_frame (r sx sy size : ℕ) (st : State) (hsx : 1 ≤ sx) (hsy : 0 < sy) (a : ℤ) :
    (r = 0 →
      (AddToHistogram r sx sy size st).histogram a
        = st.histogram a
          + (if a / 18 / (sx : ℤ) = 0
              then st.buffer (72 * (a / 18 % (sx : ℤ) + 1) + a % 18 * 4 + 2)
                + st.buffer (72 * (a / 18 % (sx : ℤ)) + a % 18 * 4 + 3)
              else 0)) ∧
      (r = sy →
        (AddToHistogram r sx sy size st).histogram a
          = st.histogram a
            + (if a / 18 / (sx : ℤ) = (sy : ℤ) - 1
                then st.buffer (72 * (a / 18 % (sx : ℤ) + 1) + a % 18 * 4 + 0)
                  + st.buffer (72 * (a / 18 % (sx : ℤ)) + a % 18 * 4 + 1)
                else 0)) ∧
      (0 < r → r < sy → a / 18 / (sx : ℤ) ≠ (r : ℤ) - 1 → a / 18 / (sx : ℤ) ≠ (r : ℤ) →
        (AddToHistogram r sx sy size st).histogram a = st.histogram a) := by
  have key := AddToHistogram_address r sx sy size st hsx a
  refine ⟨?_, ?_, ?_⟩
  · intro h0
    subst h0
    rw [key]
    simp
  · intro hh
    subst hh
    rw [key]
    have h1 : r ≠ 0 := by omega
    simp [h1]
  · intro h0 h1 hU hL
    rw [key, if_neg (fun h => hU h.2), if_neg (fun h => hL h.2)]
    simp

/-- The statement of `merge_frame` for a 3x2 grid at the float offset 59 (bin 5
of the cell `(1, 0)`), with the row buffer of `rampState` and merge row 2. -/
theorem merge_frame_witness :
    ((2 : ℕ) = 0 →
      (AddToHistogram 2 3 2 288 rampState).histogram 59
        = rampState.histogram 59
          + (if (59 : ℤ) / 18 / ((3 : ℕ) : ℤ) = 0
              then rampState.buffer (72 * ((59 : ℤ) / 18 % ((3 : ℕ) : ℤ) + 1) + (59 : ℤ) % 18 * 4 + 2)
                + rampState.buffer (72 * ((59 : ℤ) / 18 % ((3 : ℕ) : ℤ)) + (59 : ℤ) % 18 * 4 + 3)
              else 0)) ∧
      ((2 : ℕ) = 2 →
        (AddToHistogram 2 3 2 288 rampState).histogram 59
          = rampState.histogram 59
            + (if (59 : ℤ) / 18 / ((3 : ℕ) : ℤ) = ((2 : ℕ) : ℤ) - 1
                then rampState.buffer (72 * ((59 : ℤ) / 18 % ((3 : ℕ) : ℤ) + 1) + (59 : ℤ) % 18 * 4 + 0)
                  + rampState.buffer (72 * ((59 : ℤ) / 18 % ((3 : ℕ) : ℤ)) + (59 : ℤ) % 18 * 4 + 1)
                else 0)) ∧
      (0 < (2 : ℕ) → (2 : ℕ) < 2 → (59 : ℤ) / 18 / ((3 : ℕ) : ℤ) ≠ ((2 : ℕ) : ℤ) - 1 →
        (59 : ℤ) / 18 / ((3 : ℕ) : ℤ) ≠ ((2 : ℕ) : ℤ) →
        (AddToHistogram 2 3 2 288 rampState).histogram 59 = rampState.histogram 59) :=
  merge_frame 2 3 2 288 rampState (by decide) (by decide) 59

theorem AddToHistogram_mergeRead (row width height size : ℕ) (st : State) (hw : 1 ≤ width)
    (cr : ℤ) (cx k : ℕ) (hcx : cx < width) (hk : k < 18) :
    (AddToHistogram row width height size st).histogram
        ((cr * (width : ℤ) + (cx : ℤ)) * 18 + (k : ℤ))
      = st.histogram ((cr * (width : ℤ) + (cx : ℤ)) * 18 + (k : ℤ))
        + mergeRead st.buffer row height cr cx k := by
  rw [AddToHistogram_cell row width height size st hw cr cx k hcx hk, mergeRead, add_assoc]

theorem AddToHistogram_buffer (row width height size : ℕ) (st : State) :
    (AddToHistogram row width height size st).buffer = memsetZero size st.buffer := rfl

/-- The reads of a merge stay inside the first `72 * (sx + 1)` floats of the
row buffer. -/
theorem mergeRead_congr (b1 b2 : Mem) (sx m sy : ℕ) (cr : ℤ) (cx k : ℕ) (hcx : cx < sx)
    (hk : k < 18) (h : ∀ a : ℤ, 0 ≤ a → a < 72 * ((sx : ℤ) + 1) → b1 a = b2 a) :
    mergeRead b1 m sy cr cx k = mergeRead b2 m sy cr cx k := by
  unfold mergeRead
  rw [h (72 * ((cx : ℤ) + 1) + (k : ℤ) * 4 + 0) (by omega) (by omega),
    h (72 * (cx : ℤ) + (k : ℤ) * 4 + 1) (by omega) (by omega),
    h (72 * ((cx : ℤ) + 1) + (k : ℤ) * 4 + 2) (by omega) (by omega),
    h (72 * (cx : ℤ) + (k : ℤ) * 4 + 3) (by omega) (by omega)]

theorem mergeRead_sum (f : ℕ → Mem) (s : Finset ℕ) (m sy : ℕ) (cr : ℤ) (cx k : ℕ) :
    mergeRead (fun a => ∑ r in s, f r a) m sy cr cx k
      = ∑ r in s, mergeRead (f r) m sy cr cx k := by
  unfold mergeRead
  rw [Finset.sum_add_distrib]
  congr 1
  · split_ifs
    · rw [Finset.sum_add_distrib]
    · simp
  · split_ifs
    · rw [Finset.sum_add_distrib]
    · simp

/-- The rows `lo .. hi-1` of a valid image add their `rowDelta` to the row
buffer and leave the grid alone. -/
theorem rows_fold_state (env : FloatEnv) (src : Bytes) (stride width lo hi : ℕ) (st : State)
    (hw8 : width % 8 = 0) (hw : 16 ≤ width) (hw63 : width < 2 ^ 63) (hle : lo ≤ hi) :
    (∀ a, ((forRange lo hi).foldl
        (fun s (row : ℕ) =>
          AddRowToBuffer env src stride row width (AlignHi (width - 1) HA - HA) s) st).buffer a
        = st.buffer a + ∑ r in Finset.Ico lo hi, rowDelta env src stride width r a) ∧
      ((forRange lo hi).foldl
        (fun s (row : ℕ) =>
          AddRowToBuffer env src stride row width (AlignHi (width - 1) HA - HA) s) st).histogram
        = st.histogram := by
  apply foldl_forRange_inv
    (fun (i : ℕ) (s : State) =>
      (∀ a, s.buffer a = st.buffer a + ∑ r in Finset.Ico lo i, rowDelta env src stride width r a)
        ∧ s.histogram = st.histogram) _ lo hi hle st
  · exact ⟨by intro a; simp, rfl⟩
  · intro i s h1 h2 hI
    refine ⟨?_, hI.2⟩
    intro a
    rw [AddRowToBuffer_buffer env src stride i width s hw8 hw hw63 a, hI.1 a,
      Finset.sum_Ico_succ_top h1, add_assoc]

/-- The grid entry built by `GetHistogram` on a valid image, row by row: bin
`k` of cell `(cy, cx)` is the sum over the interior rows `r` of what the merge
number `(r + 4) / 8` reads of the addend `rowDelta r` of that row. -/
theorem GetHistogram_rows (env : FloatEnv) (src : Bytes) (stride width height : ℕ)
    (st : State) (hv : Valid stride width height)
    (hbuf : ∀ a : ℤ, 0 ≤ a → a < 72 * (((width / 8 : ℕ) : ℤ) + 1) → st.buffer a = 0)
    (cy cx k : ℕ) (hcy : cy < height / 8) (hcx : cx < width / 8) (hk : k < 18) :
    (GetHistogram env src stride width height (width / 8) (height / 8) st).histogram
        (((cy : ℤ) * ((width / 8 : ℕ) : ℤ) + (cx : ℤ)) * 18 + (k : ℤ))
      = ∑ r in Finset.Ico 1 (height - 1),
          mergeRead (rowDelta env src stride width r) ((r + 4) / 8) (height / 8)
            (cy : ℤ) cx k := by
  obtain ⟨hw8, hh8, hw, hh, hs, hw63⟩ := hv
  have hsx : 1 ≤ width / 8 := by omega
  have hsize : (((width / 8 + 1) * 4 * Q2 : ℕ) : ℤ) = 72 * (((width / 8 : ℕ) : ℤ) + 1) := by
    unfold Q2
    push_cast
    ring
  -- pending rows `lo .. hi-1` in the row buffer, rows `1 .. lo-1` in the grid
  let J : ℕ → ℕ → State → Prop := fun lo hi s =>
    (∀ a : ℤ, 0 ≤ a → a < 72 * (((width / 8 : ℕ) : ℤ) + 1) →
        s.buffer a = ∑ r in Finset.Ico lo hi, rowDelta env src stride width r a) ∧
      s.histogram (((cy : ℤ) * ((width / 8 : ℕ) : ℤ) + (cx : ℤ)) * 18 + (k : ℤ))
        = ∑ r in Finset.Ico 1 lo,
            mergeRead (rowDelta env src stride width r) ((r + 4) / 8) (height / 8)
              (cy : ℤ) cx k
  have hrow : ∀ (lo hi : ℕ) (s : State), lo ≤ hi → J lo hi s →
      J lo (hi + 1) (AddRowToBuffer env src stride hi width (AlignHi (width - 1) HA - HA) s) := by
    intro lo hi s hle ⟨hb, hh'⟩
    refine ⟨?_, hh'⟩
    intro a ha0 ha1
    rw [AddRowToBuffer_buffer env src stride hi width s hw8 hw hw63 a, hb a ha0 ha1,
      Finset.sum_Ico_succ_top hle]
  have hmerge : ∀ (lo hi m : ℕ) (s : State), 1 ≤ lo → lo ≤ hi →
      (∀ r, lo ≤ r → r < hi → (r + 4) / 8 = m) → J lo hi s →
      J hi hi (AddToHistogram m (width / 8) (height / 8) ((width / 8 + 1) * 4 * Q2) s) := by
    intro lo hi m s hlo hle hm ⟨hb, hh'⟩
    constructor
    · intro a ha0 ha1
      rw [AddToHistogram_buffer, memsetZero, if_pos ⟨ha0, by rw [hsize]; exact ha1⟩]
      simp
    · rw [AddToHistogram_mergeRead m (width / 8) (height / 8) _ s hsx (cy : ℤ) cx k hcx hk, hh',
        mergeRead_congr s.buffer
          (fun a => ∑ r in Finset.Ico lo hi, rowDelta env src stride width r a)
          (width / 8) m (height / 8) (cy : ℤ) cx k hcx hk hb,
        mergeRead_sum, ← Finset.sum_Ico_consecutive _ hlo hle]
      congr 1
      apply Finset.sum_congr rfl
      intro r hr
      rw [Finset.mem_Ico] at hr
      rw [hm r hr.1 hr.2]
  have hJ0 : J 1 1
      { st with histogram := memsetZero (18 * (width / 8) * (height / 8)) st.histogram } := by
    constructor
    · intro a ha0 ha1
      rw [hbuf a ha0 ha1]
      simp
    · have hx := cell_entry_range (width / 8) (height / 8) cx cy k hcx hcy hk
      have hA : ((cy : ℤ) * ((width / 8 : ℕ) : ℤ) + (cx : ℤ)) * 18 + (k : ℤ)
          = (((cy * (width / 8) + cx) * 18 + k : ℕ) : ℤ) := by push_cast; ring
      simp only [memsetZero]
      rw [hA, if_pos hx]
      simp
  have h1 : J 1 4 ((forRange 1 4).foldl
      (fun s (row : ℕ) => AddRowToBuffer env src stride row width
        (AlignHi (width - 1) HA - HA) s)
      { st with histogram := memsetZero (18 * (width / 8) * (height / 8)) st.histogram }) := by
    apply foldl_forRange_inv (fun (i : ℕ) (s : State) => J 1 i s) _ 1 4 (by omega) _ hJ0
    intro i s hi1 hi2 hI
    exact hrow 1 i s hi1 hI
  have h2 := hmerge 1 4 0 _ le_rfl (by omega) (by intro r hr1 hr2; omega) h1
  have h3 := foldl_forRange_inv
    (fun (i : ℕ) (p : State × ℕ) => p.2 = (i + 4) / 8 ∧ J (8 * p.2 - 4) i p.1)
    (histogramRow env src stride width (AlignHi (width - 1) HA - HA) (width / 8) (height / 8)
      ((width / 8 + 1) * 4 * Q2)) 4 (height - 4) (by omega)
    (AddToHistogram 0 (width / 8) (height / 8) ((width / 8 + 1) * 4 * Q2)
      ((forRange 1 4).foldl
        (fun s (row : ℕ) => AddRowToBuffer env src stride row width
          (AlignHi (width - 1) HA - HA) s)
        { st with histogram := memsetZero (18 * (width / 8) * (height / 8)) st.histogram }),
      1) ⟨rfl, h2⟩
    (by
      intro i p hi1 hi2 ⟨hp, hI⟩
      have hlo : 8 * p.2 - 4 ≤ i := by omega
      have hI' := hrow (8 * p.2 - 4) i p.1 hlo hI
      simp only [histogramRow, land_seven]
      by_cases h7 : i % 8 = 3
      · rw [if_pos h7]
        have hnew : 8 * (p.2 + 1) - 4 = i + 1 := by omega
        refine ⟨by show p.2 + 1 = _; omega, ?_⟩
        show J (8 * (p.2 + 1) - 4) (i + 1) _
        rw [hnew]
        exact hmerge (8 * p.2 - 4) (i + 1) p.2 _ (by omega) (by omega)
          (by intro r hr1 hr2; omega) hI'
      · rw [if_neg h7]
        exact ⟨by show p.2 = _; omega, hI'⟩)
  obtain ⟨hp, hI⟩ := h3
  have hlo : 8 * ((height - 4 + 4) / 8) - 4 = height - 4 := by omega
  rw [hp, hlo] at hI
  have h4 : J (height - 4) (height - 1) ((forRange (height - 4) (height - 1)).foldl
      (fun s (row : ℕ) => AddRowToBuffer env src stride row width
        (AlignHi (width - 1) HA - HA) s)
      ((forRange 4 (height - 4)).foldl
        (histogramRow env src stride width (AlignHi (width - 1) HA - HA) (width / 8)
          (height / 8) ((width / 8 + 1) * 4 * Q2))
        (AddToHistogram 0 (width / 8) (height / 8) ((width / 8 + 1) * 4 * Q2)
          ((forRange 1 4).foldl
            (fun s (row : ℕ) => AddRowToBuffer env src stride row width
              (AlignHi (width - 1) HA - HA) s)
            { st with histogram := memsetZero (18 * (width / 8) * (height / 8)) st.histogram }),
          1)).1) := by
    apply foldl_forRange_inv (fun (i : ℕ) (s : State) => J (height - 4) i s) _ (height - 4)
      (height - 1) (by omega) _ hI
    intro i s hi1 hi2 hI2
    exact hrow (height - 4) i s hi1 hI2
  have h5 := hmerge (height - 4) (height - 1) (height / 8) _ (by omega) (by omega)
    (by intro r hr1 hr2; omega) h4
  exact h5.2

/-- A four-lane addend for bin `bin` of block `B1`, read at slot `0 .. 3` of
bin `K` of block `B`. -/
theorem laneDelta_read (B1 bin B K : ℤ) (hb0 : 0 ≤ bin) (hb1 : bin < 18) (hK0 : 0 ≤ K)
    (hK1 : K < 18) (v : V4) :
    laneDelta (4 * (18 * B1 + bin)) v (72 * B + K * 4 + 0)
        = (if B1 = B ∧ bin = K then v 0 else 0) ∧
      laneDelta (4 * (18 * B1 + bin)) v (72 * B + K * 4 + 1)
        = (if B1 = B ∧ bin = K then v 1 else 0) ∧
      laneDelta (4 * (18 * B1 + bin)) v (72 * B + K * 4 + 2)
        = (if B1 = B ∧ bin = K then v 2 else 0) ∧
      laneDelta (4 * (18 * B1 + bin)) v (72 * B + K * 4 + 3)
        = (if B1 = B ∧ bin = K then v 3 else 0) := by
  unfold laneDelta
  by_cases h : B1 = B ∧ bin = K
  · obtain ⟨h1, h2⟩ := h
    subst h1 h2
    refine ⟨?_, ?_, ?_, ?_⟩
    · rw [if_pos (by omega), if_pos ⟨rfl, rfl⟩]
    · rw [if_neg (by omega), if_pos (by omega), if_pos ⟨rfl, rfl⟩]
    · rw [if_neg (by omega), if_neg (by omega), if_pos (by omega), if_pos ⟨rfl, rfl⟩]
    · rw [if_neg (by omega), if_neg (by omega), if_neg (by omega), if_pos (by omega),
        if_pos ⟨rfl, rfl⟩]
  · have hne : ∀ s t : ℤ, 0 ≤ s → s < 4 → 0 ≤ t → t < 4 →
        72 * B + K * 4 + s ≠ 4 * (18 * B1 + bin) + t := by
      intro s t hs0 hs1 ht0 ht1 he
      apply h
      constructor <;> omega
    refine ⟨?_, ?_, ?_, ?_⟩
    · rw [if_neg h, if_neg (by simpa using hne 0 0 (by omega) (by omega) (by omega) (by omega)),
        if_neg (hne 0 1 (by omega) (by omega) (by omega) (by omega)),
        if_neg (hne 0 2 (by omega) (by omega) (by omega) (by omega)),
        if_neg (hne 0 3 (by omega) (by omega) (by omega) (by omega))]
    · rw [if_neg h, if_neg (by simpa using hne 1 0 (by omega) (by omega) (by omega) (by omega)),
        if_neg (hne 1 1 (by omega) (by omega) (by omega) (by omega)),
        if_neg (hne 1 2 (by omega) (by omega) (by omega) (by omega)),
        if_neg (hne 1 3 (by omega) (by omega) (by omega) (by omega))]
    · rw [if_neg h, if_neg (by simpa using hne 2 0 (by omega) (by omega) (by omega) (by omega)),
        if_neg (hne 2 1 (by omega) (by omega) (by omega) (by omega)),
        if_neg (hne 2 2 (by omega) (by omega) (by omega) (by omega)),
        if_neg (hne 2 3 (by omega) (by omega) (by omega) (by omega))]
    · rw [if_neg h, if_neg (by simpa using hne 3 0 (by omega) (by omega) (by omega) (by omega)),
        if_neg (hne 3 1 (by omega) (by omega) (by omega) (by omega)),
        if_neg (hne 3 2 (by omega) (by omega) (by omega) (by omega)),
        if_neg (hne 3 3 (by omega) (by omega) (by omega) (by omega))]

/-- What a merge reads of the addend of one pixel: the magnitude times the
weight of its row for the cell row and of its column for the cell column, when
its bin is `k`. -/
theorem mergeRead_laneDelta (b1 : ℕ) (bin : ℤ) (hb0 : 0 ≤ bin) (hb1 : bin < 18) (mag : ℚ)
    (j i m sy cy cx k : ℕ) (hcy : cy < sy) (hk : k < 18) :
    mergeRead (laneDelta (4 * (18 * (b1 : ℤ) + bin)) (fun l => mag * (ky j l * kx i l)))
        m sy (cy : ℤ) cx k
      = if bin = (k : ℤ)
        then mag * ((if m = cy + 1 then k0 j else 0) + (if m = cy then k1 j else 0))
          * ((if b1 = cx + 1 then k0 i else 0) + (if b1 = cx then k1 i else 0))
        else 0 := by
  have hl := laneDelta_read (b1 : ℤ) bin ((cx : ℤ) + 1) (k : ℤ) hb0 hb1 (by omega) (by omega)
    (fun l => mag * (ky j l * kx i l))
  have hr := laneDelta_read (b1 : ℤ) bin (cx : ℤ) (k : ℤ) hb0 hb1 (by omega) (by omega)
    (fun l => mag * (ky j l * kx i l))
  have hu : (m ≠ 0 ∧ (cy : ℤ) = (m : ℤ) - 1) ↔ m = cy + 1 := by omega
  have hlo : ((m = 0 ∨ m ≠ sy) ∧ (cy : ℤ) = (m : ℤ)) ↔ m = cy := by omega
  have hbl : ((b1 : ℤ) = (cx : ℤ) + 1) ↔ b1 = cx + 1 := by omega
  have hbr : ((b1 : ℤ) = (cx : ℤ)) ↔ b1 = cx := by omega
  unfold mergeRead
  rw [hl.1, hl.2.2.1, hr.2.1, hr.2.2.2]
  simp only [hu, hlo, hbl, hbr]
  by_cases hbin : bin = (k : ℤ)
  · by_cases hm1 : m = cy + 1 <;> by_cases hm0 : m = cy <;>
      by_cases hc1 : b1 = cx + 1 <;> by_cases hc0 : b1 = cx <;>
      first
        | (exfalso; omega)
        | (simp [hbin, hm1, hm0, hc1, hc0, ky, kx]; done)
        | (simp [hbin, hm1, hm0, hc1, hc0, ky, kx]; ring)
  · simp [hbin]

theorem pixelBin_range (env : FloatEnv) (src : Bytes) (stride r c : ℕ) :
    0 ≤ pixelBin env src stride r c ∧ pixelBin env src stride r c < 18 := by
  unfold pixelBin
  obtain ⟨h0, h4⟩ := unsignedBin_range env.cos env.sin
    (gradX src ((stride : ℤ) * (r : ℤ) + (c : ℤ)))
    (gradY src stride ((stride : ℤ) * (r : ℤ) + (c : ℤ)))
  rw [signedBin, promote_cases _ _ _ h0 h4]
  split_ifs <;> omega

/-- The grid built by `GetHistogram` on a valid image, pixel by pixel: bin `k`
of the cell `(cy, cx)` is the sum, over the interior pixels whose stored bin is
`k`, of the magnitude times the weights `cellWeight` of the pixel row and of
the pixel column. -/
theorem GetHistogram_gridSum (env : FloatEnv) (src : Bytes) (stride width height : ℕ)
    (st : State) (hv : Valid stride width height)
    (hbuf : ∀ a : ℤ, 0 ≤ a → a < 72 * (((width / 8 : ℕ) : ℤ) + 1) → st.buffer a = 0)
    (cy cx k : ℕ) (hcy : cy < height / 8) (hcx : cx < width / 8) (hk : k < 18) :
    (GetHistogram env src stride width height (width / 8) (height / 8) st).histogram
        (((cy : ℤ) * ((width / 8 : ℕ) : ℤ) + (cx : ℤ)) * 18 + (k : ℤ))
      = gridSum env src stride width height cy cx k := by
  rw [GetHistogram_rows env src stride width height st hv hbuf cy cx k hcy hcx hk]
  unfold gridSum
  apply Finset.sum_congr rfl
  intro r _
  have hfun : rowDelta env src stride width r
      = fun a => ∑ c in Finset.Ico 1 (width - 1),
          laneDelta (4 * (18 * (((c + 4) / 8 : ℕ) : ℤ) + pixelBin env src stride r c))
            (fun l => pixelMag env src stride r c * (ky ((r + 4) % 8) l * kx ((c + 4) % 8) l))
            a := by
    funext a
    rfl
  rw [hfun, mergeRead_sum]
  apply Finset.sum_congr rfl
  intro c _
  obtain ⟨h0, h1⟩ := pixelBin_range env src stride r c
  rw [mergeRead_laneDelta ((c + 4) / 8) _ h0 h1 _ _ _ _ (height / 8) cy cx k hcy hk]
  rfl

/-- The grid that `Run` normalises on a valid image is `gridSum`. -/
theorem runState_gridSum (env : FloatEnv) (src : Bytes) (stride width height : ℕ)
    (g : State) (hv : Valid stride width height)
    (cy cx k : ℕ) (hcy : cy < height / 8) (hcx : cx < width / 8) (hk : k < 18) :
    (runState env src stride width height g).histogram
        (((cy : ℤ) * ((width / 8 : ℕ) : ℤ) + (cx : ℤ)) * 18 + (k : ℤ))
      = gridSum env src stride width height cy cx k := by
  rw [runState_histogram]
  apply GetHistogram_gridSum env src stride width height _ hv _ cy cx k hcy hcx hk
  intro a ha0 ha1
  have hsize : (((width / C + 1) * 4 * Q2 : ℕ) : ℤ) = 72 * (((width / 8 : ℕ) : ℤ) + 1) := by
    unfold Q2 C
    push_cast
    ring
  show resize ((width / C + 1) * 4 * Q2) g.buffer a = 0
  unfold resize
  rw [if_pos ⟨ha0, by rw [hsize]; exact ha1⟩]

theorem k0_eq (i : ℕ) : k0 i = (15 - 2 * (i : ℚ)) / 16 := by
  unfold k0; push_cast; ring

theorem k1_eq (i : ℕ) : k1 i = (1 + 2 * (i : ℚ)) / 16 := by
  unfold k1; rw [k0_eq]; ring

/-- The weight realised by the kernels and the block layout is the bilinear
weight of the specification. -/
theorem cellWeight_eq_specWeight (p cell : ℕ) : cellWeight p cell = specWeight p cell := by
  unfold cellWeight specWeight
  have hq : (p + 4) % 8 < 8 := Nat.mod_lt _ (by norm_num)
  have hq' : (((p + 4) % 8 : ℕ) : ℚ) ≤ 7 := by
    have : (p + 4) % 8 ≤ 7 := by omega
    exact_mod_cast this
  have hq0 : (0 : ℚ) ≤ (((p + 4) % 8 : ℕ) : ℚ) := Nat.cast_nonneg _
  rw [k0_eq, k1_eq]
  by_cases h1 : (p + 4) / 8 = cell + 1
  · have hne : ¬ (p + 4) / 8 = cell := by omega
    have hp : p = 8 * cell + 4 + (p + 4) % 8 := by omega
    have hpq : (p : ℚ) = 8 * (cell : ℚ) + 4 + (((p + 4) % 8 : ℕ) : ℚ) := by
      exact_mod_cast hp
    rw [if_pos h1, if_neg hne, add_zero]
    have habs : |2 * (p : ℚ) - 16 * (cell : ℚ) - 7| = 2 * (((p + 4) % 8 : ℕ) : ℚ) + 1 := by
      rw [abs_of_nonneg (by rw [hpq]; linarith)]
      rw [hpq]; ring
    rw [habs, max_eq_right (by linarith)]
    ring
  · by_cases h0 : (p + 4) / 8 = cell
    · have hp : p + 4 = 8 * cell + (p + 4) % 8 := by omega
      have hpq : (p : ℚ) + 4 = 8 * (cell : ℚ) + (((p + 4) % 8 : ℕ) : ℚ) := by
        exact_mod_cast hp
      rw [if_neg h1, if_pos h0, zero_add]
      have habs : |2 * (p : ℚ) - 16 * (cell : ℚ) - 7| = 15 - 2 * (((p + 4) % 8 : ℕ) : ℚ) := by
        rw [abs_of_nonpos (by linarith)]
        linarith
      rw [habs, max_eq_right (by linarith)]
      ring
    · rw [if_neg h1, if_neg h0, zero_add]
      symm
      apply max_eq_left
      rcases Nat.lt_or_ge ((p + 4) / 8) cell with hlt | hge
      · have hp : p + 5 ≤ 8 * cell := by omega
        have hpq : (p : ℚ) + 5 ≤ 8 * (cell : ℚ) := by exact_mod_cast hp
        rw [abs_of_nonpos (by linarith)]
        linarith
      · have hp : 8 * cell + 12 ≤ p := by omega
        have hpq : 8 * (cell : ℚ) + 12 ≤ (p : ℚ) := by exact_mod_cast hp
        rw [abs_of_nonneg (by linarith)]
        linarith

theorem gridSum_eq_specGrid (env : FloatEnv) (src : Bytes) (stride width height cy cx k : ℕ) :
    gridSum env src stride width height cy cx k
      = specGrid env src stride width height cy cx k := by
  unfold gridSum specGrid
  simp only [cellWeight_eq_specWeight]

/-- Claim C14.  For every valid image, every cell `(cy, cx)` of the grid and
every bin `k`, the entry of the grid that the streaming code (`GetHistogram`
inside `Run`, with its three-row windows and merges) leaves at
`(cy*sx + cx)*18 + k` equals the fully-buffered definition `specGrid`: the sum
over the interior pixels with signed bin `k` of `mag * wy(r,cy) * wx(c,cx)`
with `w(p, cell) = max(0, 1 - |2p - 16 cell - 7| / 16)`; additions are exact. -/
theorem streaming_equals_buffered (env : FloatEnv) (src : Bytes) (stride width height : ℕ)
    (g : State) (hv : Valid stride width height)
    (cy cx k : ℕ) (hcy : cy < height / 8) (hcx : cx < width / 8) (hk : k < 18) :
    (runState env src stride width height g).histogram
        (((cy : ℤ) * ((width / 8 : ℕ) : ℤ) + (cx : ℤ)) * 18 + (k : ℤ))
      = specGrid env src stride width height cy cx k := by
  rw [runState_gridSum env src stride width height g hv cy cx k hcy hcx hk,
    gridSum_eq_specGrid]

/-- The statement of `streaming_equals_buffered` for the 16x16 step-edge image
at bin 0 of the cell `(1, 1)`. -/
theorem streaming_equals_buffered_witness :
    (runState floatEnv stepImage 16 16 16 zeroState).histogram
        ((((1 : ℕ) : ℤ) * ((16 / 8 : ℕ) : ℤ) + ((1 : ℕ) : ℤ)) * 18 + ((0 : ℕ) : ℤ))
      = specGrid floatEnv stepImage 16 16 16 1 1 0 :=
  streaming_equals_buffered floatEnv stepImage 16 16 16 zeroState (by decide) 1 1 0
    (by decide) (by decide) (by decide)

theorem k0_pos (i : ℕ) (hi : i < 8) : 0 < k0 i := by
  rw [k0_eq]
  have : (i : ℚ) ≤ 7 := by
    have : i ≤ 7 := by omega
    exact_mod_cast this
  linarith

theorem k1_pos (i : ℕ) : 0 < k1 i := by
  rw [k1_eq]
  have : (0 : ℚ) ≤ (i : ℚ) := Nat.cast_nonneg _
  linarith

/-- A pixel coordinate reaches exactly the cell before its block and the cell
of its block with a non-zero weight. -/
theorem cellWeight_ne_zero (p cell : ℕ) :
    cellWeight p cell ≠ 0 ↔ ((p + 4) / 8 = cell + 1 ∨ (p + 4) / 8 = cell) := by
  unfold cellWeight
  have hq : (p + 4) % 8 < 8 := Nat.mod_lt _ (by norm_num)
  have h0 := k0_pos ((p + 4) % 8) hq
  have h1 := k1_pos ((p + 4) % 8)
  by_cases ha : (p + 4) / 8 = cell + 1
  · have hb : ¬ (p + 4) / 8 = cell := by omega
    rw [if_pos ha, if_neg hb, add_zero]
    exact ⟨fun _ => Or.inl ha, fun _ => ne_of_gt h0⟩
  · by_cases hb : (p + 4) / 8 = cell
    · rw [if_neg ha, if_pos hb, zero_add]
      exact ⟨fun _ => Or.inr hb, fun _ => ne_of_gt h1⟩
    · rw [if_neg ha, if_neg hb, add_zero]
      constructor
      · intro h; exact absurd rfl h
      · rintro (h | h)
        · exact absurd h ha
        · exact absurd h hb

theorem cellWeight_first (p : ℕ) (hp : p < 4) : cellWeight p 0 = (2 * (p : ℚ) + 9) / 16 := by
  unfold cellWeight
  have h1 : (p + 4) / 8 = 0 := by omega
  have h2 : (p + 4) % 8 = p + 4 := by omega
  rw [if_neg (by omega), if_pos h1, h2, k1_eq]
  push_cast
  ring

theorem cellWeight_last (n p : ℕ) (h1 : 8 * n ≤ p + 4) (h2 : p + 1 ≤ 8 * n) (hn : 1 ≤ n) :
    cellWeight p (n - 1) = (2 * ((8 * n - 1 - p : ℕ) : ℚ) + 9) / 16 := by
  unfold cellWeight
  have hd : (p + 4) / 8 = n - 1 + 1 := by omega
  have hm : (p + 4) % 8 = p + 4 - 8 * n := by omega
  rw [if_pos hd, if_neg (by omega), hm, k0_eq, add_zero]
  have e1 : ((p + 4 - 8 * n : ℕ) : ℚ) = (p : ℚ) + 4 - 8 * (n : ℚ) := by
    rw [Nat.cast_sub h1]; push_cast; ring
  have e2 : ((8 * n - 1 - p : ℕ) : ℚ) = 8 * (n : ℚ) - 1 - (p : ℚ) := by
    rw [Nat.cast_sub (by omega), Nat.cast_sub (by omega)]; push_cast; ring
  rw [e1, e2]
  ring

/-- Claim C15.  On a valid image the pixel `(r, c)` with stored bin `k` enters
bin `k` of the cell `(cy, cx)` of the final grid with the factor
`cellWeight r cy * cellWeight c cx`.  Along a dimension of `n` cells (`8 n`
pixels): a coordinate `p` in `1..3` has a non-zero weight only for cell 0, and
that weight is `(2p + 9)/16` (the share of the cell before block 0 is
dropped); a coordinate in `8n-4 .. 8n-2` has a non-zero weight only for cell
`n - 1`; every other interior coordinate `4 .. 8n-5` has a non-zero weight for
exactly the two cells `(p + 4)/8 - 1` and `(p + 4)/8`, both inside the grid.
The same function weighs columns against cell columns and rows against cell
rows. -/
theorem border_neighbour_sets (env : FloatEnv) (src : Bytes) (stride width height : ℕ)
    (g : State) (hv : Valid stride width height) :
    (∀ cy cx k : ℕ, cy < height / 8 → cx < width / 8 → k < 18 →
      (runState env src stride width height g).histogram
          (((cy : ℤ) * ((width / 8 : ℕ) : ℤ) + (cx : ℤ)) * 18 + (k : ℤ))
        = ∑ r in Finset.Ico 1 (height - 1), ∑ c in Finset.Ico 1 (width - 1),
            if pixelBin env src stride r c = (k : ℤ)
            then pixelMag env src stride r c * cellWeight r cy * cellWeight c cx else 0) ∧
      (∀ n p cell : ℕ, 2 ≤ n → cell < n →
        (1 ≤ p → p ≤ 3 →
          (cellWeight p cell ≠ 0 ↔ cell = 0) ∧ cellWeight p 0 = (2 * (p : ℚ) + 9) / 16) ∧
        (8 * n - 4 ≤ p → p ≤ 8 * n - 2 → (cellWeight p cell ≠ 0 ↔ cell = n - 1)) ∧
        (4 ≤ p → p ≤ 8 * n - 5 →
          (cellWeight p cell ≠ 0 ↔ (cell = (p + 4) / 8 - 1 ∨ cell = (p + 4) / 8)) ∧
            1 ≤ (p + 4) / 8 ∧ (p + 4) / 8 < n)) := by
  constructor
  · intro cy cx k hcy hcx hk
    exact runState_gridSum env src stride width height g hv cy cx k hcy hcx hk
  · intro n p cell hn hcell
    refine ⟨?_, ?_, ?_⟩
    · intro h1 h3
      refine ⟨?_, cellWeight_first p (by omega)⟩
      rw [cellWeight_ne_zero]
      omega
    · intro h1 h2
      rw [cellWeight_ne_zero]
      omega
    · intro h1 h2
      refine ⟨?_, by omega, by omega⟩
      rw [cellWeight_ne_zero]
      omega

/-- The statement of `border_neighbour_sets` for the 16x16 step-edge image. -/
theorem border_neighbour_sets_witness :
    (∀ cy cx k : ℕ, cy < 16 / 8 → cx < 16 / 8 → k < 18 →
      (runState floatEnv stepImage 16 16 16 zeroState).histogram
          (((cy : ℤ) * ((16 / 8 : ℕ) : ℤ) + (cx : ℤ)) * 18 + (k : ℤ))
        = ∑ r in Finset.Ico 1 (16 - 1), ∑ c in Finset.Ico 1 (16 - 1),
            if pixelBin floatEnv stepImage 16 r c = (k : ℤ)
            then pixelMag floatEnv stepImage 16 r c * cellWeight r cy * cellWeight c cx
            else 0) ∧
      (∀ n p cell : ℕ, 2 ≤ n → cell < n →
        (1 ≤ p → p ≤ 3 →
          (cellWeight p cell ≠ 0 ↔ cell = 0) ∧ cellWeight p 0 = (2 * (p : ℚ) + 9) / 16) ∧
        (8 * n - 4 ≤ p → p ≤ 8 * n - 2 → (cellWeight p cell ≠ 0 ↔ cell = n - 1)) ∧
        (4 ≤ p → p ≤ 8 * n - 5 →
          (cellWeight p cell ≠ 0 ↔ (cell = (p + 4) / 8 - 1 ∨ cell = (p + 4) / 8)) ∧
            1 ≤ (p + 4) / 8 ∧ (p + 4) / 8 < n)) :=
  border_neighbour_sets floatEnv stepImage 16 16 16 zeroState (by decide)

/-- The weights of an interior coordinate over the cells of the grid add up to
`keptWeight`. -/
theorem sum_cellWeight (n p : ℕ) (hn : 2 ≤ n) (hp1 : 1 ≤ p) (hp2 : p ≤ 8 * n - 2) :
    ∑ cell in Finset.range n, cellWeight p cell = keptWeight n p := by
  have hA : ∀ cell : ℕ,
      cellWeight p cell
        = (if cell = (p + 4) / 8 - 1 then (if 1 ≤ (p + 4) / 8 then k0 ((p + 4) % 8) else 0)
            else 0)
          + (if cell = (p + 4) / 8 then k1 ((p + 4) % 8) else 0) := by
    intro cell
    unfold cellWeight
    congr 1
    · by_cases h : (p + 4) / 8 = cell + 1
      · rw [if_pos h, if_pos (by omega), if_pos (by omega)]
      · rw [if_neg h]
        by_cases h2 : cell = (p + 4) / 8 - 1
        · rw [if_pos h2, if_neg (by omega)]
        · rw [if_neg h2]
    · by_cases h : (p + 4) / 8 = cell
      · rw [if_pos h, if_pos h.symm]
      · rw [if_neg h, if_neg (fun h2 => h h2.symm)]
  simp only [hA]
  rw [Finset.sum_add_distrib, Finset.sum_ite_eq', Finset.sum_ite_eq']
  simp only [Finset.mem_range]
  unfold keptWeight
  by_cases h4 : p < 4
  · have hd : (p + 4) / 8 = 0 := by omega
    have hm : (p + 4) % 8 = p + 4 := by omega
    rw [if_pos h4, hd, hm, if_pos (by omega), if_neg (by omega), if_pos (by omega), k1_eq]
    push_cast
    ring
  · rw [if_neg h4]
    by_cases hl : 8 * n - 4 ≤ p
    · have hd : (p + 4) / 8 = n := by omega
      have hm : (p + 4) % 8 = p + 4 - 8 * n := by omega
      rw [if_pos hl, hd, hm, if_pos (by omega), if_pos (by omega), if_neg (by omega), k0_eq,
        add_zero]
      have e1 : ((p + 4 - 8 * n : ℕ) : ℚ) = (p : ℚ) + 4 - 8 * (n : ℚ) := by
        rw [Nat.cast_sub (by omega)]; push_cast; ring
      have e2 : ((8 * n - 1 - p : ℕ) : ℚ) = 8 * (n : ℚ) - 1 - (p : ℚ) := by
        rw [Nat.cast_sub (by omega), Nat.cast_sub (by omega)]; push_cast; ring
      rw [e1, e2]
      ring
    · rw [if_neg hl, if_pos (by omega), if_pos (by omega), if_pos (by omega)]
      unfold k1
      ring

/-- The 18 bins of a cell together hold every interior pixel once. -/
theorem gridSum_bins (env : FloatEnv) (src : Bytes) (stride width height cy cx : ℕ) :
    ∑ k in Finset.range 18, gridSum env src stride width height cy cx k
      = ∑ r in Finset.Ico 1 (height - 1), ∑ c in Finset.Ico 1 (width - 1),
          pixelMag env src stride r c * cellWeight r cy * cellWeight c cx := by
  unfold gridSum
  rw [Finset.sum_comm]
  apply Finset.sum_congr rfl
  intro r _
  rw [Finset.sum_comm]
  apply Finset.sum_congr rfl
  intro c _
  obtain ⟨h0, h1⟩ := pixelBin_range env src stride r c
  have hc : ∀ k : ℕ, (pixelBin env src stride r c = (k : ℤ))
      ↔ (pixelBin env src stride r c).toNat = k := by
    intro k
    omega
  simp only [hc]
  rw [Finset.sum_ite_eq, if_pos (Finset.mem_range.mpr (by omega))]

/-- The sum of the grid over all cells and bins: every interior pixel counts
with the part of its magnitude that its row and its column keep. -/
theorem gridSum_total (env : FloatEnv) (src : Bytes) (stride width height : ℕ)
    (hw8 : width % 8 = 0) (hh8 : height % 8 = 0) (hw : 16 ≤ width) (hh : 16 ≤ height) :
    ∑ cy in Finset.range (height / 8), ∑ cx in Finset.range (width / 8),
        ∑ k in Finset.range 18, gridSum env src stride width height cy cx k
      = ∑ r in Finset.Ico 1 (height - 1), ∑ c in Finset.Ico 1 (width - 1),
          pixelMag env src stride r c * keptWeight (height / 8) r * keptWeight (width / 8) c := by
  simp only [gridSum_bins]
  have hx : ∀ cy : ℕ,
      ∑ cx in Finset.range (width / 8), ∑ r in Finset.Ico 1 (height - 1),
          ∑ c in Finset.Ico 1 (width - 1),
            pixelMag env src stride r c * cellWeight r cy * cellWeight c cx
        = ∑ r in Finset.Ico 1 (height - 1), ∑ c in Finset.Ico 1 (width - 1),
            pixelMag env src stride r c * cellWeight r cy * keptWeight (width / 8) c := by
    intro cy
    rw [Finset.sum_comm]
    apply Finset.sum_congr rfl
    intro r _
    rw [Finset.sum_comm]
    apply Finset.sum_congr rfl
    intro c hc
    rw [Finset.mem_Ico] at hc
    rw [← Finset.mul_sum, sum_cellWeight (width / 8) c (by omega) hc.1 (by omega)]
  simp only [hx]
  rw [Finset.sum_comm]
  apply Finset.sum_congr rfl
  intro r hr
  rw [Finset.mem_Ico] at hr
  rw [Finset.sum_comm]
  apply Finset.sum_congr rfl
  intro c _
  have e : ∀ cy : ℕ, pixelMag env src stride r c * cellWeight r cy * keptWeight (width / 8) c
      = (pixelMag env src stride r c * keptWeight (width / 8) c) * cellWeight r cy := by
    intro cy; ring
  simp only [e]
  rw [← Finset.mul_sum, sum_cellWeight (height / 8) r (by omega) hr.1 (by omega)]
  ring

/-- Claim C13, amended.  For every valid image the sum over all cells and all
18 bins of the grid built by `GetHistogram` equals the sum over the interior
pixels `(r, c)` of `sqrt(dx^2 + dy^2) * keptWeight r * keptWeight c`, where a
coordinate keeps everything at distance 4 or more from the border and only
`(2d + 9)/16` at distance `d = 1, 2, 3` (the share of the cells outside the
grid is dropped); additions are exact. -/
theorem grid_mass_kept (env : FloatEnv) (src : Bytes) (stride width height : ℕ)
    (g : State) (hv : Valid stride width height) :
    ∑ cy in Finset.range (height / 8), ∑ cx in Finset.range (width / 8),
        ∑ k in Finset.range 18,
          (runState env src stride width height g).histogram
            (((cy : ℤ) * ((width / 8 : ℕ) : ℤ) + (cx : ℤ)) * 18 + (k : ℤ))
      = ∑ r in Finset.Ico 1 (height - 1), ∑ c in Finset.Ico 1 (width - 1),
          env.sqrtPs
              (|gradX src ((stride : ℤ) * (r : ℤ) + (c : ℤ))|
                  * |gradX src ((stride : ℤ) * (r : ℤ) + (c : ℤ))|
                + |gradY src stride ((stride : ℤ) * (r : ℤ) + (c : ℤ))|
                  * |gradY src stride ((stride : ℤ) * (r : ℤ) + (c : ℤ))|)
            * keptWeight (height / 8) r * keptWeight (width / 8) c := by
  have hg : ∀ cy ∈ Finset.range (height / 8), ∀ cx ∈ Finset.range (width / 8),
      ∀ k ∈ Finset.range 18,
        (runState env src stride width height g).histogram
            (((cy : ℤ) * ((width / 8 : ℕ) : ℤ) + (cx : ℤ)) * 18 + (k : ℤ))
          = gridSum env src stride width height cy cx k := by
    intro cy hcy cx hcx k hk
    exact runState_gridSum env src stride width height g hv cy cx k
      (Finset.mem_range.mp hcy) (Finset.mem_range.mp hcx) (Finset.mem_range.mp hk)
  rw [Finset.sum_congr rfl (fun cy hcy => Finset.sum_congr rfl (fun cx hcx =>
    Finset.sum_congr rfl (fun k hk => hg cy hcy cx hcx k hk)))]
  obtain ⟨hw8, hh8, hw, hh, _, _⟩ := hv
  rw [gridSum_total env src stride width height hw8 hh8 hw hh]
  rfl

/-- The statement of `grid_mass_kept` for the 16x16 step-edge image. -/
theorem grid_mass_kept_witness :
    ∑ cy in Finset.range (16 / 8), ∑ cx in Finset.range (16 / 8),
        ∑ k in Finset.range 18,
          (runState floatEnv stepImage 16 16 16 zeroState).histogram
            (((cy : ℤ) * ((16 / 8 : ℕ) : ℤ) + (cx : ℤ)) * 18 + (k : ℤ))
      = ∑ r in (Finset.Ico 1 (16 - 1) : Finset ℕ), ∑ c in (Finset.Ico 1 (16 - 1) : Finset ℕ),
          floatEnv.sqrtPs
              (|gradX stepImage (((16 : ℕ) : ℤ) * (r : ℤ) + (c : ℤ))|
                  * |gradX stepImage (((16 : ℕ) : ℤ) * (r : ℤ) + (c : ℤ))|
                + |gradY stepImage 16 (((16 : ℕ) : ℤ) * (r : ℤ) + (c : ℤ))|
                  * |gradY stepImage 16 (((16 : ℕ) : ℤ) * (r : ℤ) + (c : ℤ))|)
            * keptWeight (16 / 8) r * keptWeight (16 / 8) c :=
  grid_mass_kept floatEnv stepImage 16 16 16 zeroState (by decide)

set_option maxRecDepth 1000000 in
set_option maxHeartbeats 1000000 in
/-- Claim C13 as stated fails: for the valid 16x16 step-edge image the grid
sums to `6566.25` over all cells and bins, while the magnitudes of the interior
pixels sum to `7140` (28 pixels of magnitude 255 in columns 7 and 8); the rows
1..3 and 12..14 keep only 11/16, 13/16 and 15/16 of their magnitude. -/
theorem grid_mass_below_magnitudes :
    Valid 16 16 16 ∧
      ∑ cy in Finset.range (16 / 8), ∑ cx in Finset.range (16 / 8), ∑ k in Finset.range 18,
          (runState floatEnv stepImage 16 16 16 zeroState).histogram
            (((cy : ℤ) * ((16 / 8 : ℕ) : ℤ) + (cx : ℤ)) * 18 + (k : ℤ)) = 26265 / 4 ∧
      ∑ r in (Finset.Ico 1 (16 - 1) : Finset ℕ), ∑ c in (Finset.Ico 1 (16 - 1) : Finset ℕ),
          floatEnv.sqrtPs
            (|gradX stepImage (((16 : ℕ) : ℤ) * (r : ℤ) + (c : ℤ))|
                * |gradX stepImage (((16 : ℕ) : ℤ) * (r : ℤ) + (c : ℤ))|
              + |gradY stepImage 16 (((16 : ℕ) : ℤ) * (r : ℤ) + (c : ℤ))|
                * |gradY stepImage 16 (((16 : ℕ) : ℤ) * (r : ℤ) + (c : ℤ))|) = 7140 ∧
      ¬ (∑ cy in Finset.range (16 / 8), ∑ cx in Finset.range (16 / 8),
            ∑ k in Finset.range 18,
              (runState floatEnv stepImage 16 16 16 zeroState).histogram
                (((cy : ℤ) * ((16 / 8 : ℕ) : ℤ) + (cx : ℤ)) * 18 + (k : ℤ))
          = ∑ r in (Finset.Ico 1 (16 - 1) : Finset ℕ), ∑ c in (Finset.Ico 1 (16 - 1) : Finset ℕ),
              floatEnv.sqrtPs
                (|gradX stepImage (((16 : ℕ) : ℤ) * (r : ℤ) + (c : ℤ))|
                    * |gradX stepImage (((16 : ℕ) : ℤ) * (r : ℤ) + (c : ℤ))|
                  + |gradY stepImage 16 (((16 : ℕ) : ℤ) * (r : ℤ) + (c : ℤ))|
                    * |gradY stepImage 16 (((16 : ℕ) : ℤ) * (r : ℤ) + (c : ℤ))|)) := by
  have h1 : ∑ cy in Finset.range (16 / 8), ∑ cx in Finset.range (16 / 8),
      ∑ k in Finset.range 18,
        (runState floatEnv stepImage 16 16 16 zeroState).histogram
          (((cy : ℤ) * ((16 / 8 : ℕ) : ℤ) + (cx : ℤ)) * 18 + (k : ℤ)) = 26265 / 4 := by
    decide!
  have h2 : ∑ r in (Finset.Ico 1 (16 - 1) : Finset ℕ), ∑ c in (Finset.Ico 1 (16 - 1) : Finset ℕ),
      floatEnv.sqrtPs
        (|gradX stepImage (((16 : ℕ) : ℤ) * (r : ℤ) + (c : ℤ))|
            * |gradX stepImage (((16 : ℕ) : ℤ) * (r : ℤ) + (c : ℤ))|
          + |gradY stepImage 16 (((16 : ℕ) : ℤ) * (r : ℤ) + (c : ℤ))|
            * |gradY stepImage 16 (((16 : ℕ) : ℤ) * (r : ℤ) + (c : ℤ))|) = 7140 := by
    decide!
  refine ⟨by decide, ?_, ?_, ?_⟩
  · exact h1
  · exact h2
  · rw [h1, h2]
    norm_num

/-- With `_cos[0]` the largest entry of `_cos`, a gradient with `dy = 0` gets
the stored bin 0 when `dx ≥ 0` and 9 when `dx < 0`. -/
theorem signedBin_horizontal (env : FloatEnv) (hcos : ∀ i < 5, env.cos i ≤ env.cos 0)
    (dx : ℚ) :
    (0 ≤ dx → signedBin env.cos env.sin dx 0 = 0) ∧
      (dx < 0 → signedBin env.cos env.sin dx 0 = 9) := by
  have hb : unsignedBin env.cos env.sin dx 0 = 0 := unsignedBin_horizontal _ _ _ hcos
  constructor
  · intro h
    rw [signedBin, hb, promote_cases _ _ _ (by norm_num) (by norm_num)]
    simp [not_lt.mpr h]
  · intro h
    rw [signedBin, hb, promote_cases _ _ _ (by norm_num) (by norm_num)]
    simp [h]

/-- Claim C17.  For a valid image whose pixel at `(r, c)` is `col c` whatever
the row, and a table `_cos` whose entry 0 is the largest (as for
`cos(i*pi/9)`): at every interior pixel `dy = 0` and the stored bin is 0 when
`dx ≥ 0` and 9 when `dx < 0`; and every cell of the grid holds exactly 0 in
each of the 16 bins other than 0 and 9. -/
theorem identical_rows_bins (env : FloatEnv) (hcos : ∀ i < 5, env.cos i ≤ env.cos 0)
    (src : Bytes) (stride width height : ℕ) (g : State) (hv : Valid stride width height)
    (col : ℕ → Fin 256)
    (hrows : ∀ r c : ℕ, r < height → c < width →
      src ((stride : ℤ) * (r : ℤ) + (c : ℤ)) = col c) :
    (∀ r c : ℕ, 1 ≤ r → r + 2 ≤ height → 1 ≤ c → c + 2 ≤ width →
        gradY src stride ((stride : ℤ) * (r : ℤ) + (c : ℤ)) = 0 ∧
        (0 ≤ gradX src ((stride : ℤ) * (r : ℤ) + (c : ℤ)) → pixelBin env src stride r c = 0) ∧
        (gradX src ((stride : ℤ) * (r : ℤ) + (c : ℤ)) < 0 → pixelBin env src stride r c = 9)) ∧
      (∀ cy cx k : ℕ, cy < height / 8 → cx < width / 8 → k < 18 → k ≠ 0 → k ≠ 9 →
        (runState env src stride width height g).histogram
          (((cy : ℤ) * ((width / 8 : ℕ) : ℤ) + (cx : ℤ)) * 18 + (k : ℤ)) = 0) := by
  have hpix : ∀ r c : ℕ, 1 ≤ r → r + 2 ≤ height → 1 ≤ c → c + 2 ≤ width →
      gradY src stride ((stride : ℤ) * (r : ℤ) + (c : ℤ)) = 0 ∧
      (0 ≤ gradX src ((stride : ℤ) * (r : ℤ) + (c : ℤ)) → pixelBin env src stride r c = 0) ∧
      (gradX src ((stride : ℤ) * (r : ℤ) + (c : ℤ)) < 0 → pixelBin env src stride r c = 9) := by
    intro r c hr1 hr2 hc1 hc2
    have hy : gradY src stride ((stride : ℤ) * (r : ℤ) + (c : ℤ)) = 0 := by
      unfold gradY
      have e1 : (stride : ℤ) * (r : ℤ) + (c : ℤ) + (stride : ℤ)
          = (stride : ℤ) * ((r + 1 : ℕ) : ℤ) + (c : ℤ) := by push_cast; ring
      have e2 : (stride : ℤ) * (r : ℤ) + (c : ℤ) - (stride : ℤ)
          = (stride : ℤ) * ((r - 1 : ℕ) : ℤ) + (c : ℤ) := by
        rw [Nat.cast_sub hr1]; push_cast; ring
      rw [e1, e2, hrows (r + 1) c (by omega) (by omega), hrows (r - 1) c (by omega) (by omega)]
      simp
    have hs := signedBin_horizontal env hcos (gradX src ((stride : ℤ) * (r : ℤ) + (c : ℤ)))
    refine ⟨hy, ?_, ?_⟩
    · intro h
      unfold pixelBin
      rw [hy]
      exact hs.1 h
    · intro h
      unfold pixelBin
      rw [hy]
      exact hs.2 h
  refine ⟨hpix, ?_⟩
  intro cy cx k hcy hcx hk hk0 hk9
  rw [runState_gridSum env src stride width height g hv cy cx k hcy hcx hk]
  unfold gridSum
  apply Finset.sum_eq_zero
  intro r hr
  apply Finset.sum_eq_zero
  intro c hc
  rw [Finset.mem_Ico] at hr hc
  obtain ⟨hw8, hh8, hw, hh, _, _⟩ := hv
  obtain ⟨_, hp0, hp9⟩ := hpix r c hr.1 (by omega) hc.1 (by omega)
  rw [if_neg]
  intro hbin
  rcases le_or_lt 0 (gradX src ((stride : ℤ) * (r : ℤ) + (c : ℤ))) with h | h
  · rw [hp0 h] at hbin
    omega
  · rw [hp9 h] at hbin
    omega

theorem stepImage_rows (r c : ℕ) (hc : c < 16) :
    stepImage (((16 : ℕ) : ℤ) * (r : ℤ) + (c : ℤ)) = if 8 ≤ c then 255 else 0 := by
  unfold stepImage
  have h : (((16 : ℕ) : ℤ) * (r : ℤ) + (c : ℤ)) % 16 = (c : ℤ) := by
    push_cast
    omega
  rw [h]
  by_cases h8 : 8 ≤ c
  · rw [if_pos (by exact_mod_cast h8), if_pos h8]
  · rw [if_neg (by intro h'; exact h8 (by exact_mod_cast h')), if_neg h8]

/-- The statement of `identical_rows_bins` for the 16x16 step-edge image and
the `float` tables. -/
theorem identical_rows_bins_witness :
    (∀ r c : ℕ, 1 ≤ r → r + 2 ≤ 16 → 1 ≤ c → c + 2 ≤ 16 →
        gradY stepImage 16 (((16 : ℕ) : ℤ) * (r : ℤ) + (c : ℤ)) = 0 ∧
        (0 ≤ gradX stepImage (((16 : ℕ) : ℤ) * (r : ℤ) + (c : ℤ)) →
          pixelBin floatEnv stepImage 16 r c = 0) ∧
        (gradX stepImage (((16 : ℕ) : ℤ) * (r : ℤ) + (c : ℤ)) < 0 →
          pixelBin floatEnv stepImage 16 r c = 9)) ∧
      (∀ cy cx k : ℕ, cy < 16 / 8 → cx < 16 / 8 → k < 18 → k ≠ 0 → k ≠ 9 →
        (runState floatEnv stepImage 16 16 16 zeroState).histogram
          (((cy : ℤ) * ((16 / 8 : ℕ) : ℤ) + (cx : ℤ)) * 18 + (k : ℤ)) = 0) :=
  identical_rows_bins floatEnv floatEnv_cos_max stepImage 16 16 16 zeroState (by decide)
    (fun c => if 8 ≤ c then 255 else 0) (fun r c _ hc => stepImage_rows r c hc)

/-- The gradient of an interior pixel reads the four neighbours of the pixel
inside the image, so two images that agree on the image region give the same
gradient, whatever their strides. -/
theorem gradient_congr (src1 src2 : Bytes) (s1 s2 width height : ℕ)
    (hagree : ∀ r c : ℕ, r < height → c < width →
      src1 ((s1 : ℤ) * (r : ℤ) + (c : ℤ)) = src2 ((s2 : ℤ) * (r : ℤ) + (c : ℤ)))
    (r c : ℕ) (hr1 : 1 ≤ r) (hr2 : r + 2 ≤ height) (hc1 : 1 ≤ c) (hc2 : c + 2 ≤ width) :
    gradX src1 ((s1 : ℤ) * (r : ℤ) + (c : ℤ)) = gradX src2 ((s2 : ℤ) * (r : ℤ) + (c : ℤ)) ∧
      gradY src1 s1 ((s1 : ℤ) * (r : ℤ) + (c : ℤ))
        = gradY src2 s2 ((s2 : ℤ) * (r : ℤ) + (c : ℤ)) := by
  have ex1 : ∀ s : ℕ, (s : ℤ) * (r : ℤ) + (c : ℤ) + 1 = (s : ℤ) * (r : ℤ) + ((c + 1 : ℕ) : ℤ) := by
    intro s; push_cast; ring
  have ex2 : ∀ s : ℕ, (s : ℤ) * (r : ℤ) + (c : ℤ) - 1 = (s : ℤ) * (r : ℤ) + ((c - 1 : ℕ) : ℤ) := by
    intro s; rw [Nat.cast_sub hc1]; push_cast; ring
  have ey1 : ∀ s : ℕ, (s : ℤ) * (r : ℤ) + (c : ℤ) + (s : ℤ)
      = (s : ℤ) * ((r + 1 : ℕ) : ℤ) + (c : ℤ) := by
    intro s; push_cast; ring
  have ey2 : ∀ s : ℕ, (s : ℤ) * (r : ℤ) + (c : ℤ) - (s : ℤ)
      = (s : ℤ) * ((r - 1 : ℕ) : ℤ) + (c : ℤ) := by
    intro s; rw [Nat.cast_sub hr1]; push_cast; ring
  constructor
  · unfold gradX
    rw [ex1 s1, ex1 s2, ex2 s1, ex2 s2, hagree r (c + 1) (by omega) (by omega),
      hagree r (c - 1) (by omega) (by omega)]
  · unfold gradY
    rw [ey1 s1, ey1 s2, ey2 s1, ey2 s2, hagree (r + 1) c (by omega) (by omega),
      hagree (r - 1) c (by omega) (by omega)]

theorem gridSum_congr (env : FloatEnv) (src1 src2 : Bytes) (s1 s2 width height : ℕ)
    (hw : 2 ≤ width) (hh : 2 ≤ height)
    (hagree : ∀ r c : ℕ, r < height → c < width →
      src1 ((s1 : ℤ) * (r : ℤ) + (c : ℤ)) = src2 ((s2 : ℤ) * (r : ℤ) + (c : ℤ)))
    (cy cx k : ℕ) :
    gridSum env src1 s1 width height cy cx k = gridSum env src2 s2 width height cy cx k := by
  unfold gridSum
  apply Finset.sum_congr rfl
  intro r hr
  apply Finset.sum_congr rfl
  intro c hc
  rw [Finset.mem_Ico] at hr hc
  obtain ⟨hx, hy⟩ := gradient_congr src1 src2 s1 s2 width height hagree r c hr.1 (by omega)
    hc.1 (by omega)
  unfold pixelBin pixelMag
  rw [hx, hy]

/-- A float offset inside the grid is bin `a % 18` of the cell
`(a / 18 / sx, a / 18 % sx)`. -/
theorem grid_address (sx sy : ℕ) (a : ℤ) (ha0 : 0 ≤ a) (ha1 : a < ((18 * sx * sy : ℕ) : ℤ)) :
    ∃ cy cx k : ℕ, cy < sy ∧ cx < sx ∧ k < 18 ∧
      a = ((cy : ℤ) * (sx : ℤ) + (cx : ℤ)) * 18 + (k : ℤ) := by
  obtain ⟨n, rfl⟩ := Int.eq_ofNat_of_zero_le ha0
  have hn : n < 18 * sx * sy := by exact_mod_cast ha1
  have hsx : 0 < sx := by
    rcases Nat.eq_zero_or_pos sx with h | h
    · subst h; simp at hn
    · exact h
  refine ⟨n / 18 / sx, n / 18 % sx, n % 18, ?_, Nat.mod_lt _ hsx, Nat.mod_lt _ (by norm_num), ?_⟩
  · rw [Nat.div_lt_iff_lt_mul hsx]
    have : n / 18 < sy * sx := by
      rw [Nat.div_lt_iff_lt_mul (by norm_num)]
      calc n < 18 * sx * sy := hn
        _ = sy * sx * 18 := by ring
    exact this
  · have h1 := Nat.div_add_mod (n / 18) sx
    have h2 := Nat.div_add_mod n 18
    have h3 : n = (n / 18 / sx * sx + n / 18 % sx) * 18 + n % 18 := by
      have : n / 18 / sx * sx + n / 18 % sx = n / 18 := by
        rw [mul_comm]; exact h1
      rw [this]
      omega
    exact_mod_cast h3

/-- The closed form of the norm loop: the energy of cell `i` grows by the sum of
the nine squares `(h[o] + h[o+9])^2` of its histogram. -/
theorem computeNorm_apply (n : ℕ) (hist norm : Mem) (a : ℤ) :
    computeNorm n hist norm a
      = norm a + ∑ i in Finset.Ico 0 n, ∑ o in Finset.Ico 0 Q,
          if a = (i : ℤ)
          then Square (hist ((i : ℤ) * (Q2 : ℤ) + (o : ℤ))
            + hist ((i : ℤ) * (Q2 : ℤ) + (o : ℤ) + (Q : ℤ)))
          else 0 := by
  unfold computeNorm
  apply foldl_add_sum _ _ 0 n (Nat.zero_le _)
  intro m i _ _ a'
  apply foldl_add_sum _ _ 0 Q (Nat.zero_le _)
  intro m' o _ _ a''
  rw [addAt_apply]

theorem computeNorm_congr (n : ℕ) (h1 h2 n1 n2 : Mem)
    (hh : ∀ a : ℤ, 0 ≤ a → a < ((18 * n : ℕ) : ℤ) → h1 a = h2 a)
    (hn : ∀ a : ℤ, 0 ≤ a → a < (n : ℤ) → n1 a = n2 a)
    (a : ℤ) (ha0 : 0 ≤ a) (ha1 : a < (n : ℤ)) :
    computeNorm n h1 n1 a = computeNorm n h2 n2 a := by
  rw [computeNorm_apply, computeNorm_apply, hn a ha0 ha1]
  congr 1
  apply Finset.sum_congr rfl
  intro i hi
  apply Finset.sum_congr rfl
  intro o ho
  rw [Finset.mem_Ico] at hi ho
  have hQ : Q = 9 := rfl
  have hQ2 : Q2 = 18 := rfl
  have hi' : (i : ℤ) < (n : ℤ) := by exact_mod_cast hi.2
  have ho' : (o : ℤ) < 9 := by
    have : o < 9 := by rw [← hQ]; exact ho.2
    exact_mod_cast this
  rw [hQ, hQ2]
  rw [hh ((i : ℤ) * ((18 : ℕ) : ℤ) + (o : ℤ)) (by positivity) (by push_cast; omega),
    hh ((i : ℤ) * ((18 : ℕ) : ℤ) + (o : ℤ) + ((9 : ℕ) : ℤ)) (by positivity)
      (by push_cast; omega)]

theorem neighbours_congr (n1 n2 : Mem) (sx sy x y : ℕ) (hx : x < sx) (hy : y < sy)
    (hn : ∀ a : ℤ, 0 ≤ a → a < ((sx * sy : ℕ) : ℤ) → n1 a = n2 a) :
    neighbours n1 sx sy x y = neighbours n2 sx sy x y := by
  have hX0 : (0 : ℤ) ≤ (x : ℤ) := by positivity
  have hY0 : (0 : ℤ) ≤ (y : ℤ) := by positivity
  have hX : (x : ℤ) + 1 ≤ (sx : ℤ) := by exact_mod_cast hx
  have hY : (y : ℤ) + 1 ≤ (sy : ℤ) := by exact_mod_cast hy
  have hS : (0 : ℤ) ≤ (sx : ℤ) := by positivity
  have pA : 0 ≤ ((sy : ℤ) - 1 - (y : ℤ)) * (sx : ℤ) := mul_nonneg (by omega) hS
  have pB : 0 ≤ (y : ℤ) * (sx : ℤ) := mul_nonneg hY0 hS
  have key : ∀ (c : Prop) [Decidable c] (a : ℤ), (c → 0 ≤ a ∧ a < ((sx * sy : ℕ) : ℤ)) →
      (if c then n1 a else 0) = (if c then n2 a else 0) := by
    intro c _ a h
    split_ifs with hc
    · exact hn a (h hc).1 (h hc).2
    · rfl
  simp only [neighbours, normPtr]
  rw [Neighbours.mk.injEq]
  refine ⟨key _ _ ?_, key _ _ ?_, key _ _ ?_, key _ _ ?_, ?_, key _ _ ?_, key _ _ ?_,
    key _ _ ?_, key _ _ ?_⟩
  · rintro ⟨h1, h2⟩
    have pC : 0 ≤ ((y : ℤ) - 2) * (sx : ℤ) := mul_nonneg (by omega) hS
    push_cast
    constructor <;> linarith
  · intro h2
    have pC : 0 ≤ ((y : ℤ) - 2) * (sx : ℤ) := mul_nonneg (by omega) hS
    push_cast
    constructor <;> linarith
  · rintro ⟨h1, h2⟩
    have pC : 0 ≤ ((y : ℤ) - 2) * (sx : ℤ) := mul_nonneg (by omega) hS
    push_cast
    constructor <;> linarith
  · intro h1
    push_cast
    constructor <;> linarith
  · apply hn
    · linarith
    · push_cast; linarith
  · intro h1
    push_cast
    constructor <;> linarith
  · rintro ⟨h1, h2⟩
    have pD : 0 ≤ ((sy : ℤ) - 2 - (y : ℤ)) * (sx : ℤ) := mul_nonneg (by omega) hS
    push_cast
    constructor <;> linarith
  · intro h2
    have pD : 0 ≤ ((sy : ℤ) - 2 - (y : ℤ)) * (sx : ℤ) := mul_nonneg (by omega) hS
    push_cast
    constructor <;> linarith
  · rintro ⟨h1, h2⟩
    have pD : 0 ≤ ((sy : ℤ) - 2 - (y : ℤ)) * (sx : ℤ) := mul_nonneg (by omega) hS
    push_cast
    constructor <;> linarith

theorem specChannel_congr (h1 h2 : ℕ → ℚ) (n : V4) (ch : ℕ) (hch : ch < 31)
    (h : ∀ o, o < 18 → h1 o = h2 o) :
    specChannel h1 n ch = specChannel h2 n ch := by
  unfold specChannel
  by_cases hc1 : ch < 18
  · rw [if_pos hc1, if_pos hc1, h ch hc1]
  · rw [if_neg hc1, if_neg hc1]
    by_cases hc2 : ch < 27
    · rw [if_pos hc2, if_pos hc2, h (ch - 18) (by omega), h (ch - 18 + 9) (by omega)]
    · rw [if_neg hc2, if_neg hc2]
      congr 1
      apply Finset.sum_congr rfl
      intro o ho
      rw [h o (Finset.mem_range.mp ho)]

/-- The grid and the energies that `Run` normalises are the same for two valid
images that agree on the image region. -/
theorem runState_congr (env : FloatEnv) (src1 src2 : Bytes) (s1 s2 width height : ℕ)
    (g1 g2 : State) (hv1 : Valid s1 width height) (hv2 : Valid s2 width height)
    (hagree : ∀ r c : ℕ, r < height → c < width →
      src1 ((s1 : ℤ) * (r : ℤ) + (c : ℤ)) = src2 ((s2 : ℤ) * (r : ℤ) + (c : ℤ))) :
    (∀ a : ℤ, 0 ≤ a → a < ((18 * (width / 8) * (height / 8) : ℕ) : ℤ) →
        (runState env src1 s1 width height g1).histogram a
          = (runState env src2 s2 width height g2).histogram a) ∧
      (∀ a : ℤ, 0 ≤ a → a < ((width / 8 * (height / 8) : ℕ) : ℤ) →
        (runState env src1 s1 width height g1).norm a
          = (runState env src2 s2 width height g2).norm a) := by
  have hH : ∀ a : ℤ, 0 ≤ a → a < ((18 * (width / 8) * (height / 8) : ℕ) : ℤ) →
      (runState env src1 s1 width height g1).histogram a
        = (runState env src2 s2 width height g2).histogram a := by
    intro a ha0 ha1
    obtain ⟨cy, cx, k, hcy, hcx, hk, rfl⟩ := grid_address (width / 8) (height / 8) a ha0 ha1
    rw [runState_gridSum env src1 s1 width height g1 hv1 cy cx k hcy hcx hk,
      runState_gridSum env src2 s2 width height g2 hv2 cy cx k hcy hcx hk]
    obtain ⟨_, _, hw, hh, _, _⟩ := hv1
    exact gridSum_congr env src1 src2 s1 s2 width height (by omega) (by omega) hagree cy cx k
  refine ⟨hH, ?_⟩
  intro a ha0 ha1
  rw [runState_norm, runState_norm]
  apply computeNorm_congr _ _ _ _ _ _ _ a ha0 ha1
  · intro b hb0 hb1
    apply hH b hb0
    have e : 18 * (width / 8 * (height / 8)) = 18 * (width / 8) * (height / 8) := by ring
    rw [← e]
    exact hb1
  · intro b hb0 hb1
    unfold resize
    rw [if_pos ⟨hb0, hb1⟩, if_pos ⟨hb0, hb1⟩]

/-- Claim C18.  The output of `HogExtractFeatures` is determined by `width`,
`height` and the `width x height` pixel values: two calls on valid inputs whose
images agree on every pixel `(r, c)`, `r < height`, `c < width`, store the same
value at every offset of the descriptor, whatever the two strides, the bytes
outside the image region, the memory around the vectors of the extractor and
the previous content of the output arrays; started on the same output array
they leave the same array.  In particular a repeated call with the same image
gives the same output. -/
theorem features_determined (env : FloatEnv) (src1 src2 : Bytes) (s1 s2 width height : ℕ)
    (g1 g2 : State) (f1 f2 : Mem) (hv1 : Valid s1 width height) (hv2 : Valid s2 width height)
    (hagree : ∀ r c : ℕ, r < height → c < width →
      src1 ((s1 : ℤ) * (r : ℤ) + (c : ℤ)) = src2 ((s2 : ℤ) * (r : ℤ) + (c : ℤ))) :
    (∀ a : ℤ, 0 ≤ a → a < ((height / 8 * (width / 8) * 31 : ℕ) : ℤ) →
        HogExtractFeatures env src1 s1 width height g1 f1 a
          = HogExtractFeatures env src2 s2 width height g2 f2 a) ∧
      (f1 = f2 →
        HogExtractFeatures env src1 s1 width height g1 f1
          = HogExtractFeatures env src2 s2 width height g2 f2) := by
  obtain ⟨hH, hN⟩ := runState_congr env src1 src2 s1 s2 width height g1 g2 hv1 hv2 hagree
  have hC : C = 8 := rfl
  have hin : ∀ a : ℤ, 0 ≤ a → a < ((height / 8 * (width / 8) * 31 : ℕ) : ℤ) →
      HogExtractFeatures env src1 s1 width height g1 f1 a
        = HogExtractFeatures env src2 s2 width height g2 f2 a := by
    intro a ha0 ha1
    obtain ⟨n, rfl⟩ := Int.eq_ofNat_of_zero_le ha0
    have hn : n < height / 8 * (width / 8) * 31 := by exact_mod_cast ha1
    have hsx : 0 < width / 8 := by
      rcases Nat.eq_zero_or_pos (width / 8) with h | h
      · rw [h] at hn; simp at hn
      · exact h
    have hx : n / 31 % (width / 8) < width / 8 := Nat.mod_lt _ hsx
    have hy : n / 31 / (width / 8) < height / 8 := by
      rw [Nat.div_lt_iff_lt_mul hsx, Nat.div_lt_iff_lt_mul (by norm_num)]
      exact hn
    rw [HogExtractFeatures_eq, HogExtractFeatures_eq]
    simp only [hC]
    rw [if_pos ⟨ha0, ha1⟩, if_pos ⟨ha0, ha1⟩]
    simp only [specStore, Int.toNat_natCast]
    rw [neighbours_congr _ _ (width / 8) (height / 8) _ _ hx hy hN]
    apply specChannel_congr _ _ _ _ (Nat.mod_lt _ (by norm_num))
    intro o ho
    unfold cellHistogram
    have hr := cell_entry_range (width / 8) (height / 8) _ _ o hx hy ho
    exact hH _ hr.1 hr.2
  refine ⟨hin, ?_⟩
  intro hf
  subst hf
  funext a
  by_cases ha : 0 ≤ a ∧ a < ((height / 8 * (width / 8) * 31 : ℕ) : ℤ)
  · exact hin a ha.1 ha.2
  · rw [HogExtractFeatures_eq, HogExtractFeatures_eq]
    simp only [hC]
    rw [if_neg ha, if_neg ha]

theorem stepImageWide_rows (r c : ℕ) (hc : c < 16) :
    stepImageWide (((24 : ℕ) : ℤ) * (r : ℤ) + (c : ℤ)) = if 8 ≤ c then 255 else 0 := by
  unfold stepImageWide
  have h : (((24 : ℕ) : ℤ) * (r : ℤ) + (c : ℤ)) % 24 = (c : ℤ) := by
    push_cast
    omega
  rw [h, if_pos (by exact_mod_cast hc)]
  by_cases h8 : 8 ≤ c
  · rw [if_pos (by exact_mod_cast h8), if_pos h8]
  · rw [if_neg (by intro h'; exact h8 (by exact_mod_cast h')), if_neg h8]

/-- The statement of `features_determined` for the 16x16 step-edge image stored
with stride 16 and with stride 24 (padding bytes 77), from extractors with
different surrounding memory. -/
theorem features_determined_witness :
    (∀ a : ℤ, 0 ≤ a → a < ((16 / 8 * (16 / 8) * 31 : ℕ) : ℤ) →
        HogExtractFeatures floatEnv stepImage 16 16 16 zeroState (fun _ => 0) a
          = HogExtractFeatures floatEnv stepImageWide 24 16 16 rampState (fun _ => 0) a) ∧
      (((fun _ => 0) : Mem) = (fun _ => 0) →
        HogExtractFeatures floatEnv stepImage 16 16 16 zeroState (fun _ => 0)
          = HogExtractFeatures floatEnv stepImageWide 24 16 16 rampState (fun _ => 0)) :=
  features_determined floatEnv stepImage stepImageWide 16 24 16 16 zeroState rampState
    (fun _ => 0) (fun _ => 0) (by decide) (by decide)
    (fun r c _ hc => by rw [stepImage_rows r c hc, stepImageWide_rows r c hc])

/-- The list of calls is a faithful record: running it from the state with the
zeroed grid gives the state that `GetHistogram` returns. -/
theorem calls_simulation (env : FloatEnv) (src : Bytes) (stride width aligned sx sy size : ℕ)
    (s0 : State) (l : List ℕ) (t : List Call) (c : ℕ) :
    (l.foldl (histogramRow env src stride width aligned sx sy size)
        (t.foldl (applyCall env src stride width aligned sx sy size) s0, c)).1
      = (l.foldl callsRow (t, c)).1.foldl (applyCall env src stride width aligned sx sy size) s0
      ∧ (l.foldl (histogramRow env src stride width aligned sx sy size)
        (t.foldl (applyCall env src stride width aligned sx sy size) s0, c)).2
      = (l.foldl callsRow (t, c)).2 := by
  induction l generalizing t c with
  | nil => exact ⟨rfl, rfl⟩
  | cons row l ih =>
    simp only [List.foldl_cons]
    by_cases h : row &&& 7 = 3
    · have e1 : histogramRow env src stride width aligned sx sy size
          (t.foldl (applyCall env src stride width aligned sx sy size) s0, c) row
          = ((t ++ [Call.row row, Call.flush c]).foldl
              (applyCall env src stride width aligned sx sy size) s0, c + 1) := by
        simp only [histogramRow, if_pos h, List.foldl_append, List.foldl_cons, List.foldl_nil,
          applyCall]
      have e2 : callsRow (t, c) row = (t ++ [Call.row row, Call.flush c], c + 1) := by
        simp only [callsRow, if_pos h]
      rw [e1, e2]
      exact ih _ _
    · have e1 : histogramRow env src stride width aligned sx sy size
          (t.foldl (applyCall env src stride width aligned sx sy size) s0, c) row
          = ((t ++ [Call.row row]).foldl
              (applyCall env src stride width aligned sx sy size) s0, c) := by
        simp only [histogramRow, if_neg h, List.foldl_append, List.foldl_cons, List.foldl_nil,
          applyCall]
      have e2 : callsRow (t, c) row = (t ++ [Call.row row], c) := by
        simp only [callsRow, if_neg h]
      rw [e1, e2]
      exact ih _ _

theorem rows_fold_calls (env : FloatEnv) (src : Bytes) (stride width aligned sx sy size : ℕ)
    (l : List ℕ) (s : State) :
    l.foldl (fun s (row : ℕ) => AddRowToBuffer env src stride row width aligned s) s
      = (l.map Call.row).foldl (applyCall env src stride width aligned sx sy size) s := by
  induction l generalizing s with
  | nil => rfl
  | cons r l ih =>
    simp only [List.foldl_cons, List.map_cons]
    exact ih _

/-- The method `GetHistogram` is the run of its list of calls. -/
theorem GetHistogram_calls (env : FloatEnv) (src : Bytes) (stride width height sx sy : ℕ)
    (st : State) :
    GetHistogram env src stride width height sx sy st
      = (histogramCalls height sy).foldl
          (applyCall env src stride width (AlignHi (width - 1) HA - HA) sx sy
            ((sx + 1) * 4 * Q2))
          { st with histogram := memsetZero (18 * sx * sy) st.histogram } := by
  unfold GetHistogram histogramCalls
  simp only [List.foldl_append, List.foldl_cons, List.foldl_nil]
  have hs := calls_simulation env src stride width (AlignHi (width - 1) HA - HA) sx sy
    ((sx + 1) * 4 * Q2) { st with histogram := memsetZero (18 * sx * sy) st.histogram }
    (forRange 4 (height - 4)) ((forRange 1 4).map Call.row ++ [Call.flush 0]) 1
  simp only [List.foldl_append, List.foldl_cons, List.foldl_nil] at hs
  rw [← hs.1, ← rows_fold_calls, ← rows_fold_calls]
  rfl

theorem forRange_eight (a : ℕ) :
    forRange a (a + 8) = [a, a + 1, a + 2, a + 3, a + 4, a + 5, a + 6, a + 7] := by
  unfold forRange
  have h : a + 8 - a = 8 := by omega
  rw [h]
  rfl

theorem mergeRows_middle (height m : ℕ) (h0 : 0 < m) (h1 : 8 * m + 4 ≤ height - 1) :
    mergeRows height m = forRange (8 * m - 4) (8 * m + 4) := by
  unfold mergeRows
  rw [max_eq_right (by omega), min_eq_left h1]

/-- The row loop of `GetHistogram` over the rows `4 .. 8n+3`: `n` blocks of
eight rows, each followed by its flush. -/
theorem callsRow_blocks (height n : ℕ) (hn : 8 * n + 4 ≤ height - 1) (t : List Call) :
    (forRange 4 (8 * n + 4)).foldl callsRow (t, 1)
      = (t ++ (List.range' 1 n).flatMap (mergeBlock height), n + 1) := by
  induction n with
  | zero => simp [forRange]
  | succ n ih =>
    have hsplit : forRange 4 (8 * (n + 1) + 4)
        = forRange 4 (8 * n + 4) ++ forRange (8 * n + 4) (8 * n + 4 + 8) := by
      have e : 8 * (n + 1) + 4 = 8 * n + 4 + 8 := by omega
      rw [e]
      exact forRange_split 4 (8 * n + 4) (8 * n + 4 + 8) (by omega) (by omega)
    rw [hsplit, List.foldl_append, ih (by omega), forRange_eight]
    have hb : mergeBlock height (n + 1)
        = [Call.row (8 * n + 4), Call.row (8 * n + 4 + 1), Call.row (8 * n + 4 + 2),
            Call.row (8 * n + 4 + 3), Call.row (8 * n + 4 + 4), Call.row (8 * n + 4 + 5),
            Call.row (8 * n + 4 + 6), Call.row (8 * n + 4 + 7), Call.flush (n + 1)] := by
      unfold mergeBlock
      rw [mergeRows_middle height (n + 1) (by omega) hn]
      have e : 8 * (n + 1) - 4 = 8 * n + 4 := by omega
      have e2 : 8 * (n + 1) + 4 = 8 * n + 4 + 8 := by omega
      rw [e, e2, forRange_eight]
      rfl
    have hr : List.range' 1 (n + 1) = List.range' 1 n ++ [1 + n] := List.range'_1_concat 1 n
    have e1n : 1 + n = n + 1 := by omega
    rw [hr, List.flatMap_append, e1n]
    simp only [List.flatMap_cons, List.flatMap_nil, List.append_nil, hb]
    have c0 : ¬ (8 * n + 4) % 8 = 3 := by omega
    have c1 : ¬ (8 * n + 4 + 1) % 8 = 3 := by omega
    have c2 : ¬ (8 * n + 4 + 2) % 8 = 3 := by omega
    have c3 : ¬ (8 * n + 4 + 3) % 8 = 3 := by omega
    have c4 : ¬ (8 * n + 4 + 4) % 8 = 3 := by omega
    have c5 : ¬ (8 * n + 4 + 5) % 8 = 3 := by omega
    have c6 : ¬ (8 * n + 4 + 6) % 8 = 3 := by omega
    have c7 : (8 * n + 4 + 7) % 8 = 3 := by omega
    simp only [List.foldl_cons, List.foldl_nil, callsRow, land_seven, if_neg c0, if_neg c1,
      if_neg c2, if_neg c3, if_neg c4, if_neg c5, if_neg c6, if_pos c7, List.append_assoc,
      List.cons_append, List.nil_append]

/-- The calls of `GetHistogram` on a valid height: the merge blocks
`0, 1, ..., sy` in this order. -/
theorem histogramCalls_blocks (height : ℕ) (hh8 : height % 8 = 0) (hh : 16 ≤ height) :
    histogramCalls height (height / 8)
      = (List.range (height / 8 + 1)).flatMap (mergeBlock height) := by
  have hH : height - 4 = 8 * (height / 8 - 1) + 4 := by omega
  have hr : List.range (height / 8 + 1)
      = [0] ++ List.range' 1 (height / 8 - 1) ++ [height / 8] := by
    rw [List.range_eq_range', List.range'_succ]
    have e : height / 8 = (height / 8 - 1) + 1 := by omega
    have h2 : List.range' (0 + 1) (height / 8) = List.range' 1 (height / 8 - 1) ++ [height / 8] := by
      conv_lhs => rw [e]
      rw [List.range'_1_concat]
      congr 2
      omega
    rw [h2]
    rfl
  have hb0 : mergeBlock height 0 = (forRange 1 4).map Call.row ++ [Call.flush 0] := by
    unfold mergeBlock mergeRows
    have e1 : max 1 (8 * 0 - 4) = 1 := by simp
    have e2 : min (8 * 0 + 4) (height - 1) = 4 := by
      rw [min_eq_left (by omega)]
    rw [e1, e2]
  have hbs : mergeBlock height (height / 8)
      = (forRange (height - 4) (height - 1)).map Call.row ++ [Call.flush (height / 8)] := by
    unfold mergeBlock mergeRows
    have e1 : max 1 (8 * (height / 8) - 4) = height - 4 := by
      rw [max_eq_right (by omega)]
      omega
    have e2 : min (8 * (height / 8) + 4) (height - 1) = height - 1 := by
      rw [min_eq_right (by omega)]
    rw [e1, e2]
  unfold histogramCalls
  simp only []
  rw [hH, callsRow_blocks height (height / 8 - 1) (by omega), ← hH, hr, List.flatMap_append,
    List.flatMap_append]
  simp only [List.flatMap_cons, List.flatMap_nil, List.append_nil, hb0, hbs, List.append_assoc]

theorem mergeBlock_flushArg (height : ℕ) (l : List ℕ) :
    (l.flatMap (mergeBlock height)).filterMap Call.flushArg = l := by
  induction l with
  | nil => rfl
  | cons m l ih =>
    have hrows : ∀ rows : List ℕ, (rows.map Call.row).filterMap Call.flushArg = [] := by
      intro rows
      induction rows with
      | nil => rfl
      | cons r rows ihr =>
        rw [List.map_cons, List.filterMap_cons]
        exact ihr
    rw [List.flatMap_cons, List.filterMap_append, ih]
    unfold mergeBlock
    rw [List.filterMap_append, hrows]
    rfl

theorem mem_mergeRows (height m r : ℕ) :
    r ∈ mergeRows height m ↔ (1 ≤ r ∧ r + 2 ≤ height ∧ (r + 4) / 8 = m) := by
  unfold mergeRows
  rw [mem_forRange, max_le_iff, lt_min_iff]
  omega

/-- Claim C21.  On a valid height `GetHistogram` is the run of its list of
calls, and that list is the merge blocks `0, 1, ..., sy` in this order, block
`m` being the calls `AddRowToBuffer` for the rows of `mergeRows m` followed by
the flush `AddToHistogram(m)`.  So there are exactly `sy + 1` flushes, with
arguments `0, 1, ..., sy`; a row `r` is merged by flush `m` exactly when it is
an interior row with `(r + 4) / 8 = m`: rows 1..3 for `m = 0`, the eight rows
`8m-4 .. 8m+3` for `0 < m < sy` (the last one has `row & 7 = 3`), rows
`H-4 .. H-2` for `m = sy`; and every flush leaves the whole row buffer zero. -/
theorem flush_schedule (env : FloatEnv) (src : Bytes) (stride width height : ℕ) (st : State)
    (hh8 : height % 8 = 0) (hh : 16 ≤ height) :
    GetHistogram env src stride width height (width / 8) (height / 8) st
        = (histogramCalls height (height / 8)).foldl
            (applyCall env src stride width (AlignHi (width - 1) HA - HA) (width / 8)
              (height / 8) ((width / 8 + 1) * 4 * Q2))
            { st with
              histogram := memsetZero (18 * (width / 8) * (height / 8)) st.histogram } ∧
      histogramCalls height (height / 8)
        = (List.range (height / 8 + 1)).flatMap (mergeBlock height) ∧
      (histogramCalls height (height / 8)).filterMap Call.flushArg
        = List.range (height / 8 + 1) ∧
      (∀ m r : ℕ, r ∈ mergeRows height m ↔ (1 ≤ r ∧ r + 2 ≤ height ∧ (r + 4) / 8 = m)) ∧
      mergeRows height 0 = [1, 2, 3] ∧
      (∀ m : ℕ, 0 < m → m < height / 8 →
        mergeRows height m = forRange (8 * m - 4) (8 * m + 4) ∧ (8 * m + 3) &&& 7 = 3) ∧
      mergeRows height (height / 8) = [height - 4, height - 3, height - 2] ∧
      (∀ (m : ℕ) (s : State) (a : ℤ), 0 ≤ a → a < (((width / 8 + 1) * 4 * Q2 : ℕ) : ℤ) →
        (AddToHistogram m (width / 8) (height / 8) ((width / 8 + 1) * 4 * Q2) s).buffer a
          = 0) := by
  have hb := histogramCalls_blocks height hh8 hh
  refine ⟨GetHistogram_calls env src stride width height _ _ st, hb, ?_, mem_mergeRows height,
    ?_, ?_, ?_, ?_⟩
  · rw [hb, mergeBlock_flushArg]
  · unfold mergeRows
    have e1 : max 1 (8 * 0 - 4) = 1 := by simp
    have e2 : min (8 * 0 + 4) (height - 1) = 4 := by
      rw [min_eq_left (by omega)]
    rw [e1, e2]
    rfl
  · intro m h0 h1
    refine ⟨mergeRows_middle height m h0 (by omega), ?_⟩
    rw [land_seven]
    omega
  · unfold mergeRows
    have e1 : max 1 (8 * (height / 8) - 4) = height - 4 := by
      rw [max_eq_right (by omega)]
      omega
    have e2 : min (8 * (height / 8) + 4) (height - 1) = height - 4 + 3 := by
      rw [min_eq_right (by omega)]
      omega
    rw [e1, e2]
    unfold forRange
    have e3 : height - 4 + 3 - (height - 4) = 3 := by omega
    rw [e3]
    have e4 : height - 3 = height - 4 + 1 := by omega
    have e5 : height - 2 = height - 4 + 2 := by omega
    rw [e4, e5]
    rfl
  · intro m s a ha0 ha1
    rw [AddToHistogram_buffer, memsetZero, if_pos ⟨ha0, ha1⟩]

/-- The statement of `flush_schedule` for the 16x16 step-edge image: three
flushes, with arguments 0, 1, 2. -/
theorem flush_schedule_witness :
    GetHistogram floatEnv stepImage 16 16 16 (16 / 8) (16 / 8) zeroState
        = (histogramCalls 16 (16 / 8)).foldl
            (applyCall floatEnv stepImage 16 16 (AlignHi (16 - 1) HA - HA) (16 / 8)
              (16 / 8) ((16 / 8 + 1) * 4 * Q2))
            { zeroState with
              histogram := memsetZero (18 * (16 / 8) * (16 / 8)) zeroState.histogram } ∧
      histogramCalls 16 (16 / 8)
        = (List.range (16 / 8 + 1)).flatMap (mergeBlock 16) ∧
      (histogramCalls 16 (16 / 8)).filterMap Call.flushArg
        = List.range (16 / 8 + 1) ∧
      (∀ m r : ℕ, r ∈ mergeRows 16 m ↔ (1 ≤ r ∧ r + 2 ≤ 16 ∧ (r + 4) / 8 = m)) ∧
      mergeRows 16 0 = [1, 2, 3] ∧
      (∀ m : ℕ, 0 < m → m < 16 / 8 →
        mergeRows 16 m = forRange (8 * m - 4) (8 * m + 4) ∧ (8 * m + 3) &&& 7 = 3) ∧
      mergeRows 16 (16 / 8) = [16 - 4, 16 - 3, 16 - 2] ∧
      (∀ (m : ℕ) (s : State) (a : ℤ), 0 ≤ a → a < (((16 / 8 + 1) * 4 * Q2 : ℕ) : ℤ) →
        (AddToHistogram m (16 / 8) (16 / 8) ((16 / 8 + 1) * 4 * Q2) s).buffer a
          = 0) :=
  flush_schedule floatEnv stepImage 16 16 16 zeroState (by decide) (by decide)

theorem rows_rowArg (rows : List ℕ) : (rows.map Call.row).filterMap Call.rowArg = rows := by
  induction rows with
  | nil => rfl
  | cons r rows ih =>
    rw [List.map_cons, List.filterMap_cons]
    simp only [Call.rowArg]
    rw [ih]

theorem callsRow_rowArg (l : List ℕ) (t : List Call) (c : ℕ) :
    (l.foldl callsRow (t, c)).1.filterMap Call.rowArg = t.filterMap Call.rowArg ++ l := by
  induction l generalizing t c with
  | nil => simp
  | cons row l ih =>
    rw [List.foldl_cons]
    by_cases h : row &&& 7 = 3
    · have e : callsRow (t, c) row = (t ++ [Call.row row, Call.flush c], c + 1) := by
        simp only [callsRow, if_pos h]
      rw [e, ih, List.filterMap_append]
      simp [Call.rowArg]
    · have e : callsRow (t, c) row = (t ++ [Call.row row], c) := by
        simp only [callsRow, if_neg h]
      rw [e, ih, List.filterMap_append]
      simp [Call.rowArg]

/-- The rows passed to `AddRowToBuffer` by `GetHistogram`, in program order, are
`1, 2, ..., height - 2`. -/
theorem histogramCalls_rows (height sy : ℕ) (hh : 8 ≤ height) :
    (histogramCalls height sy).filterMap Call.rowArg = forRange 1 (height - 1) := by
  unfold histogramCalls
  simp only [List.filterMap_append, callsRow_rowArg, rows_rowArg]
  rw [forRange_split 1 4 (height - 1) (by omega) (by omega),
    forRange_split 4 (height - 4) (height - 1) (by omega) (by omega)]
  simp [Call.rowArg]

/-- Claim C22.  During `GetHistogram` on a valid image `AddRowToBuffer` is
called for the rows `1, 2, ..., H - 2`, once each, and for no other row.  A
call for row `r` leaves in `_index` and `_value`, at every interior column
`c`, the bin and the magnitude of the pixel `(r, c)`, and accumulates the
columns `1, 2, ..., W - 2`, once each and no other column: column `c` goes to
element `18 * ((c + 4) / 8) + _index[c]` of the row buffer, that is into block
`(c + 4) / 8`, with the kernels `kx[(c + 4) mod 8]` and `ky[(r + 4) mod 8]`. -/
theorem interior_pixels_once (env : FloatEnv) (src : Bytes) (stride width height : ℕ)
    (st : State) (hv : Valid stride width height) :
    GetHistogram env src stride width height (width / 8) (height / 8) st
        = (histogramCalls height (height / 8)).foldl
            (applyCall env src stride width (AlignHi (width - 1) HA - HA) (width / 8)
              (height / 8) ((width / 8 + 1) * 4 * Q2))
            { st with
              histogram := memsetZero (18 * (width / 8) * (height / 8)) st.histogram } ∧
      (histogramCalls height (height / 8)).filterMap Call.rowArg = forRange 1 (height - 1) ∧
      (∀ r : ℕ, r ∈ forRange 1 (height - 1) ↔ (1 ≤ r ∧ r + 2 ≤ height)) ∧
      (∀ c : ℕ, c ∈ forRange 1 (width - 1) ↔ (1 ≤ c ∧ c + 2 ≤ width)) ∧
      (forRange 1 (height - 1)).Nodup ∧ (forRange 1 (width - 1)).Nodup ∧
      (∀ (r : ℕ) (s : State),
        (AddRowToBuffer env src stride r width (AlignHi (width - 1) HA - HA) s).buffer
          = (forRange 1 (width - 1)).foldl
              (fun b (c : ℕ) =>
                addPixel
                  (AddRowToBuffer env src stride r width (AlignHi (width - 1) HA - HA) s).lanes
                  (ky ((r + 4) % 8)) (kx ((c + 4) % 8)) (18 * (((c + 4) / 8 : ℕ) : ℤ)) b c)
              s.buffer ∧
        ∀ c : ℕ, 1 ≤ c → c + 2 ≤ width →
          (AddRowToBuffer env src stride r width (AlignHi (width - 1) HA - HA)
              s).lanes.index (c : ℤ) = pixelBin env src stride r c ∧
          (AddRowToBuffer env src stride r width (AlignHi (width - 1) HA - HA)
              s).lanes.value (c : ℤ) = pixelMag env src stride r c) := by
  obtain ⟨hw8, hh8, hw, hh, _, hw63⟩ := hv
  refine ⟨GetHistogram_calls env src stride width height _ _ st,
    histogramCalls_rows height _ (by omega), ?_, ?_, List.nodup_range' _ _, List.nodup_range' _ _,
    ?_⟩
  · intro r
    rw [mem_forRange]
    omega
  · intro c
    rw [mem_forRange]
    omega
  · intro r s
    constructor
    · show rowAccumulate _ r width s.buffer = _
      rw [rowAccumulate_eq _ r width s.buffer hw8 (by omega)]
      rfl
    · intro c hc1 hc2
      exact rowLanes_interior env src stride r width s.lanes hw8 hw hw63 c hc1 hc2

/-- The statement of `interior_pixels_once` for the 16x16 step-edge image. -/
theorem interior_pixels_once_witness :
    GetHistogram floatEnv stepImage 16 16 16 (16 / 8) (16 / 8) zeroState
        = (histogramCalls 16 (16 / 8)).foldl
            (applyCall floatEnv stepImage 16 16 (AlignHi (16 - 1) HA - HA) (16 / 8)
              (16 / 8) ((16 / 8 + 1) * 4 * Q2))
            { zeroState with
              histogram := memsetZero (18 * (16 / 8) * (16 / 8)) zeroState.histogram } ∧
      (histogramCalls 16 (16 / 8)).filterMap Call.rowArg = forRange 1 (16 - 1) ∧
      (∀ r : ℕ, r ∈ forRange 1 (16 - 1) ↔ (1 ≤ r ∧ r + 2 ≤ 16)) ∧
      (∀ c : ℕ, c ∈ forRange 1 (16 - 1) ↔ (1 ≤ c ∧ c + 2 ≤ 16)) ∧
      (forRange 1 (16 - 1)).Nodup ∧ (forRange 1 (16 - 1)).Nodup ∧
      (∀ (r : ℕ) (s : State),
        (AddRowToBuffer floatEnv stepImage 16 r 16 (AlignHi (16 - 1) HA - HA) s).buffer
          = (forRange 1 (16 - 1)).foldl
              (fun b (c : ℕ) =>
                addPixel
                  (AddRowToBuffer floatEnv stepImage 16 r 16 (AlignHi (16 - 1) HA - HA) s).lanes
                  (ky ((r + 4) % 8)) (kx ((c + 4) % 8)) (18 * (((c + 4) / 8 : ℕ) : ℤ)) b c)
              s.buffer ∧
        ∀ c : ℕ, 1 ≤ c → c + 2 ≤ 16 →
          (AddRowToBuffer floatEnv stepImage 16 r 16 (AlignHi (16 - 1) HA - HA)
              s).lanes.index (c : ℤ) = pixelBin floatEnv stepImage 16 r c ∧
          (AddRowToBuffer floatEnv stepImage 16 r 16 (AlignHi (16 - 1) HA - HA)
              s).lanes.value (c : ℤ) = pixelMag floatEnv stepImage 16 r c) :=
  interior_pixels_once floatEnv stepImage 16 16 16 zeroState (by decide)

theorem byte_difference_bounds (a b : Fin 256) :
    -255 ≤ ((a.val : ℤ) - (b.val : ℤ)) ∧ ((a.val : ℤ) - (b.val : ℤ)) ≤ 255 := by
  have ha := a.is_lt
  have hb := b.is_lt
  omega

theorem square_sum_bound (dx dy : ℤ) (hx0 : -255 ≤ dx) (hx1 : dx ≤ 255) (hy0 : -255 ≤ dy)
    (hy1 : dy ≤ 255) : dx * dx + dy * dy ≤ 130050 := by
  nlinarith [mul_nonneg (sub_nonneg.mpr hx1) (by linarith : (0 : ℤ) ≤ dx + 255),
    mul_nonneg (sub_nonneg.mpr hy1) (by linarith : (0 : ℤ) ≤ dy + 255)]

/-- Claim C23.  In the batch `GetHistogram(s, stride, col)` (row pointer at
byte offset `s0`), lane `j < 16` (lane `j mod 8` of `CovertDifference<j / 8>`)
carries the gradient of the byte `p = s0 + col + j`: `dx = src[p+1] - src[p-1]`
and `dy = src[p+stride] - src[p-stride]`, the un-halved central differences as
exact integers, each in `[-255, 255]`, with `dx^2 + dy^2 ≤ 130050`; these are
the values quantized into `_index[col + j]` and measured into `_value[col + j]`. -/
theorem central_difference (env : FloatEnv) (src : Bytes) (stride : ℕ) (s0 col : ℤ)
    (st : Lanes) (j : ℕ) (hj : j < 16) :
    CovertDifference (j / 8) (Load src (s0 + col + 1)) (Load src (s0 + col - 1)) (j % 8)
        = ((((src (s0 + col + (j : ℤ) + 1)).val : ℤ)
            - ((src (s0 + col + (j : ℤ) - 1)).val : ℤ) : ℤ) : ℚ) ∧
      CovertDifference (j / 8) (Load src (s0 + col + (stride : ℤ)))
          (Load src (s0 + col - (stride : ℤ))) (j % 8)
        = ((((src (s0 + col + (j : ℤ) + (stride : ℤ))).val : ℤ)
            - ((src (s0 + col + (j : ℤ) - (stride : ℤ))).val : ℤ) : ℤ) : ℚ) ∧
      (-255 ≤ ((src (s0 + col + (j : ℤ) + 1)).val : ℤ) - ((src (s0 + col + (j : ℤ) - 1)).val : ℤ)
        ∧ ((src (s0 + col + (j : ℤ) + 1)).val : ℤ) - ((src (s0 + col + (j : ℤ) - 1)).val : ℤ)
          ≤ 255) ∧
      (-255 ≤ ((src (s0 + col + (j : ℤ) + (stride : ℤ))).val : ℤ)
          - ((src (s0 + col + (j : ℤ) - (stride : ℤ))).val : ℤ)
        ∧ ((src (s0 + col + (j : ℤ) + (stride : ℤ))).val : ℤ)
          - ((src (s0 + col + (j : ℤ) - (stride : ℤ))).val : ℤ) ≤ 255) ∧
      (((src (s0 + col + (j : ℤ) + 1)).val : ℤ) - ((src (s0 + col + (j : ℤ) - 1)).val : ℤ))
          * (((src (s0 + col + (j : ℤ) + 1)).val : ℤ) - ((src (s0 + col + (j : ℤ) - 1)).val : ℤ))
        + (((src (s0 + col + (j : ℤ) + (stride : ℤ))).val : ℤ)
            - ((src (s0 + col + (j : ℤ) - (stride : ℤ))).val : ℤ))
          * (((src (s0 + col + (j : ℤ) + (stride : ℤ))).val : ℤ)
            - ((src (s0 + col + (j : ℤ) - (stride : ℤ))).val : ℤ)) ≤ 130050 ∧
      (GetHistogramBatch env src stride s0 col st).index (col + (j : ℤ))
        = signedBin env.cos env.sin
            ((((src (s0 + col + (j : ℤ) + 1)).val : ℤ)
              - ((src (s0 + col + (j : ℤ) - 1)).val : ℤ) : ℤ) : ℚ)
            ((((src (s0 + col + (j : ℤ) + (stride : ℤ))).val : ℤ)
              - ((src (s0 + col + (j : ℤ) - (stride : ℤ))).val : ℤ) : ℤ) : ℚ) ∧
      (GetHistogramBatch env src stride s0 col st).value (col + (j : ℤ))
        = magnitude env
            ((((src (s0 + col + (j : ℤ) + 1)).val : ℤ)
              - ((src (s0 + col + (j : ℤ) - 1)).val : ℤ) : ℤ) : ℚ)
            ((((src (s0 + col + (j : ℤ) + (stride : ℤ))).val : ℤ)
              - ((src (s0 + col + (j : ℤ) - (stride : ℤ))).val : ℤ) : ℤ) : ℚ) := by
  have hlane : 8 * ((j / 8 : ℕ) : ℤ) + ((j % 8 : ℕ) : ℤ) = (j : ℤ) := by
    have := Nat.div_add_mod j 8
    exact_mod_cast this
  have a1 : s0 + col + 1 + (j : ℤ) = s0 + col + (j : ℤ) + 1 := by ring
  have a2 : s0 + col - 1 + (j : ℤ) = s0 + col + (j : ℤ) - 1 := by ring
  have a3 : s0 + col + (stride : ℤ) + (j : ℤ) = s0 + col + (j : ℤ) + (stride : ℤ) := by ring
  have a4 : s0 + col - (stride : ℤ) + (j : ℤ) = s0 + col + (j : ℤ) - (stride : ℤ) := by ring
  have hx := byte_difference_bounds (src (s0 + col + (j : ℤ) + 1)) (src (s0 + col + (j : ℤ) - 1))
  have hy := byte_difference_bounds (src (s0 + col + (j : ℤ) + (stride : ℤ)))
    (src (s0 + col + (j : ℤ) - (stride : ℤ)))
  have hb := GetHistogramBatch_apply env src stride s0 col st (col + (j : ℤ))
  have hin : col ≤ col + (j : ℤ) ∧ col + (j : ℤ) < col + 16 := by omega
  have e : s0 + (col + (j : ℤ)) = s0 + col + (j : ℤ) := by ring
  rw [if_pos hin, if_pos hin, e] at hb
  refine ⟨?_, ?_, hx, hy, square_sum_bound _ _ hx.1 hx.2 hy.1 hy.2, hb.1, hb.2⟩
  · rw [CovertDifference_Load, hlane, a1, a2]
  · rw [CovertDifference_Load, hlane, a3, a4]

/-- The statement of `central_difference` for lane 6 of the first batch of row 1
of the 16x16 step-edge image (the pixel of column 7, where `dx = 255`). -/
theorem central_difference_witness :
    CovertDifference (6 / 8) (Load stepImage ((16 : ℤ) + (1 : ℤ) + 1)) (Load stepImage ((16 : ℤ) + (1 : ℤ) - 1)) (6 % 8)
        = ((((stepImage ((16 : ℤ) + (1 : ℤ) + ((6 : ℕ) : ℤ) + 1)).val : ℤ)
            - ((stepImage ((16 : ℤ) + (1 : ℤ) + ((6 : ℕ) : ℤ) - 1)).val : ℤ) : ℤ) : ℚ) ∧
      CovertDifference (6 / 8) (Load stepImage ((16 : ℤ) + (1 : ℤ) + ((16 : ℕ) : ℤ)))
          (Load stepImage ((16 : ℤ) + (1 : ℤ) - ((16 : ℕ) : ℤ))) (6 % 8)
        = ((((stepImage ((16 : ℤ) + (1 : ℤ) + ((6 : ℕ) : ℤ) + ((16 : ℕ) : ℤ))).val : ℤ)
            - ((stepImage ((16 : ℤ) + (1 : ℤ) + ((6 : ℕ) : ℤ) - ((16 : ℕ) : ℤ))).val : ℤ) : ℤ) : ℚ) ∧
      (-255 ≤ ((stepImage ((16 : ℤ) + (1 : ℤ) + ((6 : ℕ) : ℤ) + 1)).val : ℤ) - ((stepImage ((16 : ℤ) + (1 : ℤ) + ((6 : ℕ) : ℤ) - 1)).val : ℤ)
        ∧ ((stepImage ((16 : ℤ) + (1 : ℤ) + ((6 : ℕ) : ℤ) + 1)).val : ℤ) - ((stepImage ((16 : ℤ) + (1 : ℤ) + ((6 : ℕ) : ℤ) - 1)).val : ℤ)
          ≤ 255) ∧
      (-255 ≤ ((stepImage ((16 : ℤ) + (1 : ℤ) + ((6 : ℕ) : ℤ) + ((16 : ℕ) : ℤ))).val : ℤ)
          - ((stepImage ((16 : ℤ) + (1 : ℤ) + ((6 : ℕ) : ℤ) - ((16 : ℕ) : ℤ))).val : ℤ)
        ∧ ((stepImage ((16 : ℤ) + (1 : ℤ) + ((6 : ℕ) : ℤ) + ((16 : ℕ) : ℤ))).val : ℤ)
          - ((stepImage ((16 : ℤ) + (1 : ℤ) + ((6 : ℕ) : ℤ) - ((16 : ℕ) : ℤ))).val : ℤ) ≤ 255) ∧
      (((stepImage ((16 : ℤ) + (1 : ℤ) + ((6 : ℕ) : ℤ) + 1)).val : ℤ) - ((stepImage ((16 : ℤ) + (1 : ℤ) + ((6 : ℕ) : ℤ) - 1)).val : ℤ))
          * (((stepImage ((16 : ℤ) + (1 : ℤ) + ((6 : ℕ) : ℤ) + 1)).val : ℤ) - ((stepImage ((16 : ℤ) + (1 : ℤ) + ((6 : ℕ) : ℤ) - 1)).val : ℤ))
        + (((stepImage ((16 : ℤ) + (1 : ℤ) + ((6 : ℕ) : ℤ) + ((16 : ℕ) : ℤ))).val : ℤ)
            - ((stepImage ((16 : ℤ) + (1 : ℤ) + ((6 : ℕ) : ℤ) - ((16 : ℕ) : ℤ))).val : ℤ))
          * (((stepImage ((16 : ℤ) + (1 : ℤ) + ((6 : ℕ) : ℤ) + ((16 : ℕ) : ℤ))).val : ℤ)
            - ((stepImage ((16 : ℤ) + (1 : ℤ) + ((6 : ℕ) : ℤ) - ((16 : ℕ) : ℤ))).val : ℤ)) ≤ 130050 ∧
      (GetHistogramBatch floatEnv stepImage 16 (16 : ℤ) (1 : ℤ) zeroState.lanes).index ((1 : ℤ) + ((6 : ℕ) : ℤ))
        = signedBin floatEnv.cos floatEnv.sin
            ((((stepImage ((16 : ℤ) + (1 : ℤ) + ((6 : ℕ) : ℤ) + 1)).val : ℤ)
              - ((stepImage ((16 : ℤ) + (1 : ℤ) + ((6 : ℕ) : ℤ) - 1)).val : ℤ) : ℤ) : ℚ)
            ((((stepImage ((16 : ℤ) + (1 : ℤ) + ((6 : ℕ) : ℤ) + ((16 : ℕ) : ℤ))).val : ℤ)
              - ((stepImage ((16 : ℤ) + (1 : ℤ) + ((6 : ℕ) : ℤ) - ((16 : ℕ) : ℤ))).val : ℤ) : ℤ) : ℚ) ∧
      (GetHistogramBatch floatEnv stepImage 16 (16 : ℤ) (1 : ℤ) zeroState.lanes).value ((1 : ℤ) + ((6 : ℕ) : ℤ))
        = magnitude floatEnv
            ((((stepImage ((16 : ℤ) + (1 : ℤ) + ((6 : ℕ) : ℤ) + 1)).val : ℤ)
              - ((stepImage ((16 : ℤ) + (1 : ℤ) + ((6 : ℕ) : ℤ) - 1)).val : ℤ) : ℤ) : ℚ)
            ((((stepImage ((16 : ℤ) + (1 : ℤ) + ((6 : ℕ) : ℤ) + ((16 : ℕ) : ℤ))).val : ℤ)
              - ((stepImage ((16 : ℤ) + (1 : ℤ) + ((6 : ℕ) : ℤ) - ((16 : ℕ) : ℤ))).val : ℤ) : ℤ) : ℚ) :=
  central_difference floatEnv stepImage 16 16 1 zeroState.lanes 6 (by decide)

theorem laneDelta_outside (t a : ℤ) (v : V4) (h : a < t ∨ t + 3 < a) : laneDelta t v a = 0 := by
  unfold laneDelta
  rw [if_neg (by omega), if_neg (by omega), if_neg (by omega), if_neg (by omega)]

/-- With bins in `[0, 18)` at the interior columns, the accumulation of a row
leaves every float outside the `(sx + 1) * 4 * 18` floats of the row buffer as
it was. -/
theorem rowAccumulate_frame (lanes : Lanes) (row width : ℕ) (buffer : Mem)
    (hw8 : width % 8 = 0) (hw : 16 ≤ width)
    (hidx : ∀ c : ℕ, 1 ≤ c → c + 2 ≤ width →
      0 ≤ lanes.index (c : ℤ) ∧ lanes.index (c : ℤ) < 18)
    (a : ℤ) (ha : ¬ (0 ≤ a ∧ a < (((width / 8 + 1) * 4 * Q2 : ℕ) : ℤ))) :
    rowAccumulate lanes row width buffer a = buffer a := by
  have hsize : (((width / 8 + 1) * 4 * Q2 : ℕ) : ℤ) = 72 * (((width / 8 : ℕ) : ℤ) + 1) := by
    unfold Q2
    push_cast
    ring
  rw [hsize] at ha
  rw [rowAccumulate_eq lanes row width buffer hw8 (by omega)]
  apply foldl_forRange_inv (fun (_ : ℕ) (b : Mem) => b a = buffer a) _ 1 (width - 1) (by omega)
    buffer rfl
  intro c b hc1 hc2 hb
  show pixelStep lanes (ky ((row + 4) % 8)) b c a = buffer a
  unfold pixelStep
  rw [addPixel_apply, hb]
  obtain ⟨h0, h1⟩ := hidx c hc1 (by omega)
  have hblk : (((c + 4) / 8 : ℕ) : ℤ) ≤ ((width / 8 : ℕ) : ℤ) := by
    have : (c + 4) / 8 ≤ width / 8 := by omega
    exact_mod_cast this
  have hblk0 : (0 : ℤ) ≤ (((c + 4) / 8 : ℕ) : ℤ) := by positivity
  rw [laneDelta_outside _ _ _ (by omega), add_zero]

/-- A merge with row argument `m ≤ sy` leaves every float outside the
`sx * sy * 18` floats of the grid as it was. -/
theorem AddToHistogram_frame (m sx sy size : ℕ) (st : State) (hsx : 1 ≤ sx) (hsy : 1 ≤ sy)
    (hm : m ≤ sy) (a : ℤ) (ha : ¬ (0 ≤ a ∧ a < ((sx * sy * Q2 : ℕ) : ℤ))) :
    (AddToHistogram m sx sy size st).histogram a = st.histogram a := by
  have hsxpos : (0 : ℤ) < (sx : ℤ) := by exact_mod_cast hsx
  have hN : ((sx * sy * Q2 : ℕ) : ℤ) = (sy : ℤ) * (sx : ℤ) * 18 := by
    unfold Q2
    push_cast
    ring
  rw [hN] at ha
  have hrow : a / 18 / (sx : ℤ) < 0 ∨ (sy : ℤ) ≤ a / 18 / (sx : ℤ) := by
    by_cases h0 : 0 ≤ a
    · right
      have h1 : (sy : ℤ) * (sx : ℤ) * 18 ≤ a := by
        by_contra h
        exact ha ⟨h0, not_le.mp h⟩
      have h2 : (sy : ℤ) * (sx : ℤ) ≤ a / 18 := Int.le_ediv_of_mul_le (by norm_num) h1
      exact Int.le_ediv_of_mul_le hsxpos h2
    · left
      have h1 : a / 18 < 0 := by omega
      exact Int.ediv_lt_of_lt_mul hsxpos (by linarith)
  have hm' : (m : ℤ) ≤ (sy : ℤ) := by exact_mod_cast hm
  have hsy' : (1 : ℤ) ≤ (sy : ℤ) := by exact_mod_cast hsy
  rw [AddToHistogram_address m sx sy size st hsx a, if_neg, if_neg, add_zero, add_zero]
  · rintro ⟨h1, h2⟩
    rcases h1 with h1 | h1
    · subst h1
      push_cast at h2
      omega
    · have : (m : ℤ) ≠ (sy : ℤ) := by exact_mod_cast h1
      omega
  · rintro ⟨h1, h2⟩
    have : (1 : ℤ) ≤ (m : ℤ) := by
      have : 1 ≤ m := Nat.one_le_iff_ne_zero.mpr h1
      exact_mod_cast this
    omega

/-- Claim C24.  For a valid width and height: the element of the row buffer
targeted by the accumulation of an interior column `c` with a bin in `[0, 18)`
has an index `18 * ((c + 4) / 8) + bin` in `[0, (sx + 1) * 18)`, so its four
floats lie inside the `(sx + 1) * 4 * 18` floats of the buffer; accordingly
`AddRowToBuffer` changes no float outside the row buffer (for any bins in
range, and for the bins the quantizer stores); and `AddToHistogram` with a
merge row `m` in `0 .. sy` changes no float outside the `sx * sy * 18` floats
of the grid, whatever the row buffer holds. -/
theorem writes_in_bounds (width height : ℕ) (hw8 : width % 8 = 0) (hw : 16 ≤ width)
    (hh8 : height % 8 = 0) (hh : 16 ≤ height) :
    (∀ (c : ℕ) (bin : ℤ), 1 ≤ c → c + 2 ≤ width → 0 ≤ bin → bin < 18 →
        0 ≤ 18 * (((c + 4) / 8 : ℕ) : ℤ) + bin ∧
        18 * (((c + 4) / 8 : ℕ) : ℤ) + bin < (((width / 8 + 1) * 18 : ℕ) : ℤ) ∧
        4 * (18 * (((c + 4) / 8 : ℕ) : ℤ) + bin) + 3 < (((width / 8 + 1) * 4 * Q2 : ℕ) : ℤ)) ∧
      (∀ (lanes : Lanes) (row : ℕ) (buffer : Mem) (a : ℤ),
        (∀ c : ℕ, 1 ≤ c → c + 2 ≤ width →
          0 ≤ lanes.index (c : ℤ) ∧ lanes.index (c : ℤ) < 18) →
        ¬ (0 ≤ a ∧ a < (((width / 8 + 1) * 4 * Q2 : ℕ) : ℤ)) →
        rowAccumulate lanes row width buffer a = buffer a) ∧
      (∀ (env : FloatEnv) (src : Bytes) (stride row : ℕ) (st : State) (a : ℤ),
        width < 2 ^ 63 →
        ¬ (0 ≤ a ∧ a < (((width / 8 + 1) * 4 * Q2 : ℕ) : ℤ)) →
        (AddRowToBuffer env src stride row width (AlignHi (width - 1) HA - HA) st).buffer a
          = st.buffer a) ∧
      (∀ (m size : ℕ) (st : State) (a : ℤ), m ≤ height / 8 →
        ¬ (0 ≤ a ∧ a < ((width / 8 * (height / 8) * Q2 : ℕ) : ℤ)) →
        (AddToHistogram m (width / 8) (height / 8) size st).histogram a = st.histogram a) := by
  refine ⟨?_, ?_, ?_, ?_⟩
  · intro c bin hc1 hc2 hb0 hb1
    have hblk : (((c + 4) / 8 : ℕ) : ℤ) ≤ ((width / 8 : ℕ) : ℤ) := by
      have : (c + 4) / 8 ≤ width / 8 := by omega
      exact_mod_cast this
    have hblk0 : (0 : ℤ) ≤ (((c + 4) / 8 : ℕ) : ℤ) := by positivity
    unfold Q2
    push_cast
    refine ⟨by omega, by omega, by omega⟩
  · intro lanes row buffer a hidx ha
    exact rowAccumulate_frame lanes row width buffer hw8 hw hidx a ha
  · intro env src stride row st a hw63 ha
    show rowAccumulate _ row width st.buffer a = st.buffer a
    apply rowAccumulate_frame _ row width st.buffer hw8 hw _ a ha
    intro c hc1 hc2
    rw [(rowLanes_interior env src stride row width st.lanes hw8 hw hw63 c hc1 hc2).1]
    exact pixelBin_range env src stride row c
  · intro m size st a hm ha
    exact AddToHistogram_frame m (width / 8) (height / 8) size st (by omega) (by omega) hm a ha

/-- The statement of `writes_in_bounds` for width 16 and height 16. -/
theorem writes_in_bounds_witness :
    (∀ (c : ℕ) (bin : ℤ), 1 ≤ c → c + 2 ≤ 16 → 0 ≤ bin → bin < 18 →
        0 ≤ 18 * (((c + 4) / 8 : ℕ) : ℤ) + bin ∧
        18 * (((c + 4) / 8 : ℕ) : ℤ) + bin < (((16 / 8 + 1) * 18 : ℕ) : ℤ) ∧
        4 * (18 * (((c + 4) / 8 : ℕ) : ℤ) + bin) + 3 < (((16 / 8 + 1) * 4 * Q2 : ℕ) : ℤ)) ∧
      (∀ (lanes : Lanes) (row : ℕ) (buffer : Mem) (a : ℤ),
        (∀ c : ℕ, 1 ≤ c → c + 2 ≤ 16 →
          0 ≤ lanes.index (c : ℤ) ∧ lanes.index (c : ℤ) < 18) →
        ¬ (0 ≤ a ∧ a < (((16 / 8 + 1) * 4 * Q2 : ℕ) : ℤ)) →
        rowAccumulate lanes row 16 buffer a = buffer a) ∧
      (∀ (env : FloatEnv) (src : Bytes) (stride row : ℕ) (st : State) (a : ℤ),
        16 < 2 ^ 63 →
        ¬ (0 ≤ a ∧ a < (((16 / 8 + 1) * 4 * Q2 : ℕ) : ℤ)) →
        (AddRowToBuffer env src stride row 16 (AlignHi (16 - 1) HA - HA) st).buffer a
          = st.buffer a) ∧
      (∀ (m size : ℕ) (st : State) (a : ℤ), m ≤ 16 / 8 →
        ¬ (0 ≤ a ∧ a < ((16 / 8 * (16 / 8) * Q2 : ℕ) : ℤ)) →
        (AddToHistogram m (16 / 8) (16 / 8) size st).histogram a = st.histogram a) :=
  writes_in_bounds 16 16 (by decide) (by decide) (by decide) (by decide)

/-- The batches of a row are the 16-lane batches at `batchColumns`. -/
theorem rowLanes_batches (env : FloatEnv) (src : Bytes) (stride row width aligned : ℕ)
    (lanes : Lanes) :
    rowLanes env src stride row width aligned lanes
      = (batchColumns width aligned).foldl
          (fun l c => GetHistogramBatch env src stride ((stride : ℤ) * (row : ℤ)) c l) lanes := by
  unfold rowLanes batchColumns
  simp only [List.foldl_append, List.foldl_cons, List.foldl_nil, List.foldl_map]

theorem batchColumns_sixteen : batchColumns 16 (AlignHi (16 - 1) HA - HA) = [1, -1] := by
  decide

/-- From width 24 on every batch lies inside the `width` elements of `_index`
and `_value`. -/
theorem batchColumns_in_bounds (width : ℕ) (hw8 : width % 8 = 0) (hw : 24 ≤ width)
    (hw63 : width < 2 ^ 63) (s : ℤ)
    (hs : s ∈ batchColumns width (AlignHi (width - 1) HA - HA)) :
    0 ≤ s ∧ s + 16 ≤ (width : ℤ) := by
  have hlast := lastBatch_offset width (by omega) hw63
  unfold batchColumns at hs
  rw [hlast] at hs
  simp only [List.mem_append, List.mem_map, List.mem_singleton, loopRange, HA, AlignHi,
    List.mem_range] at hs
  rcases hs with (hs | ⟨c, ⟨k, hk, rfl⟩, rfl⟩) | hs
  · subst hs
    omega
  · push_cast
    omega
  · subst hs
    omega

/-- The batches of a row cover every interior column. -/
theorem batchColumns_cover (width : ℕ) (hw8 : width % 8 = 0) (hw : 16 ≤ width)
    (hw63 : width < 2 ^ 63) (p : ℕ) (hp1 : 1 ≤ p) (hp2 : p + 2 ≤ width) :
    ∃ s ∈ batchColumns width (AlignHi (width - 1) HA - HA), s ≤ (p : ℤ) ∧ (p : ℤ) < s + 16 := by
  have hlast := lastBatch_offset width (by omega) hw63
  unfold batchColumns
  rw [hlast]
  by_cases ha : p ≤ 16
  · exact ⟨1, by simp, by omega, by omega⟩
  · by_cases hb : width ≤ p + 17
    · exact ⟨(width : ℤ) - 17, by simp, by omega, by omega⟩
    · refine ⟨((16 * (p / 16) : ℕ) : ℤ), ?_, by push_cast; omega, by push_cast; omega⟩
      simp only [List.mem_append, List.mem_map, List.mem_singleton, loopRange, HA, AlignHi,
        List.mem_range]
      left; right
      refine ⟨16 * (p / 16), ⟨p / 16 - 1, ?_, ?_⟩, rfl⟩
      · omega
      · omega

/-- Claim C25 fails at the smallest admitted width.  For `width = 16` the batch
columns of `AddRowToBuffer` are `1` and `-1` (`16 - 1 - 16` wraps in `size_t`
and steps the pointer back by one), so neither batch satisfies
`0 ≤ s ∧ s + 16 ≤ 16`: every row stores a bin and a magnitude into element 16
and into element -1 of the 16-element arrays `_index` and `_value`, whatever
they held.  From width 24 on every batch is in bounds, and for every admitted
width the batches cover the interior columns. -/
theorem batch_store_out_of_bounds :
    batchColumns 16 (AlignHi (16 - 1) HA - HA) = [1, -1] ∧
      ¬ (∀ s ∈ batchColumns 16 (AlignHi (16 - 1) HA - HA), 0 ≤ s ∧ s + 16 ≤ ((16 : ℕ) : ℤ)) ∧
      (∀ (env : FloatEnv) (src : Bytes) (stride row : ℕ) (lanes : Lanes),
        (rowLanes env src stride row 16 (AlignHi (16 - 1) HA - HA) lanes).index 16
            = signedBin env.cos env.sin (gradX src ((stride : ℤ) * (row : ℤ) + 16))
                (gradY src stride ((stride : ℤ) * (row : ℤ) + 16)) ∧
          (rowLanes env src stride row 16 (AlignHi (16 - 1) HA - HA) lanes).value 16
            = magnitude env (gradX src ((stride : ℤ) * (row : ℤ) + 16))
                (gradY src stride ((stride : ℤ) * (row : ℤ) + 16)) ∧
          (rowLanes env src stride row 16 (AlignHi (16 - 1) HA - HA) lanes).index (-1)
            = signedBin env.cos env.sin (gradX src ((stride : ℤ) * (row : ℤ) + -1))
                (gradY src stride ((stride : ℤ) * (row : ℤ) + -1)) ∧
          (rowLanes env src stride row 16 (AlignHi (16 - 1) HA - HA) lanes).value (-1)
            = magnitude env (gradX src ((stride : ℤ) * (row : ℤ) + -1))
                (gradY src stride ((stride : ℤ) * (row : ℤ) + -1))) ∧
      (∀ width : ℕ, width % 8 = 0 → 24 ≤ width → width < 2 ^ 63 →
        ∀ s ∈ batchColumns width (AlignHi (width - 1) HA - HA),
          0 ≤ s ∧ s + 16 ≤ (width : ℤ)) ∧
      (∀ width : ℕ, width % 8 = 0 → 16 ≤ width → width < 2 ^ 63 →
        ∀ p : ℕ, 1 ≤ p → p + 2 ≤ width →
          ∃ s ∈ batchColumns width (AlignHi (width - 1) HA - HA),
            s ≤ (p : ℤ) ∧ (p : ℤ) < s + 16) := by
  refine ⟨batchColumns_sixteen, ?_, ?_, ?_, ?_⟩
  · rw [batchColumns_sixteen]
    intro h
    have := h 1 (by simp)
    omega
  · intro env src stride row lanes
    rw [rowLanes_batches, batchColumns_sixteen]
    simp only [List.foldl_cons, List.foldl_nil]
    have h2 := fun p => GetHistogramBatch_apply env src stride ((stride : ℤ) * (row : ℤ)) (-1)
      (GetHistogramBatch env src stride ((stride : ℤ) * (row : ℤ)) 1 lanes) p
    have h1 := fun p => GetHistogramBatch_apply env src stride ((stride : ℤ) * (row : ℤ)) 1
      lanes p
    refine ⟨?_, ?_, ?_, ?_⟩
    · rw [(h2 16).1, if_neg (by omega), (h1 16).1, if_pos (by omega)]
    · rw [(h2 16).2, if_neg (by omega), (h1 16).2, if_pos (by omega)]
    · rw [(h2 (-1)).1, if_pos (by omega)]
    · rw [(h2 (-1)).2, if_pos (by omega)]
  · intro width hw8 hw hw63 s hs
    exact batchColumns_in_bounds width hw8 hw hw63 s hs
  · intro width hw8 hw hw63 p hp1 hp2
    exact batchColumns_cover width hw8 hw hw63 p hp1 hp2

section SearchArgmax

variable {α : Type} [LinearOrderedField α]

/-- With non-negative tables the unsigned bin is an index in `[0, 5)` whose
projection is the largest of the five. -/
theorem unsignedBin_argmax (cosT sinT : ℕ → α) (dx dy : α)
    (hcos : ∀ i < 5, 0 ≤ cosT i) (hsin : ∀ i < 5, 0 ≤ sinT i) :
    ∃ b : ℕ, b < 5 ∧ unsignedBin cosT sinT dx dy = (b : ℤ) ∧
      ∀ i < 5, |dx| * cosT i + |dy| * sinT i ≤ |dx| * cosT b + |dy| * sinT b := by
  obtain ⟨h0, hle, hcase⟩ := searchPrefix_invariant cosT sinT |dx| |dy| 5
  rcases hcase with ⟨hz, hi0⟩ | ⟨k, hk, h1, h2, _⟩
  · refine ⟨0, by norm_num, hi0, ?_⟩
    intro i hi
    have hi_le := hle i hi
    rw [hz] at hi_le
    exact le_trans hi_le (add_nonneg (mul_nonneg (abs_nonneg _) (hcos 0 (by norm_num)))
      (mul_nonneg (abs_nonneg _) (hsin 0 (by norm_num))))
  · refine ⟨k, hk, h1, ?_⟩
    intro i hi
    rw [h2]
    exact hle i hi

end SearchArgmax

theorem direction_nonneg (i : ℕ) (hi : i < 5) :
    0 ≤ Real.cos ((i : ℝ) * Real.pi / 9) ∧ 0 ≤ Real.sin ((i : ℝ) * Real.pi / 9) := by
  have hpi := Real.pi_pos
  have hi4 : (i : ℝ) ≤ 4 := by
    have : i ≤ 4 := by omega
    exact_mod_cast this
  have h0 : (0 : ℝ) ≤ (i : ℝ) := Nat.cast_nonneg i
  have p1 := mul_nonneg h0 hpi.le
  have p2 := mul_nonneg (sub_nonneg.mpr hi4) hpi.le
  constructor
  · apply Real.cos_nonneg_of_mem_Icc
    constructor <;> linarith
  · apply Real.sin_nonneg_of_nonneg_of_le_pi <;> linarith

theorem direction_sin_max :
    (∀ i : ℕ, i < 4 →
        Real.sin ((i : ℝ) * Real.pi / 9) < Real.sin (((4 : ℕ) : ℝ) * Real.pi / 9)) ∧
      0 < Real.sin (((4 : ℕ) : ℝ) * Real.pi / 9) := by
  have hpi := Real.pi_pos
  constructor
  · intro i hi
    have hi3 : (i : ℝ) ≤ 3 := by
      have : i ≤ 3 := by omega
      exact_mod_cast this
    have h0 : (0 : ℝ) ≤ (i : ℝ) := Nat.cast_nonneg i
    have p1 := mul_nonneg h0 hpi.le
    have p2 := mul_nonneg (sub_nonneg.mpr hi3) hpi.le
    apply Real.sin_lt_sin_of_lt_of_le_pi_div_two
    · linarith
    · push_cast; linarith
    · push_cast; linarith
  · apply Real.sin_pos_of_pos_of_lt_pi
    · push_cast; linarith
    · push_cast; linarith

/-- Every one of the 18 directions projects the gradient at most as far as one
of the five folded directions projects `(|dx|, |dy|)`. -/
theorem direction_folded (dx dy : ℝ) (j : ℕ) (hj : j < 18) :
    ∃ i : ℕ, i < 5 ∧
      dx * Real.cos ((j : ℝ) * Real.pi / 9) + dy * Real.sin ((j : ℝ) * Real.pi / 9)
        ≤ |dx| * Real.cos ((i : ℝ) * Real.pi / 9) + |dy| * Real.sin ((i : ℝ) * Real.pi / 9) := by
  have hx1 := le_abs_self dx
  have hx2 := neg_abs_le dx
  have hy1 := le_abs_self dy
  have hy2 := neg_abs_le dy
  by_cases h1 : j < 5
  · obtain ⟨hc, hs⟩ := direction_nonneg j h1
    refine ⟨j, h1, ?_⟩
    nlinarith [mul_le_mul_of_nonneg_right hx1 hc, mul_le_mul_of_nonneg_right hy1 hs]
  · by_cases h2 : j < 10
    · obtain ⟨hc, hs⟩ := direction_nonneg (9 - j) (by omega)
      refine ⟨9 - j, by omega, ?_⟩
      have e : (j : ℝ) * Real.pi / 9 = Real.pi - ((9 - j : ℕ) : ℝ) * Real.pi / 9 := by
        rw [Nat.cast_sub (by omega)]; push_cast; ring
      rw [e, Real.cos_pi_sub, Real.sin_pi_sub]
      nlinarith [mul_le_mul_of_nonneg_right hx2 hc, mul_le_mul_of_nonneg_right hy1 hs]
    · by_cases h3 : j < 14
      · obtain ⟨hc, hs⟩ := direction_nonneg (j - 9) (by omega)
        refine ⟨j - 9, by omega, ?_⟩
        have e : (j : ℝ) * Real.pi / 9 = ((j - 9 : ℕ) : ℝ) * Real.pi / 9 + Real.pi := by
          rw [Nat.cast_sub (by omega)]; push_cast; ring
        rw [e, Real.cos_add_pi, Real.sin_add_pi]
        nlinarith [mul_le_mul_of_nonneg_right hx2 hc, mul_le_mul_of_nonneg_right hy2 hs]
      · obtain ⟨hc, hs⟩ := direction_nonneg (18 - j) (by omega)
        refine ⟨18 - j, by omega, ?_⟩
        have e : (j : ℝ) * Real.pi / 9 = 2 * Real.pi - ((18 - j : ℕ) : ℝ) * Real.pi / 9 := by
          rw [Nat.cast_sub (by omega)]; push_cast; ring
        rw [e, Real.cos_two_pi_sub, Real.sin_two_pi_sub]
        nlinarith [mul_le_mul_of_nonneg_right hx1 hc, mul_le_mul_of_nonneg_right hy2 hs]

/-- The promoted bin projects the gradient exactly as far as the unsigned bin
projects `(|dx|, |dy|)`. -/
theorem promote_projection (dx dy : ℝ) (b : ℕ) (hb : b < 5)
    (hvert : dx = 0 → dy < 0 → b = 4) :
    dx * Real.cos (((promote dx dy (b : ℤ) : ℤ) : ℝ) * Real.pi / 9)
        + dy * Real.sin (((promote dx dy (b : ℤ) : ℤ) : ℝ) * Real.pi / 9)
      = |dx| * Real.cos ((b : ℝ) * Real.pi / 9) + |dy| * Real.sin ((b : ℝ) * Real.pi / 9) := by
  rw [promote_cases dx dy (b : ℤ) (by positivity) (by exact_mod_cast (by omega : b ≤ 4))]
  by_cases c1 : 0 ≤ dx ∧ 0 ≤ dy
  · rw [if_pos c1, abs_of_nonneg c1.1, abs_of_nonneg c1.2]
    push_cast
    rfl
  · rw [if_neg c1]
    by_cases c2 : dx < 0 ∧ 0 ≤ dy
    · rw [if_pos c2, abs_of_neg c2.1, abs_of_nonneg c2.2]
      have e : (((9 - (b : ℤ) : ℤ)) : ℝ) * Real.pi / 9 = Real.pi - (b : ℝ) * Real.pi / 9 := by
        push_cast; ring
      rw [e, Real.cos_pi_sub, Real.sin_pi_sub]
      ring
    · rw [if_neg c2]
      by_cases c3 : 0 < dx ∧ dy < 0
      · rw [if_pos c3, abs_of_pos c3.1, abs_of_neg c3.2]
        by_cases hb0 : b = 0
        · subst hb0
          norm_num
        · have hmod : (18 - (b : ℤ)) % 18 = 18 - (b : ℤ) := by omega
          have e : (((18 - (b : ℤ) : ℤ)) : ℝ) * Real.pi / 9
              = 2 * Real.pi - (b : ℝ) * Real.pi / 9 := by
            push_cast; ring
          rw [hmod, e, Real.cos_two_pi_sub, Real.sin_two_pi_sub]
          ring
      · rw [if_neg c3]
        by_cases c4 : dx < 0 ∧ dy < 0
        · rw [if_pos c4, abs_of_neg c4.1, abs_of_neg c4.2]
          have e : (((9 + (b : ℤ) : ℤ)) : ℝ) * Real.pi / 9 = (b : ℝ) * Real.pi / 9 + Real.pi := by
            push_cast; ring
          rw [e, Real.cos_add_pi, Real.sin_add_pi]
          ring
        · rw [if_neg c4]
          have hdx : dx = 0 := by
            by_contra hne
            rcases lt_or_gt_of_ne hne with h | h
            · rcases lt_or_le dy 0 with h' | h'
              · exact c4 ⟨h, h'⟩
              · exact c2 ⟨h, h'⟩
            · rcases lt_or_le dy 0 with h' | h'
              · exact c3 ⟨h, h'⟩
              · exact c1 ⟨h.le, h'⟩
          have hdy : dy < 0 := by
            by_contra hne
            exact c1 ⟨by rw [hdx], not_lt.mp hne⟩
          have hb4 := hvert hdx hdy
          subst hb4
          rw [hdx, abs_of_neg hdy]
          have e : (((17 - ((4 : ℕ) : ℤ) : ℤ)) : ℝ) * Real.pi / 9
              = ((4 : ℕ) : ℝ) * Real.pi / 9 + Real.pi := by
            push_cast; ring
          rw [e, Real.sin_add_pi]
          simp

section GenericLemmas

variable {α : Type} [LinearOrderedField α]

/-- The invariant of the loop of the generic quantizer after `n` iterations:
`bestDot` is non-negative and bounds the projections of the directions seen and
of their opposites; either nothing exceeded `0` and `bestIndex` is still `0`,
or `bestIndex` names a direction seen, or the opposite of one, whose projection
is `bestDot`. -/
theorem directionStep_invariant (cosT sinT : ℕ → α) (size : ℕ) (dx dy : α) (n : ℕ) :
    0 ≤ ((List.range n).foldl (directionStep cosT sinT size dx dy) (0, 0)).1 ∧
      (∀ i < n,
        dx * cosT i + dy * sinT i
            ≤ ((List.range n).foldl (directionStep cosT sinT size dx dy) (0, 0)).1 ∧
          0 - (dx * cosT i + dy * sinT i)
            ≤ ((List.range n).foldl (directionStep cosT sinT size dx dy) (0, 0)).1) ∧
      ((((List.range n).foldl (directionStep cosT sinT size dx dy) (0, 0)).1 = 0 ∧
          ((List.range n).foldl (directionStep cosT sinT size dx dy) (0, 0)).2 = 0) ∨
        ∃ k < n,
          (((List.range n).foldl (directionStep cosT sinT size dx dy) (0, 0)).2 = (k : ℤ) ∧
            dx * cosT k + dy * sinT k
              = ((List.range n).foldl (directionStep cosT sinT size dx dy) (0, 0)).1) ∨
          (((List.range n).foldl (directionStep cosT sinT size dx dy) (0, 0)).2
              = (size : ℤ) + (k : ℤ) ∧
            0 - (dx * cosT k + dy * sinT k)
              = ((List.range n).foldl (directionStep cosT sinT size dx dy) (0, 0)).1)) := by
  induction n with
  | zero => simp
  | succ n ih =>
    obtain ⟨h0, hle, hcase⟩ := ih
    rw [List.range_succ, List.foldl_append]
    simp only [List.foldl_cons, List.foldl_nil]
    generalize (List.range n).foldl (directionStep cosT sinT size dx dy) (0, 0) = s
      at h0 hle hcase
    simp only [directionStep]
    generalize hd : dx * cosT n + dy * sinT n = d
    refine ⟨le_max_of_le_right (le_max_of_le_right h0), ?_, ?_⟩
    · intro i hi
      rcases Nat.lt_succ_iff_lt_or_eq.mp hi with h | h
      · exact ⟨le_max_of_le_right (le_max_of_le_right (hle i h).1),
          le_max_of_le_right (le_max_of_le_right (hle i h).2)⟩
      · subst h
        rw [hd]
        exact ⟨le_max_of_le_right (le_max_left _ _), le_max_left _ _⟩
    · by_cases hneg : max d s.1 < 0 - d
      · right
        refine ⟨n, Nat.lt_succ_self n, Or.inr ⟨by rw [if_pos hneg], ?_⟩⟩
        rw [hd, max_eq_left hneg.le]
      · rw [if_neg hneg, max_eq_right (not_lt.mp hneg)]
        by_cases hpos : s.1 < d
        · right
          refine ⟨n, Nat.lt_succ_self n, Or.inl ⟨by rw [if_pos hpos], ?_⟩⟩
          rw [hd, max_eq_left hpos.le]
        · rw [if_neg hpos, max_eq_right (not_lt.mp hpos)]
          rcases hcase with h | ⟨k, hk, h⟩
          · exact Or.inl h
          · exact Or.inr ⟨k, Nat.lt_succ_of_lt hk, h⟩

end GenericLemmas

/-- With exact cosines and sines the stored bin projects the gradient at least
as far as every one of the 18 directions. -/
theorem signedBin_attains (dx dy : ℝ) (j : ℕ) (hj : j < 18) :
    dx * Real.cos ((j : ℝ) * Real.pi / 9) + dy * Real.sin ((j : ℝ) * Real.pi / 9)
      ≤ dx * Real.cos (((signedBin (fun i : ℕ => Real.cos ((i : ℝ) * Real.pi / 9))
            (fun i : ℕ => Real.sin ((i : ℝ) * Real.pi / 9)) dx dy : ℤ) : ℝ) * Real.pi / 9)
        + dy * Real.sin (((signedBin (fun i : ℕ => Real.cos ((i : ℝ) * Real.pi / 9))
            (fun i : ℕ => Real.sin ((i : ℝ) * Real.pi / 9)) dx dy : ℤ) : ℝ) * Real.pi / 9) := by
  obtain ⟨b, hb, hub, hmax⟩ := unsignedBin_argmax
    (fun i : ℕ => Real.cos ((i : ℝ) * Real.pi / 9))
    (fun i : ℕ => Real.sin ((i : ℝ) * Real.pi / 9)) dx dy
    (fun i hi => (direction_nonneg i hi).1) (fun i hi => (direction_nonneg i hi).2)
  obtain ⟨i, hi, hle⟩ := direction_folded dx dy j hj
  have hvert : dx = 0 → dy < 0 → b = 4 := by
    intro hx hy
    have h4 := unsignedBin_vertical (fun i : ℕ => Real.cos ((i : ℝ) * Real.pi / 9))
      (fun i : ℕ => Real.sin ((i : ℝ) * Real.pi / 9)) dy (ne_of_lt hy)
      direction_sin_max.1 direction_sin_max.2
    rw [hx] at hub
    rw [h4] at hub
    exact_mod_cast hub.symm
  rw [signedBin, hub, promote_projection dx dy b hb hvert]
  exact le_trans hle (hmax i hi)

theorem signedBin_range_real (dx dy : ℝ) :
    0 ≤ signedBin (fun i : ℕ => Real.cos ((i : ℝ) * Real.pi / 9))
        (fun i : ℕ => Real.sin ((i : ℝ) * Real.pi / 9)) dx dy ∧
      signedBin (fun i : ℕ => Real.cos ((i : ℝ) * Real.pi / 9))
        (fun i : ℕ => Real.sin ((i : ℝ) * Real.pi / 9)) dx dy < 18 := by
  obtain ⟨h0, h4⟩ := unsignedBin_range (fun i : ℕ => Real.cos ((i : ℝ) * Real.pi / 9))
    (fun i : ℕ => Real.sin ((i : ℝ) * Real.pi / 9)) dx dy
  rw [signedBin, promote_cases _ _ _ h0 h4]
  split_ifs <;> omega

/-- With exact cosines and sines the bin of the generic quantizer (`size = 9`)
is one of the 18 directions and projects the gradient at least as far as every
one of them. -/
theorem HogDirectionHistograms_attains (dx dy : ℝ) :
    (0 ≤ HogDirectionHistograms (fun i : ℕ => Real.cos ((i : ℝ) * Real.pi / 9))
          (fun i : ℕ => Real.sin ((i : ℝ) * Real.pi / 9)) 9 dx dy ∧
        HogDirectionHistograms (fun i : ℕ => Real.cos ((i : ℝ) * Real.pi / 9))
          (fun i : ℕ => Real.sin ((i : ℝ) * Real.pi / 9)) 9 dx dy < 18) ∧
      ∀ j : ℕ, j < 18 →
        dx * Real.cos ((j : ℝ) * Real.pi / 9) + dy * Real.sin ((j : ℝ) * Real.pi / 9)
          ≤ dx * Real.cos (((HogDirectionHistograms
                (fun i : ℕ => Real.cos ((i : ℝ) * Real.pi / 9))
                (fun i : ℕ => Real.sin ((i : ℝ) * Real.pi / 9)) 9 dx dy : ℤ) : ℝ) * Real.pi / 9)
            + dy * Real.sin (((HogDirectionHistograms
                (fun i : ℕ => Real.cos ((i : ℝ) * Real.pi / 9))
                (fun i : ℕ => Real.sin ((i : ℝ) * Real.pi / 9)) 9 dx dy : ℤ) : ℝ)
                  * Real.pi / 9) := by
  obtain ⟨h0, hle, hcase⟩ := directionStep_invariant
    (fun i : ℕ => Real.cos ((i : ℝ) * Real.pi / 9))
    (fun i : ℕ => Real.sin ((i : ℝ) * Real.pi / 9)) 9 dx dy 9
  unfold HogDirectionHistograms
  generalize (List.range 9).foldl (directionStep (fun i : ℕ => Real.cos ((i : ℝ) * Real.pi / 9))
    (fun i : ℕ => Real.sin ((i : ℝ) * Real.pi / 9)) 9 dx dy) (0, 0) = s at h0 hle hcase
  have hopp : ∀ k : ℕ,
      dx * Real.cos ((9 + (k : ℝ)) * Real.pi / 9) + dy * Real.sin ((9 + (k : ℝ)) * Real.pi / 9)
        = 0 - (dx * Real.cos ((k : ℝ) * Real.pi / 9) + dy * Real.sin ((k : ℝ) * Real.pi / 9)) := by
    intro k
    have e : (9 + (k : ℝ)) * Real.pi / 9 = (k : ℝ) * Real.pi / 9 + Real.pi := by ring
    rw [e, Real.cos_add_pi, Real.sin_add_pi]
    ring
  have hbound : ∀ j : ℕ, j < 18 →
      dx * Real.cos ((j : ℝ) * Real.pi / 9) + dy * Real.sin ((j : ℝ) * Real.pi / 9) ≤ s.1 := by
    intro j hj
    by_cases h9 : j < 9
    · exact (hle j h9).1
    · have e : (j : ℝ) = 9 + ((j - 9 : ℕ) : ℝ) := by
        rw [Nat.cast_sub (by omega)]; push_cast; ring
      rw [e, hopp]
      exact (hle (j - 9) (by omega)).2
  have hval : (0 ≤ s.2 ∧ s.2 < 18) ∧
      dx * Real.cos (((s.2 : ℤ) : ℝ) * Real.pi / 9) + dy * Real.sin (((s.2 : ℤ) : ℝ) * Real.pi / 9)
        = s.1 := by
    rcases hcase with ⟨hz, hi0⟩ | ⟨k, hk, ⟨hi, hv⟩ | ⟨hi, hv⟩⟩
    · rw [hi0, hz]
      refine ⟨by omega, ?_⟩
      have h1 := (hle 0 (by norm_num)).1
      have h2 := (hle 0 (by norm_num)).2
      rw [hz] at h1 h2
      push_cast at h1 h2 ⊢
      linarith
    · rw [hi]
      refine ⟨by omega, ?_⟩
      push_cast
      exact hv
    · rw [hi]
      refine ⟨by omega, ?_⟩
      push_cast
      rw [hopp]
      exact hv
  refine ⟨hval.1, ?_⟩
  intro j hj
  rw [hval.2]
  exact hbound j hj

/-- Claim C26.  For every integer gradient, with the tables `cos(i*pi/9)` and
`sin(i*pi/9)` taken as exact reals, the bin `k` stored by the folded quantizer
(5-direction search on `(|dx|, |dy|)`, then sign promotion) lies in `[0, 18)`
and its projection `dx*cos(k*pi/9) + dy*sin(k*pi/9)` is at least the projection
of every direction `j` in `[0, 18)`: it attains the maximum of a brute-force
search over the 18 directions.  The generic quantizer
`HogDirectionHistograms` with `size = 9` (directions `i` and `9 + i`) stores a
bin in `[0, 18)` that attains the same maximum, so both bins have the same
projection. -/
theorem folded_search_is_brute_force (dx dy : ℤ) (j : ℕ) (hj : j < 18) :
    (0 ≤ signedBin (fun i : ℕ => Real.cos ((i : ℝ) * Real.pi / 9))
          (fun i : ℕ => Real.sin ((i : ℝ) * Real.pi / 9)) (dx : ℝ) (dy : ℝ) ∧
        signedBin (fun i : ℕ => Real.cos ((i : ℝ) * Real.pi / 9))
          (fun i : ℕ => Real.sin ((i : ℝ) * Real.pi / 9)) (dx : ℝ) (dy : ℝ) < 18) ∧
      (dx : ℝ) * Real.cos ((j : ℝ) * Real.pi / 9) + (dy : ℝ) * Real.sin ((j : ℝ) * Real.pi / 9)
        ≤ (dx : ℝ) * Real.cos (((signedBin (fun i : ℕ => Real.cos ((i : ℝ) * Real.pi / 9))
              (fun i : ℕ => Real.sin ((i : ℝ) * Real.pi / 9)) (dx : ℝ) (dy : ℝ) : ℤ) : ℝ)
                * Real.pi / 9)
          + (dy : ℝ) * Real.sin (((signedBin (fun i : ℕ => Real.cos ((i : ℝ) * Real.pi / 9))
              (fun i : ℕ => Real.sin ((i : ℝ) * Real.pi / 9)) (dx : ℝ) (dy : ℝ) : ℤ) : ℝ)
                * Real.pi / 9) ∧
      (0 ≤ HogDirectionHistograms (fun i : ℕ => Real.cos ((i : ℝ) * Real.pi / 9))
          (fun i : ℕ => Real.sin ((i : ℝ) * Real.pi / 9)) 9 (dx : ℝ) (dy : ℝ) ∧
        HogDirectionHistograms (fun i : ℕ => Real.cos ((i : ℝ) * Real.pi / 9))
          (fun i : ℕ => Real.sin ((i : ℝ) * Real.pi / 9)) 9 (dx : ℝ) (dy : ℝ) < 18) ∧
      (dx : ℝ) * Real.cos (((signedBin (fun i : ℕ => Real.cos ((i : ℝ) * Real.pi / 9))
            (fun i : ℕ => Real.sin ((i : ℝ) * Real.pi / 9)) (dx : ℝ) (dy : ℝ) : ℤ) : ℝ)
              * Real.pi / 9)
          + (dy : ℝ) * Real.sin (((signedBin (fun i : ℕ => Real.cos ((i : ℝ) * Real.pi / 9))
            (fun i : ℕ => Real.sin ((i : ℝ) * Real.pi / 9)) (dx : ℝ) (dy : ℝ) : ℤ) : ℝ)
              * Real.pi / 9)
        = (dx : ℝ) * Real.cos (((HogDirectionHistograms
              (fun i : ℕ => Real.cos ((i : ℝ) * Real.pi / 9))
              (fun i : ℕ => Real.sin ((i : ℝ) * Real.pi / 9)) 9 (dx : ℝ) (dy : ℝ) : ℤ) : ℝ)
                * Real.pi / 9)
          + (dy : ℝ) * Real.sin (((HogDirectionHistograms
              (fun i : ℕ => Real.cos ((i : ℝ) * Real.pi / 9))
              (fun i : ℕ => Real.sin ((i : ℝ) * Real.pi / 9)) 9 (dx : ℝ) (dy : ℝ) : ℤ) : ℝ)
                * Real.pi / 9) := by
  obtain ⟨hk0, hk1⟩ := signedBin_range_real (dx : ℝ) (dy : ℝ)
  obtain ⟨⟨hg0, hg1⟩, hgmax⟩ := HogDirectionHistograms_attains (dx : ℝ) (dy : ℝ)
  refine ⟨⟨hk0, hk1⟩, signedBin_attains (dx : ℝ) (dy : ℝ) j hj, ⟨hg0, hg1⟩, ?_⟩
  apply le_antisymm
  · have h := hgmax (signedBin (fun i : ℕ => Real.cos ((i : ℝ) * Real.pi / 9))
      (fun i : ℕ => Real.sin ((i : ℝ) * Real.pi / 9)) (dx : ℝ) (dy : ℝ)).toNat (by omega)
    have e : (((signedBin (fun i : ℕ => Real.cos ((i : ℝ) * Real.pi / 9))
        (fun i : ℕ => Real.sin ((i : ℝ) * Real.pi / 9)) (dx : ℝ) (dy : ℝ)).toNat : ℕ) : ℝ)
        = ((signedBin (fun i : ℕ => Real.cos ((i : ℝ) * Real.pi / 9))
          (fun i : ℕ => Real.sin ((i : ℝ) * Real.pi / 9)) (dx : ℝ) (dy : ℝ) : ℤ) : ℝ) := by
      have := Int.toNat_of_nonneg hk0
      exact_mod_cast this
    rw [e] at h
    exact h
  · have h := signedBin_attains (dx : ℝ) (dy : ℝ)
      (HogDirectionHistograms (fun i : ℕ => Real.cos ((i : ℝ) * Real.pi / 9))
        (fun i : ℕ => Real.sin ((i : ℝ) * Real.pi / 9)) 9 (dx : ℝ) (dy : ℝ)).toNat (by omega)
    have e : (((HogDirectionHistograms (fun i : ℕ => Real.cos ((i : ℝ) * Real.pi / 9))
        (fun i : ℕ => Real.sin ((i : ℝ) * Real.pi / 9)) 9 (dx : ℝ) (dy : ℝ)).toNat : ℕ) : ℝ)
        = ((HogDirectionHistograms (fun i : ℕ => Real.cos ((i : ℝ) * Real.pi / 9))
          (fun i : ℕ => Real.sin ((i : ℝ) * Real.pi / 9)) 9 (dx : ℝ) (dy : ℝ) : ℤ) : ℝ) := by
      have := Int.toNat_of_nonneg hg0
      exact_mod_cast this
    rw [e] at h
    exact h

/-- The statement of `folded_search_is_brute_force` for the gradient `(3, -4)`
and the direction `j = 7`. -/
theorem folded_search_is_brute_force_witness :
    (0 ≤ signedBin (fun i : ℕ => Real.cos ((i : ℝ) * Real.pi / 9))
          (fun i : ℕ => Real.sin ((i : ℝ) * Real.pi / 9)) ((3 : ℤ) : ℝ) ((-4 : ℤ) : ℝ) ∧
        signedBin (fun i : ℕ => Real.cos ((i : ℝ) * Real.pi / 9))
          (fun i : ℕ => Real.sin ((i : ℝ) * Real.pi / 9)) ((3 : ℤ) : ℝ) ((-4 : ℤ) : ℝ) < 18) ∧
      ((3 : ℤ) : ℝ) * Real.cos (((7 : ℕ) : ℝ) * Real.pi / 9) + ((-4 : ℤ) : ℝ) * Real.sin (((7 : ℕ) : ℝ) * Real.pi / 9)
        ≤ ((3 : ℤ) : ℝ) * Real.cos (((signedBin (fun i : ℕ => Real.cos ((i : ℝ) * Real.pi / 9))
              (fun i : ℕ => Real.sin ((i : ℝ) * Real.pi / 9)) ((3 : ℤ) : ℝ) ((-4 : ℤ) : ℝ) : ℤ) : ℝ)
                * Real.pi / 9)
          + ((-4 : ℤ) : ℝ) * Real.sin (((signedBin (fun i : ℕ => Real.cos ((i : ℝ) * Real.pi / 9))
              (fun i : ℕ => Real.sin ((i : ℝ) * Real.pi / 9)) ((3 : ℤ) : ℝ) ((-4 : ℤ) : ℝ) : ℤ) : ℝ)
                * Real.pi / 9) ∧
      (0 ≤ HogDirectionHistograms (fun i : ℕ => Real.cos ((i : ℝ) * Real.pi / 9))
          (fun i : ℕ => Real.sin ((i : ℝ) * Real.pi / 9)) 9 ((3 : ℤ) : ℝ) ((-4 : ℤ) : ℝ) ∧
        HogDirectionHistograms (fun i : ℕ => Real.cos ((i : ℝ) * Real.pi / 9))
          (fun i : ℕ => Real.sin ((i : ℝ) * Real.pi / 9)) 9 ((3 : ℤ) : ℝ) ((-4 : ℤ) : ℝ) < 18) ∧
      ((3 : ℤ) : ℝ) * Real.cos (((signedBin (fun i : ℕ => Real.cos ((i : ℝ) * Real.pi / 9))
            (fun i : ℕ => Real.sin ((i : ℝ) * Real.pi / 9)) ((3 : ℤ) : ℝ) ((-4 : ℤ) : ℝ) : ℤ) : ℝ)
              * Real.pi / 9)
          + ((-4 : ℤ) : ℝ) * Real.sin (((signedBin (fun i : ℕ => Real.cos ((i : ℝ) * Real.pi / 9))
            (fun i : ℕ => Real.sin ((i : ℝ) * Real.pi / 9)) ((3 : ℤ) : ℝ) ((-4 : ℤ) : ℝ) : ℤ) : ℝ)
              * Real.pi / 9)
        = ((3 : ℤ) : ℝ) * Real.cos (((HogDirectionHistograms
              (fun i : ℕ => Real.cos ((i : ℝ) * Real.pi / 9))
              (fun i : ℕ => Real.sin ((i : ℝ) * Real.pi / 9)) 9 ((3 : ℤ) : ℝ) ((-4 : ℤ) : ℝ) : ℤ) : ℝ)
                * Real.pi / 9)
          + ((-4 : ℤ) : ℝ) * Real.sin (((HogDirectionHistograms
              (fun i : ℕ => Real.cos ((i : ℝ) * Real.pi / 9))
              (fun i : ℕ => Real.sin ((i : ℝ) * Real.pi / 9)) 9 ((3 : ℤ) : ℝ) ((-4 : ℤ) : ℝ) : ℤ) : ℝ)
                * Real.pi / 9) :=
  folded_search_is_brute_force 3 (-4) 7 (by decide)

theorem gridSum_congr_gradients (env : FloatEnv) (src1 src2 : Bytes) (s1 s2 width height : ℕ)
    (hw : 2 ≤ width) (hh : 2 ≤ height)
    (hgrad : ∀ r c : ℕ, 1 ≤ r → r + 2 ≤ height → 1 ≤ c → c + 2 ≤ width →
      gradX src1 ((s1 : ℤ) * (r : ℤ) + (c : ℤ)) = gradX src2 ((s2 : ℤ) * (r : ℤ) + (c : ℤ)) ∧
      gradY src1 s1 ((s1 : ℤ) * (r : ℤ) + (c : ℤ))
        = gradY src2 s2 ((s2 : ℤ) * (r : ℤ) + (c : ℤ)))
    (cy cx k : ℕ) :
    gridSum env src1 s1 width height cy cx k = gridSum env src2 s2 width height cy cx k := by
  unfold gridSum
  apply Finset.sum_congr rfl
  intro r hr
  apply Finset.sum_congr rfl
  intro c hc
  rw [Finset.mem_Ico] at hr hc
  obtain ⟨hx, hy⟩ := hgrad r c hr.1 (by omega) hc.1 (by omega)
  unfold pixelBin pixelMag
  rw [hx, hy]

/-- The descriptor is a function of the gradients of the interior pixels: two
valid images with the same interior gradients get the same descriptor. -/
theorem features_congr_gradients (env : FloatEnv) (src1 src2 : Bytes)
    (s1 s2 width height : ℕ) (g1 g2 : State) (f1 f2 : Mem)
    (hv1 : Valid s1 width height) (hv2 : Valid s2 width height)
    (hgrad : ∀ r c : ℕ, 1 ≤ r → r + 2 ≤ height → 1 ≤ c → c + 2 ≤ width →
      gradX src1 ((s1 : ℤ) * (r : ℤ) + (c : ℤ)) = gradX src2 ((s2 : ℤ) * (r : ℤ) + (c : ℤ)) ∧
      gradY src1 s1 ((s1 : ℤ) * (r : ℤ) + (c : ℤ))
        = gradY src2 s2 ((s2 : ℤ) * (r : ℤ) + (c : ℤ)))
    (a : ℤ) (ha0 : 0 ≤ a) (ha1 : a < ((height / 8 * (width / 8) * 31 : ℕ) : ℤ)) :
    HogExtractFeatures env src1 s1 width height g1 f1 a
      = HogExtractFeatures env src2 s2 width height g2 f2 a := by
  have hH : ∀ b : ℤ, 0 ≤ b → b < ((18 * (width / 8) * (height / 8) : ℕ) : ℤ) →
      (runState env src1 s1 width height g1).histogram b
        = (runState env src2 s2 width height g2).histogram b := by
    intro b hb0 hb1
    obtain ⟨cy, cx, k, hcy, hcx, hk, rfl⟩ := grid_address (width / 8) (height / 8) b hb0 hb1
    rw [runState_gridSum env src1 s1 width height g1 hv1 cy cx k hcy hcx hk,
      runState_gridSum env src2 s2 width height g2 hv2 cy cx k hcy hcx hk]
    obtain ⟨_, _, hw, hh, _, _⟩ := hv1
    exact gridSum_congr_gradients env src1 src2 s1 s2 width height (by omega) (by omega)
      hgrad cy cx k
  have hN : ∀ b : ℤ, 0 ≤ b → b < ((width / 8 * (height / 8) : ℕ) : ℤ) →
      (runState env src1 s1 width height g1).norm b
        = (runState env src2 s2 width height g2).norm b := by
    intro b hb0 hb1
    rw [runState_norm, runState_norm]
    apply computeNorm_congr _ _ _ _ _ _ _ b hb0 hb1
    · intro c hc0 hc1
      apply hH c hc0
      have e : 18 * (width / 8 * (height / 8)) = 18 * (width / 8) * (height / 8) := by ring
      rw [← e]
      exact hc1
    · intro c hc0 hc1
      unfold resize
      rw [if_pos ⟨hc0, hc1⟩, if_pos ⟨hc0, hc1⟩]
  have hC : C = 8 := rfl
  obtain ⟨n, rfl⟩ := Int.eq_ofNat_of_zero_le ha0
  have hn : n < height / 8 * (width / 8) * 31 := by exact_mod_cast ha1
  have hsx : 0 < width / 8 := by
    rcases Nat.eq_zero_or_pos (width / 8) with h | h
    · rw [h] at hn; simp at hn
    · exact h
  have hx : n / 31 % (width / 8) < width / 8 := Nat.mod_lt _ hsx
  have hy : n / 31 / (width / 8) < height / 8 := by
    rw [Nat.div_lt_iff_lt_mul hsx, Nat.div_lt_iff_lt_mul (by norm_num)]
    exact hn
  rw [HogExtractFeatures_eq, HogExtractFeatures_eq]
  simp only [hC]
  rw [if_pos ⟨ha0, ha1⟩, if_pos ⟨ha0, ha1⟩]
  simp only [specStore, Int.toNat_natCast]
  rw [neighbours_congr _ _ (width / 8) (height / 8) _ _ hx hy hN]
  apply specChannel_congr _ _ _ _ (Nat.mod_lt _ (by norm_num))
  intro o ho
  unfold cellHistogram
  have hr := cell_entry_range (width / 8) (height / 8) _ _ o hx hy ho
  exact hH _ hr.1 hr.2

/-- Claim C27.  For a valid image `src` and an integer `c`, let `src2` be an
image of the same layout whose every pixel is the pixel of `src` plus `c` (both
are bytes, so no pixel leaves `[0, 255]`).  Then `HogExtractFeatures` stores
the same value at every offset of the descriptor for both images, whatever the
memory around the extractor and the previous content of the outputs, and the
same output array when started on the same array: only differences of pixels
enter the computation. -/
theorem brightness_offset_invariance (env : FloatEnv) (src src2 : Bytes)
    (stride width height : ℕ) (g1 g2 : State) (f1 f2 : Mem) (c : ℤ)
    (hv : Valid stride width height)
    (hshift : ∀ r col : ℕ, r < height → col < width →
      ((src2 ((stride : ℤ) * (r : ℤ) + (col : ℤ))).val : ℤ)
        = ((src ((stride : ℤ) * (r : ℤ) + (col : ℤ))).val : ℤ) + c) :
    (∀ a : ℤ, 0 ≤ a → a < ((height / 8 * (width / 8) * 31 : ℕ) : ℤ) →
        HogExtractFeatures env src2 stride width height g2 f2 a
          = HogExtractFeatures env src stride width height g1 f1 a) ∧
      (f1 = f2 →
        HogExtractFeatures env src2 stride width height g2 f2
          = HogExtractFeatures env src stride width height g1 f1) := by
  have hgrad : ∀ r col : ℕ, 1 ≤ r → r + 2 ≤ height → 1 ≤ col → col + 2 ≤ width →
      gradX src2 ((stride : ℤ) * (r : ℤ) + (col : ℤ))
          = gradX src ((stride : ℤ) * (r : ℤ) + (col : ℤ)) ∧
        gradY src2 stride ((stride : ℤ) * (r : ℤ) + (col : ℤ))
          = gradY src stride ((stride : ℤ) * (r : ℤ) + (col : ℤ)) := by
    intro r col hr1 hr2 hc1 hc2
    have ex1 : (stride : ℤ) * (r : ℤ) + (col : ℤ) + 1
        = (stride : ℤ) * (r : ℤ) + ((col + 1 : ℕ) : ℤ) := by push_cast; ring
    have ex2 : (stride : ℤ) * (r : ℤ) + (col : ℤ) - 1
        = (stride : ℤ) * (r : ℤ) + ((col - 1 : ℕ) : ℤ) := by
      rw [Nat.cast_sub hc1]; push_cast; ring
    have ey1 : (stride : ℤ) * (r : ℤ) + (col : ℤ) + (stride : ℤ)
        = (stride : ℤ) * ((r + 1 : ℕ) : ℤ) + (col : ℤ) := by push_cast; ring
    have ey2 : (stride : ℤ) * (r : ℤ) + (col : ℤ) - (stride : ℤ)
        = (stride : ℤ) * ((r - 1 : ℕ) : ℤ) + (col : ℤ) := by
      rw [Nat.cast_sub hr1]; push_cast; ring
    constructor
    · unfold gradX
      rw [ex1, ex2, hshift r (col + 1) (by omega) (by omega),
        hshift r (col - 1) (by omega) (by omega)]
      congr 1
      ring
    · unfold gradY
      rw [ey1, ey2, hshift (r + 1) col (by omega) (by omega),
        hshift (r - 1) col (by omega) (by omega)]
      congr 1
      ring
  have hin : ∀ a : ℤ, 0 ≤ a → a < ((height / 8 * (width / 8) * 31 : ℕ) : ℤ) →
      HogExtractFeatures env src2 stride width height g2 f2 a
        = HogExtractFeatures env src stride width height g1 f1 a := by
    intro a ha0 ha1
    exact features_congr_gradients env src2 src stride stride width height g2 g1 f2 f1 hv hv
      hgrad a ha0 ha1
  refine ⟨hin, ?_⟩
  intro hf
  subst hf
  funext a
  by_cases ha : 0 ≤ a ∧ a < ((height / 8 * (width / 8) * 31 : ℕ) : ℤ)
  · exact hin a ha.1 ha.2
  · have hC : C = 8 := rfl
    rw [HogExtractFeatures_eq, HogExtractFeatures_eq]
    simp only [hC]
    rw [if_neg ha, if_neg ha]

theorem dimStepImage_shift (r col : ℕ) (hc : col < 16) :
    ((dimStepImageUp (((16 : ℕ) : ℤ) * (r : ℤ) + (col : ℤ))).val : ℤ)
      = ((dimStepImage (((16 : ℕ) : ℤ) * (r : ℤ) + (col : ℤ))).val : ℤ) + 30 := by
  unfold dimStepImageUp dimStepImage
  have h : (((16 : ℕ) : ℤ) * (r : ℤ) + (col : ℤ)) % 16 = (col : ℤ) := by
    push_cast
    omega
  rw [h]
  by_cases h8 : (8 : ℤ) ≤ (col : ℤ)
  · rw [if_pos h8, if_pos h8]
    rfl
  · rw [if_neg h8, if_neg h8]
    rfl

/-- The statement of `brightness_offset_invariance` for the dim 16x16 step-edge
image and the offset 30. -/
theorem brightness_offset_invariance_witness :
    (∀ a : ℤ, 0 ≤ a → a < ((16 / 8 * (16 / 8) * 31 : ℕ) : ℤ) →
        HogExtractFeatures floatEnv dimStepImageUp 16 16 16 rampState (fun _ => 0) a
          = HogExtractFeatures floatEnv dimStepImage 16 16 16 zeroState (fun _ => 0) a) ∧
      (((fun _ => 0) : Mem) = (fun _ => 0) →
        HogExtractFeatures floatEnv dimStepImageUp 16 16 16 rampState (fun _ => 0)
          = HogExtractFeatures floatEnv dimStepImage 16 16 16 zeroState (fun _ => 0)) :=
  brightness_offset_invariance floatEnv dimStepImage dimStepImageUp 16 16 16 zeroState rampState
    (fun _ => 0) (fun _ => 0) 30 (by decide)
    (fun r col _ hc => dimStepImage_shift r col hc)

end Avx2
end Simd
